import Mathlib

/-!
The two route solvers of go-pathfinder over a node set

A shallow embedding of `types.go`, `nodes.go`, `fast.go` and `weighted.go`.

* A Go `map[int]T` whose keys are only read and written one at a time
  (`visited`, `weights`) is a function `Int → Option T`.
* `NodeSet` (`map[int]Node`) is an association list in which the first
  entry of a key is the live one; looking up an absent key gives the zero
  `Node`, as indexing a Go map does.  Node ids and distances are unbounded
  integers: a distance is below the number of connection entries, which a Go
  `int` holds.
* A `float64` cost is the rational it denotes; `math.MaxFloat64` is its exact
  rational value, and `+Inf` and `-Inf` are stood for by `2^2000` and
  `-2^2000`.  The sum of two costs is rounded as IEEE 754 prescribes for
  binary64: to the nearest value `m * 2^(e - 52)` with `m ≤ 2^53` and
  `-1022 ≤ e ≤ 1023`, ties to the even `m`, and to an infinity past
  `MaxFloat64`.  Comparisons of costs are comparisons of rationals.  `NaN`
  has no counterpart: a weight function is taken to return finite costs.
* Both solvers contain loops that the Go code does not bound.  Each loop
  takes a `fuel` argument, the number of iterations it may run; `none`
  means the fuel ran out before the loop ended.
* `sort.Sort` is the standard library's; it is embedded as the insertion
  sort it performs on slices of fewer than 12 elements, driven by
  `ByWeight.Less`.  On longer slices the library's order among elements that
  `Less` does not separate may differ.
* `WeightedSolver` sorts `nodes[walk].Connections` in place, so the walk back
  threads the node set through and returns it.  Each node is taken to own its
  connection slice (no two nodes share a backing array).
* A `nil` slice and an empty slice are both the empty list.
* `calls` fields are ghost state: the arguments the callback was invoked on,
  in order.
-/

namespace Pathfinder

/-! ## types.go -/

/-- Node of the graph: `Id`, `Connections`, and the custom `Data`
(`interface{}`, `none` being `nil`). -/
structure Node (δ : Type) where
  Id : Int
  Connections : List Int
  Data : Option δ

/-- Queue element: the node `To` and the node `From` it was reached from. -/
structure Connection where
  To : Int
  From : Int
deriving DecidableEq, Repr

/-- Error values: the two package variables, and any other error a callback
may hand back. -/
inductive Error where
  | ErrInvalidNode
  | ErrNoPathFound
  | other (code : Nat)
deriving DecidableEq, Repr

/-- Go map from `int`, as a function that is `none` off its keys. -/
abbrev IntMap (β : Type) := Int → Option β

/-- The empty map `map[int]T{}`. -/
def IntMap.empty {β : Type} : IntMap β := fun _ => none

/-- Assignment `m[k] = v`. -/
def IntMap.set {β : Type} (m : IntMap β) (k : Int) (v : β) : IntMap β :=
  fun x => if x = k then some v else m x

/-- One-value read `m[k]`: the zero value when `k` is absent. -/
def IntMap.read {β : Type} [Zero β] (m : IntMap β) (k : Int) : β :=
  (m k).getD 0

/-! ## nodes.go -/

/-- The node set `map[int]Node`. -/
structure NodeSet (δ : Type) where
  entries : List (Int × Node δ)

variable {δ : Type}

/-- Function `NewNodeSet`: `make(NodeSet, size)`. -/
def NewNodeSet (δ : Type) (_size : Nat) : NodeSet δ := ⟨[]⟩

/-- Method `RegisterNode`: `nodes[id] = Node{id, connections, data}`. -/
def NodeSet.RegisterNode (nodes : NodeSet δ) (id : Int) (connections : List Int)
    (data : Option δ) : NodeSet δ :=
  ⟨(id, ⟨id, connections, data⟩) :: nodes.entries.filter (fun e => e.1 ≠ id)⟩

/-- Index expression `nodes[id]`: the zero `Node` when `id` is absent. -/
def NodeSet.get (nodes : NodeSet δ) (id : Int) : Node δ :=
  (nodes.entries.lookup id).getD ⟨0, [], none⟩

/-- Expression `nodes[id].Connections`. -/
def NodeSet.conns (nodes : NodeSet δ) (id : Int) : List Int :=
  (nodes.get id).Connections

/-- Writes through the slice `nodes[id].Connections`: the live entry of `id`
gets the connection list `cs`; nothing happens when `id` is absent. -/
def setConnections : List (Int × Node δ) → Int → List Int → List (Int × Node δ)
  | [], _, _ => []
  | (k, n) :: rest, id, cs =>
    if k = id then (k, { n with Connections := cs }) :: rest
    else (k, n) :: setConnections rest id cs

/-! ## fast.go -/

/-- Type `CheckFunc`. -/
abbrev CheckFunc (δ : Type) := NodeSet δ → Int → Bool

/-- Function `CheckAll`: every node may be visited. -/
def CheckAll : CheckFunc δ := fun _ _ => true

/-- State of the search loop of `FastSolver`. -/
structure FastState where
  visited : IntMap Int
  queue : List Connection
  calls : List Int

/-- Lines 42-50 of fast.go: the body of the loop over the connections of
`current.To`, for the connection `connectionId`. -/
def fastVisit (nodes : NodeSet δ) (check : CheckFunc δ) (cur connectionId : Int)
    (s : FastState) : FastState :=
  match s.visited connectionId with
  | some _ => s
  | none =>
    { visited := s.visited.set connectionId (-1)
      queue := if check nodes connectionId then s.queue ++ [⟨connectionId, cur⟩]
               else s.queue
      calls := s.calls ++ [connectionId] }

/-- Lines 41-51 of fast.go: the loop over the connections of `current.To`. -/
def fastExpand (nodes : NodeSet δ) (check : CheckFunc δ) (cur : Int) :
    List Int → FastState → FastState
  | [], s => s
  | connectionId :: rest, s =>
    fastExpand nodes check cur rest (fastVisit nodes check cur connectionId s)

/-- Lines 26-52 of fast.go: the search loop.  The result is the state at the
exit of the loop together with `current`. -/
def fastSearch (nodes : NodeSet δ) (check : CheckFunc δ) (toId : Int) :
    Nat → FastState → Connection → Option (FastState × Connection)
  | 0, s, current =>
    match s.queue with
    | [] => some (s, current)
    | _ :: _ => none
  | fuel + 1, s, current =>
    match s.queue with
    | [] => some (s, current)
    | cur :: queue =>
      let visited :=
        if cur.From ≠ -1 then s.visited.set cur.To (s.visited.read cur.From + 1)
        else s.visited
      if cur.To = toId then some ({ s with visited := visited, queue := queue }, cur)
      else
        fastSearch nodes check toId fuel
          (fastExpand nodes check cur.To (nodes.conns cur.To)
            { s with visited := visited, queue := queue })
          cur

/-- Lines 71-81 of fast.go: the loop over the connections of `walk`; the
result is the new value of `walk`. -/
def fastScan (visited : IntMap Int) (dist : Int) : List Int → Int → Int
  | [], walk => walk
  | connId :: rest, walk =>
    match visited connId with
    | none => fastScan visited dist rest walk
    | some cdist =>
      if cdist = dist - 1 then fastScan visited dist rest connId
      else fastScan visited dist rest walk

/-- Lines 62-82 of fast.go: the walk back from the target to the source. -/
def fastWalk (nodes : NodeSet δ) (visited : IntMap Int) (fromId : Int) :
    Nat → Int → List Int → Option (List Int)
  | 0, _, _ => none
  | fuel + 1, walk, path =>
    if walk = fromId then some (walk :: path)
    else
      fastWalk nodes visited fromId fuel
        (fastScan visited (visited.read walk) (nodes.conns walk) walk) (walk :: path)

/-- Initial state of the search: the queue holds the start node, which is
visited with distance 0. -/
def fastInit (fromId : Int) : FastState :=
  { visited := IntMap.empty.set fromId 0, queue := [⟨fromId, -1⟩], calls := [] }

/-- Method `FastSolver`: the path and the error it returns (`nil` is the
empty list), or `none` when `fuel` iterations of a loop were not enough. -/
def NodeSet.FastSolver (nodes : NodeSet δ) (fuel : Nat) (fromId toId : Int)
    (check : CheckFunc δ) : Option (List Int × Option Error) :=
  match fastSearch nodes check toId fuel (fastInit fromId) ⟨0, 0⟩ with
  | none => none
  | some (s, current) =>
    if current.To ≠ toId then some ([], some Error.ErrNoPathFound)
    else
      match fastWalk nodes s.visited fromId fuel toId [] with
      | none => none
      | some path => some (path, none)

/-! ## weighted.go -/

/-- Constant `math.MaxFloat64`, `(2 - 2^(-52)) * 2^1023`. -/
def MaxFloat64 : ℚ :=
  179769313486231570814527423731704356798070567525844996598917476803157260780028538760589558632766878171540458953514382464234321326889464182768467546703537516986049910576551282076245490090389328944075868508455133942304583236903222948165808559332123348274797826204144723168738177180919299881250404026184124858368

/-- Stand-in for `+Inf`: a value past every finite `float64`, kept by the
rounding and by adding any finite cost. -/
def f64inf : ℚ := (((1 : ℕ) <<< 2000 : ℕ) : ℚ)

/-- The power of two `2^k`. -/
def pow2 (k : ℤ) : ℚ :=
  if 0 ≤ k then (((1 : ℕ) <<< k.toNat : ℕ) : ℚ) else 1 / (((1 : ℕ) <<< (-k).toNat : ℕ) : ℚ)

/-- Bisection for the exponent `e` in `lo ≤ e < hi` with `2^e ≤ a < 2^(e+1)`. -/
def binadeSearch : ℕ → ℤ → ℤ → ℚ → ℤ
  | 0, lo, _, _ => lo
  | fuel + 1, lo, hi, a =>
    if hi ≤ lo + 1 then lo
    else if pow2 ((lo + hi) / 2) ≤ a then binadeSearch fuel ((lo + hi) / 2) hi a
    else binadeSearch fuel lo ((lo + hi) / 2) a

/-- Exponent of the binary64 format for the magnitude `a`: the `e` with
`2^e ≤ a < 2^(e+1)`, but `-1022` below `2^(-1022)` (subnormal values) and
`1024` from `2^1024` on (past the format). -/
def binade (a : ℚ) : ℤ :=
  if a < pow2 (-1022) then -1022
  else if pow2 1024 ≤ a then 1024
  else binadeSearch 12 (-1022) 1024 a

/-- Rounding to the nearest integer, ties to the even one. -/
def roundHalfEven (q : ℚ) : ℤ :=
  if q - ⌊q⌋ < 1 / 2 then ⌊q⌋
  else if 1 / 2 < q - ⌊q⌋ then ⌊q⌋ + 1
  else if ⌊q⌋ % 2 = 0 then ⌊q⌋ else ⌊q⌋ + 1

/-- The magnitude `a` rounded to the nearest multiple of `2^(e - 52)`, `e`
being its exponent: 53 significant bits. -/
def f64grid (a : ℚ) : ℚ :=
  (roundHalfEven (a / pow2 (binade a - 52)) : ℚ) * pow2 (binade a - 52)

/-- The magnitude `a` as a `float64`: rounded, and infinite when the rounded
value is past `MaxFloat64`. -/
def f64mag (a : ℚ) : ℚ :=
  if MaxFloat64 < f64grid a then f64inf else f64grid a

/-- The rational `x` as a `float64`.  Integers up to `2^53` in magnitude are
`float64` values as they are. -/
def f64round (x : ℚ) : ℚ :=
  if x.den = 1 ∧ x.num.natAbs ≤ 2 ^ 53 then x
  else if x < 0 then -f64mag (-x) else f64mag x

/-- Expression `a + b` on `float64` operands. -/
def f64add (a b : ℚ) : ℚ := f64round (a + b)

/-- Method `ByWeight.Less`, on the two node ids at the positions compared. -/
def ByWeight.Less (weight : IntMap ℚ) (a b : Int) : Bool :=
  match weight a with
  | none => false
  | some fromWeight =>
    match weight b with
    | none => true
    | some toWeight => decide (fromWeight < toWeight)

/-- Inner loop of the insertion sort: `x` moves towards the front while it is
`Less` than its left neighbour.  The slice before `x` is given back to
front. -/
def insertionStep (less : Int → Int → Bool) (x : Int) : List Int → List Int
  | [] => [x]
  | y :: ys => if less x y then y :: insertionStep less x ys else x :: y :: ys

/-- Outer loop of the insertion sort; `done` is the ordered slice so far,
back to front. -/
def insertionLoop (less : Int → Int → Bool) : List Int → List Int → List Int
  | done, [] => done.reverse
  | done, x :: rest => insertionLoop less (insertionStep less x done) rest

/-- Call `sort.Sort(ByWeight{nodes, weight})`, giving the slice afterwards:
the insertion sort that `sort.Sort` runs on a slice of fewer than 12
elements. -/
def sortByWeight (weight : IntMap ℚ) (l : List Int) : List Int :=
  insertionLoop (ByWeight.Less weight) [] l

/-- Type `WeightFunc`: the weight and the error returned for
`(nodes, previous, current, to)`. -/
abbrev WeightFunc (δ : Type) := NodeSet δ → Int → Int → Int → ℚ × Option Error

/-- Function `WeightFuncConnections`: the same weight for every node. -/
def WeightFuncConnections : WeightFunc δ := fun _ _ _ _ => (1, none)

/-- State of the relaxation loop of `WeightedSolver`. -/
structure RelaxState where
  weights : IntMap ℚ
  top : ℚ
  queue : List Connection
  calls : List (Int × Int × Int)

/-- How the relaxation loop stood when it was left. -/
inductive RelaxStatus where
  | drained
  | aborted (err : Error)
  | outOfFuel
deriving DecidableEq, Repr

/-- Lines 75-110 of weighted.go: the body of the loop over the connections
of `current.To`, for the connection `connectionId`.  The error is the one the
solver bails out with; `none` is the end of the iteration (by `continue` or by
reaching the end of the body). -/
def relaxEdge (nodes : NodeSet δ) (weightFunc : WeightFunc δ) (toId : Int)
    (current : Connection) (connectionId : Int) (s : RelaxState) :
    RelaxState × Option Error :=
  let r := weightFunc nodes current.From current.To connectionId
  let s := { s with calls := s.calls ++ [(current.From, current.To, connectionId)] }
  match r.2 with
  | some err => if err = Error.ErrInvalidNode then (s, none) else (s, some err)
  | none =>
    let newWeight := f64add (s.weights.read current.To) r.1
    if newWeight > s.top then (s, none)
    else
      let better :=
        match s.weights connectionId with
        | none => true
        | some weight => decide (newWeight < weight)
      if better then
        let s := { s with weights := s.weights.set connectionId newWeight }
        if connectionId = toId then ({ s with top := newWeight }, none)
        else ({ s with queue := s.queue ++ [⟨connectionId, current.To⟩] }, none)
      else (s, none)

/-- Lines 74-110 of weighted.go: the loop over the connections of
`current.To`; the error is the one the loop bailed out with, if any. -/
def relaxConnections (nodes : NodeSet δ) (weightFunc : WeightFunc δ) (toId : Int)
    (current : Connection) : List Int → RelaxState → RelaxState × Option Error
  | [], s => (s, none)
  | connectionId :: rest, s =>
    match relaxEdge nodes weightFunc toId current connectionId s with
    | (s, some err) => (s, some err)
    | (s, none) => relaxConnections nodes weightFunc toId current rest s

/-- Lines 69-112 of weighted.go: the relaxation loop. -/
def relaxLoop (nodes : NodeSet δ) (weightFunc : WeightFunc δ) (toId : Int) :
    Nat → RelaxState → RelaxState × RelaxStatus
  | 0, s =>
    match s.queue with
    | [] => (s, RelaxStatus.drained)
    | _ :: _ => (s, RelaxStatus.outOfFuel)
  | fuel + 1, s =>
    match s.queue with
    | [] => (s, RelaxStatus.drained)
    | current :: queue =>
      match relaxConnections nodes weightFunc toId current (nodes.conns current.To)
          { s with queue := queue } with
      | (s, some err) => (s, RelaxStatus.aborted err)
      | (s, none) => relaxLoop nodes weightFunc toId fuel s

/-- Lines 129-138 of weighted.go: the first connection that has a weight
becomes `walk`. -/
def firstWeighted (weights : IntMap ℚ) : List Int → Int → Int
  | [], walk => walk
  | connId :: rest, walk =>
    match weights connId with
    | none => firstWeighted weights rest walk
    | some _ => connId

/-- Statement `sort.Sort(ByWeight{nodes[walk].Connections, weights})`: the
connection slice of `walk` is sorted in place.  The slice is taken to share
its backing array with no other slice, so no other entry changes. -/
def sortConnections (nodes : NodeSet δ) (weights : IntMap ℚ) (walk : Int) : NodeSet δ :=
  ⟨setConnections nodes.entries walk (sortByWeight weights (nodes.conns walk))⟩

/-- Lines 117-144 of weighted.go: the walk back from the target.  The result
is `walk` and `path` at the exit of the loop, and the node set as the sorts
left it. -/
def weightedWalk (weights : IntMap ℚ) (fromId : Int) :
    Nat → NodeSet δ → Int → List Int → Option (Int × List Int × NodeSet δ)
  | 0, _, _, _ => none
  | fuel + 1, nodes, walk, path =>
    if walk = fromId then some (walk, walk :: path, nodes)
    else
      let nodes := sortConnections nodes weights walk
      let next := firstWeighted weights (nodes.conns walk) walk
      if next = walk then some (next, walk :: path, nodes)
      else weightedWalk weights fromId fuel nodes next (walk :: path)

/-- Initial state of the relaxation: `from` has weight 0 and is queued. -/
def relaxInit (fromId : Int) : RelaxState :=
  { weights := IntMap.empty.set fromId 0, top := MaxFloat64,
    queue := [⟨fromId, -1⟩], calls := [] }

/-- Method `WeightedSolver` together with its effect on the node set: the
path, the error and the node set after the call. -/
def NodeSet.weightedRun (nodes : NodeSet δ) (fuel : Nat) (fromId toId : Int)
    (weightFunc : WeightFunc δ) : Option (List Int × Option Error × NodeSet δ) :=
  match relaxLoop nodes weightFunc toId fuel (relaxInit fromId) with
  | (_, RelaxStatus.outOfFuel) => none
  | (_, RelaxStatus.aborted err) => some ([], some err, nodes)
  | (s, RelaxStatus.drained) =>
    match weightedWalk s.weights fromId fuel nodes toId [] with
    | none => none
    | some (walk, path, nodes) =>
      if walk ≠ fromId then some ([], some Error.ErrNoPathFound, nodes)
      else some (path, none, nodes)

/-- Method `WeightedSolver`: the path and the error it returns, or `none`
when `fuel` iterations of a loop were not enough. -/
def NodeSet.WeightedSolver (nodes : NodeSet δ) (fuel : Nat) (fromId toId : Int)
    (weightFunc : WeightFunc δ) : Option (List Int × Option Error) :=
  (nodes.weightedRun fuel fromId toId weightFunc).map (fun r => (r.1, r.2.1))

/-! ## Vocabulary of the properties -/

/-- Route of the graph: each node is in the connection list of the one
before it. -/
def IsRoute (nodes : NodeSet δ) : List Int → Prop
  | [] => True
  | [_] => True
  | a :: b :: rest => b ∈ nodes.conns a ∧ IsRoute nodes (b :: rest)

/-- Total weight of a route under `weightFunc`; `previous` is the node before
the head of the route (`-1` at the source, as in the solver). -/
def routeWeight (nodes : NodeSet δ) (weightFunc : WeightFunc δ) : Int → List Int → ℚ
  | _, [] => 0
  | _, [_] => 0
  | previous, a :: b :: rest =>
    (weightFunc nodes previous a b).1 + routeWeight nodes weightFunc a (b :: rest)

/-- The error the relaxation was aborted with, if it was. -/
def RelaxStatus.error : RelaxStatus → Option Error
  | RelaxStatus.aborted err => some err
  | _ => none

/-- The calls logged so far are consistent with the outcome `oe`: a call on
which the weight function fails with an error other than `ErrInvalidNode` is
the outcome, and the outcome is never `ErrInvalidNode`. -/
def CallsAgree (nodes : NodeSet δ) (weightFunc : WeightFunc δ)
    (calls : List (Int × Int × Int)) (oe : Option Error) : Prop :=
  (∀ call ∈ calls, ∀ e, (weightFunc nodes call.1 call.2.1 call.2.2).2 = some e →
      e ≠ Error.ErrInvalidNode → oe = some e) ∧
    ∀ e, oe = some e → e ≠ Error.ErrInvalidNode

/-! ## Graphs and callbacks of the concrete scenarios -/

/-- The chain 1-2-3-4 with the direct edge 1-4; the arguments are the
connection lists of 1, 2, 3 and 4. -/
def chainGraph (c1 c2 c3 c4 : List Int) : NodeSet Unit :=
  ((((NewNodeSet Unit 4).RegisterNode 1 c1 none).RegisterNode 2 c2 none).RegisterNode 3 c3
    none).RegisterNode 4 c4 none

/-- Weight 1.0 for every edge, except that the edge with current = 1 and
candidate = 4 is vetoed. -/
def vetoEdge14 : WeightFunc Unit := fun _ _ current cand =>
  if current = 1 ∧ cand = 4 then (0, some Error.ErrInvalidNode) else (1, none)

/-- Undirected square 1-2-4-3-1. -/
def squareGraph : NodeSet Unit :=
  ((((NewNodeSet Unit 4).RegisterNode 1 [2, 3] none).RegisterNode 2 [1, 4] none).RegisterNode 3
    [1, 4] none).RegisterNode 4 [2, 3] none

/-- Edge weights on the square, the same in both directions: 1-2 costs 1,
2-4 costs 10, 1-3 costs 2 and 3-4 costs 1. -/
def squareWeight : WeightFunc Unit := fun _ _ current cand =>
  if (current = 2 ∧ cand = 4) ∨ (current = 4 ∧ cand = 2) then (10, none)
  else if (current = 1 ∧ cand = 3) ∨ (current = 3 ∧ cand = 1) then (2, none)
  else (1, none)

/-- Undirected line 1-2-3. -/
def lineGraph : NodeSet Unit :=
  (((NewNodeSet Unit 3).RegisterNode 1 [2] none).RegisterNode 2 [1, 3] none).RegisterNode 3
    [2] none

/-- Weight 1.0 for every edge, except that every edge whose candidate is 3
is vetoed. -/
def vetoNode3 : WeightFunc Unit := fun _ _ _ cand =>
  if cand = 3 then (0, some Error.ErrInvalidNode) else (1, none)

/-- Undirected star around 2, with leaves 1, 3 and 4. -/
def starGraph : NodeSet Unit :=
  ((((NewNodeSet Unit 4).RegisterNode 1 [2] none).RegisterNode 2 [1, 4, 3] none).RegisterNode 3
    [2] none).RegisterNode 4 [2] none

/-- Weight 1.0 for every edge, except that every edge whose candidate is 4
is vetoed. -/
def vetoNode4 : WeightFunc Unit := fun _ _ _ cand =>
  if cand = 4 then (0, some Error.ErrInvalidNode) else (1, none)

/-- Weight function that fails with an error of its own on every edge. -/
def failingWeight : WeightFunc Unit := fun _ _ _ _ => (0, some (Error.other 7))

/-- The node set `after` is `before` up to the order inside each connection
list: the same ids are registered, with the same `Id` and `Data`, and every
connection list is a permutation of what it was. -/
def SameUpToOrder (before after : NodeSet δ) : Prop :=
  ∀ id : Int,
    (after.conns id).Perm (before.conns id) ∧
      (after.get id).Id = (before.get id).Id ∧
      (after.get id).Data = (before.get id).Data ∧
      (after.entries.lookup id).isSome = (before.entries.lookup id).isSome

/-- Predicate that rejects node 4 and accepts every other node. -/
def rejectNode4 : CheckFunc Unit := fun _ id => decide (id ≠ 4)

/-- What the `visited` map of `FastSolver` records: no value is below the
placeholder `-1`, and a node with a distance (a value from 0 on) is the source
or was accepted by `check`. -/
def VisitedAdmitted (nodes : NodeSet δ) (check : CheckFunc δ) (fromId : Int)
    (visited : IntMap Int) : Prop :=
  ∀ x v, visited x = some v → -1 ≤ v ∧ (0 ≤ v → x = fromId ∨ check nodes x = true)

/-- Admitted route from `fromId` to `toId`: a sequence `fromId = v0, ..., vk =
toId` in which each node is in the connection list of the one before it and
`check` accepts every node but the first, which is not submitted to it. -/
def AdmittedRoute (nodes : NodeSet δ) (check : CheckFunc δ) (fromId toId : Int)
    (p : List Int) : Prop :=
  p.head? = some fromId ∧ p.getLast? = some toId ∧ IsRoute nodes p ∧
    ∀ x ∈ p.tail, check nodes x = true

/-- The node is the end of an admitted route of `n` edges from `fromId`. -/
inductive ReachIn (nodes : NodeSet δ) (check : CheckFunc δ) (fromId : Int) : Nat → Int → Prop
  | source : ReachIn nodes check fromId 0 fromId
  | step {n : Nat} {u c : Int} : ReachIn nodes check fromId n u → c ∈ nodes.conns u →
      check nodes c = true → ReachIn nodes check fromId (n + 1) c

/-- Every id that occurs in a connection list of the node set. -/
def allConns (nodes : NodeSet δ) : List Int :=
  nodes.entries.flatMap (fun e => e.2.Connections)

/-- Number of positions of `l` that hold an id not yet in `visited`. -/
def unvisited {β : Type} (visited : IntMap β) (l : List Int) : Nat :=
  l.countP (fun x => (visited x).isNone)

/-- Invariant of the search loop of `FastSolver` behind its completeness: the
source is visited, and a visited node is waiting in the queue, or is not the
target and has all its connections visited, or was rejected by `check`. -/
def SearchClosed (nodes : NodeSet δ) (check : CheckFunc δ) (fromId toId : Int)
    (s : FastState) : Prop :=
  (∃ v, s.visited fromId = some v) ∧
    ∀ x v, s.visited x = some v →
      (∃ e ∈ s.queue, e.To = x) ∨
      (x ≠ toId ∧ ∀ c ∈ nodes.conns x, ∃ w, s.visited c = some w) ∨
      (check nodes x = false ∧ x ≠ fromId)

/-- Invariant of the search loop of `FastSolver` on graphs without the id
`-1` behind the distances it records.  `L` is the distance of the node
dequeued last; `exempt` is that node while its connections are still to be
looped over.

* `source`: the source has distance 0;
* `level`: `L` is not negative;
* `dist`: a value of the map is the placeholder `-1` or the length, at most
  `L`, of an admitted route to the node;
* `queue`: a queued node holds the placeholder, is accepted, and is a
  connection of its `From`, whose distance is `L - 1` or `L`;
* `sorted`: the queue is ordered by the distance of `From`;
* `nodup`: no node is queued twice;
* `pending`: a node holding the placeholder was rejected or is queued;
* `closed`: an accepted connection of a node with distance `k` has a distance
  of at most `k + 1` or is queued behind a `From` of distance at most `k`. -/
structure LevelInv (nodes : NodeSet δ) (check : CheckFunc δ) (fromId : Int) (L : Int)
    (exempt : Option Int) (s : FastState) : Prop where
  source : s.visited fromId = some 0
  level : 0 ≤ L
  dist : ∀ x k, s.visited x = some k →
    k = -1 ∨ (0 ≤ k ∧ k ≤ L ∧ ReachIn nodes check fromId k.toNat x)
  queue : ∀ e ∈ s.queue, e.From ≠ -1 ∧ s.visited e.To = some (-1) ∧
    check nodes e.To = true ∧ e.To ∈ nodes.conns e.From ∧
    ∃ k, s.visited e.From = some k ∧ 0 ≤ k ∧ L ≤ k + 1 ∧ k ≤ L
  sorted : s.queue.Pairwise (fun e e2 => s.visited.read e.From ≤ s.visited.read e2.From)
  nodup : (s.queue.map Connection.To).Nodup
  pending : ∀ x, s.visited x = some (-1) →
    check nodes x = false ∨ ∃ e ∈ s.queue, e.To = x
  closed : ∀ x k, s.visited x = some k → 0 ≤ k → some x ≠ exempt →
    ∀ c ∈ nodes.conns x, check nodes c = true →
      (∃ j, s.visited c = some j ∧ 0 ≤ j ∧ j ≤ k + 1) ∨
      (∃ e ∈ s.queue, e.To = c ∧ s.visited.read e.From ≤ k)

/-- The graph is undirected: `b` is a connection of `a` exactly when `a` is a
connection of `b`. -/
def SymmetricGraph (nodes : NodeSet δ) : Prop :=
  ∀ a b, b ∈ nodes.conns a ↔ a ∈ nodes.conns b

/-- The id `-1` is not a node of the graph: it is not registered and is in no
connection list. -/
def NoMinusOne (nodes : NodeSet δ) : Prop :=
  nodes.entries.lookup (-1) = none ∧ ∀ a, (-1 : Int) ∉ nodes.conns a

/-- An edge into `c` looked at from a node of weight `n` is settled: `c` has a
weight of at most `n + 1`, or `n + 1` is above `top` and the edge is pruned. -/
def EdgeClosed (s : RelaxState) (n : Nat) (c : Int) : Prop :=
  (∃ j : Nat, s.weights c = some (j : ℚ) ∧ j ≤ n + 1) ∨ s.top < (n : ℚ) + 1

/-- Invariant of the relaxation loop of `WeightedSolver` under the uniform
weight function.  `L` is the weight of the node dequeued last, `exempt` is that
node while its connections are still to be looped over, and `M` bounds the
number of iterations.

* `source`: the source has weight 0;
* `dist`: a weight is the length, at most `L + 1`, of a route to the node;
* `queue`: a queued node has a weight from `L` on;
* `sorted`: the queue is ordered by weight;
* `top`: `top` is still `MaxFloat64` and the target has no weight (or is the
  source), or `top` is the weight of the target and no weight is above it;
* `closed`: a node with a weight, the target apart, is queued or has all its
  edges settled;
* `size`: `L` and the work left (queued nodes and connection entries without a
  weight) stay within `M`;
* `bound`: no weight is above `M`. -/
structure RelaxInv (nodes : NodeSet δ) (fromId toId : Int) (M L : Nat)
    (exempt : Option Int) (s : RelaxState) : Prop where
  source : s.weights fromId = some 0
  dist : ∀ x k, s.weights x = some k →
    ∃ n : Nat, k = (n : ℚ) ∧ n ≤ L + 1 ∧ ReachIn nodes CheckAll fromId n x
  queue : ∀ e ∈ s.queue, ∃ n : Nat, s.weights e.To = some (n : ℚ) ∧ L ≤ n
  sorted : s.queue.Pairwise (fun e e2 => s.weights.read e.To ≤ s.weights.read e2.To)
  top : (s.top = MaxFloat64 ∧ (s.weights toId = none ∨ toId = fromId)) ∨
    (∃ n : Nat, s.top = (n : ℚ) ∧ s.weights toId = some (n : ℚ) ∧
      ∀ x k, s.weights x = some k → k ≤ (n : ℚ))
  closed : ∀ x (n : Nat), s.weights x = some (n : ℚ) → x ≠ toId → some x ≠ exempt →
    (∃ e ∈ s.queue, e.To = x) ∨ ∀ c ∈ nodes.conns x, EdgeClosed s n c
  size : L + (s.queue.length + unvisited s.weights (allConns nodes)) ≤ M
  bound : ∀ x k, s.weights x = some k → k ≤ (M : ℚ)

/-! ## Vocabulary and scenarios of the later properties -/

/-- Node 1 with the connection list `[2]`; node 2 is not registered. -/
def danglingGraph : NodeSet Unit :=
  (NewNodeSet Unit 1).RegisterNode 1 [2] none

/-- Directed graph 1 → 2 → 3 → 2. -/
def cycleGraph : NodeSet Unit :=
  (((NewNodeSet Unit 3).RegisterNode 1 [2] none).RegisterNode 2 [3] none).RegisterNode 3 [2] none

/-- Undirected line 1-2-3-4, the connection list of 3 being `[4, 2]`. -/
def lineGraph4 : NodeSet Unit :=
  ((((NewNodeSet Unit 4).RegisterNode 1 [2] none).RegisterNode 2 [1, 3] none).RegisterNode 3
    [4, 2] none).RegisterNode 4 [3] none

/-- Edge weights on the line 1-2-3-4, the same in both directions: 1-2 costs 5
and the other edges cost 0. -/
def freeTailWeight : WeightFunc Unit := fun _ _ current cand =>
  if (current = 1 ∧ cand = 2) ∨ (current = 2 ∧ cand = 1) then (5, none) else (0, none)

/-- Directed graph with the edges 1 → 2, 1 → 3, 2 → 4, 3 → 1 and 4 → 3. -/
def oneWayGraph : NodeSet Unit :=
  ((((NewNodeSet Unit 4).RegisterNode 1 [2, 3] none).RegisterNode 2 [4] none).RegisterNode 3
    [1] none).RegisterNode 4 [3] none

/-- Lines 26-52 of fast.go, observed after at most `n` iterations of the
search loop: the state at the head of the loop then, or at its exit when the
loop ended before. -/
def fastIterate (nodes : NodeSet δ) (check : CheckFunc δ) (toId : Int) :
    Nat → FastState → FastState
  | 0, s => s
  | n + 1, s =>
    match s.queue with
    | [] => s
    | cur :: queue =>
      let visited :=
        if cur.From ≠ -1 then s.visited.set cur.To (s.visited.read cur.From + 1)
        else s.visited
      if cur.To = toId then { s with visited := visited, queue := queue }
      else
        fastIterate nodes check toId n
          (fastExpand nodes check cur.To (nodes.conns cur.To)
            { s with visited := visited, queue := queue })

/-- What the log of the calls of `check` satisfies during the search: no id
was submitted twice, the source was not submitted, every submitted id is
marked visited, a rejected one still holds the placeholder `-1`, and every
queued node is the source or was accepted. -/
structure CheckedOnce (nodes : NodeSet δ) (check : CheckFunc δ) (fromId : Int)
    (s : FastState) : Prop where
  nodup : s.calls.Nodup
  source : ∃ v, s.visited fromId = some v
  fresh : fromId ∉ s.calls
  marked : ∀ x ∈ s.calls, ∃ v, s.visited x = some v
  rejected : ∀ x ∈ s.calls, check nodes x = false → s.visited x = some (-1)
  queued : ∀ e ∈ s.queue, e.To = fromId ∨ check nodes e.To = true

/-- The predicate that rejects the node `X` and otherwise equals `check`. -/
def rejectAlso (check : CheckFunc δ) (X : Int) : CheckFunc δ :=
  fun nodes id => if id = X then false else check nodes id

/-! ## Weight functions and the relaxation in general -/

/-- The weight function returns only non-negative costs or vetoes
(`ErrInvalidNode`). -/
def NonNegOrVeto (nodes : NodeSet δ) (weightFunc : WeightFunc δ) : Prop :=
  ∀ p u c, (weightFunc nodes p u c).2 = some Error.ErrInvalidNode ∨
    ((weightFunc nodes p u c).2 = none ∧ 0 ≤ (weightFunc nodes p u c).1)

/-- The weight function returns only strictly positive costs or vetoes
(`ErrInvalidNode`). -/
def PositiveOrVeto (nodes : NodeSet δ) (weightFunc : WeightFunc δ) : Prop :=
  ∀ p u c, (weightFunc nodes p u c).2 = some Error.ErrInvalidNode ∨
    ((weightFunc nodes p u c).2 = none ∧ 0 < (weightFunc nodes p u c).1)

/-- The weight function depends only on the edge `(current, candidate)`, not
on the previous node. -/
def EdgeOnly (nodes : NodeSet δ) (weightFunc : WeightFunc δ) : Prop :=
  ∀ p p2 u c, weightFunc nodes p u c = weightFunc nodes p2 u c

/-- The weights returned for a sequence of calls `(previous, current,
candidate)` of the weight function, added up in `float64` from 0 in the order
of the calls. -/
def traceValue (nodes : NodeSet δ) (weightFunc : WeightFunc δ)
    (T : List (Int × Int × Int)) : ℚ :=
  T.foldl (fun acc e => f64add acc (weightFunc nodes e.1 e.2.1 e.2.2).1) 0

/-- The candidate of the last call of a sequence; the source when there is no
call. -/
def traceEnd (fromId : Int) (T : List (Int × Int × Int)) : Int :=
  match T.getLast? with
  | none => fromId
  | some e => e.2.2

/-- Every call `(previous, current, candidate)` the relaxation can make: the
candidate is in a connection list, the current node is the source or in a
connection list, and the previous node is `-1` or such a node. -/
def tripleList (nodes : NodeSet δ) (fromId : Int) : List (Int × Int × Int) :=
  List.product (-1 :: fromId :: allConns nodes)
    (List.product (fromId :: allConns nodes) (allConns nodes))

/-- Every sequence without repetition of calls the relaxation can make. -/
def allTraces (nodes : NodeSet δ) (fromId : Int) : List (List (Int × Int × Int)) :=
  (tripleList nodes fromId).sublists.flatMap List.permutations

/-- The sequence of calls ends at a node whose weight is absent or above the
value of the sequence. -/
def traceBelow (nodes : NodeSet δ) (weightFunc : WeightFunc δ) (weights : IntMap ℚ)
    (T : List (Int × Int × Int)) : Bool :=
  match T.getLast? with
  | none => false
  | some e =>
    match weights e.2.2 with
    | none => true
    | some w => decide (traceValue nodes weightFunc T < w)

/-- Number of sequences of calls that could still lower a weight: the
quantity that bounds the improvements left to the relaxation. -/
def tracePotential (nodes : NodeSet δ) (weightFunc : WeightFunc δ) (fromId : Int)
    (weights : IntMap ℚ) : Nat :=
  (allTraces nodes fromId).countP (traceBelow nodes weightFunc weights)

/-- The weight `v` of `x` is the value of the sequence of calls `T`: `T` ends
at `x`, no two of its calls have the same candidate, its calls are calls the
relaxation can make and have non-negative weights, and the candidate of each
call has a weight that is at most the value of the sequence up to that call. -/
structure IsTrace (nodes : NodeSet δ) (weightFunc : WeightFunc δ) (fromId : Int)
    (weights : IntMap ℚ) (T : List (Int × Int × Int)) (x : Int) (v : ℚ) : Prop where
  last : traceEnd fromId T = x
  value : traceValue nodes weightFunc T = v
  nodup : (T.map (fun e => e.2.2)).Nodup
  mem : ∀ e ∈ T, e ∈ tripleList nodes fromId
  nonneg : ∀ e ∈ T, 0 ≤ (weightFunc nodes e.1 e.2.1 e.2.2).1
  initial : ∀ T1 e T2, T = T1 ++ e :: T2 →
    ∃ w, weights e.2.2 = some w ∧ w ≤ traceValue nodes weightFunc (T1 ++ [e])

/-- Invariant of the relaxation loop behind its termination: every weight is
the value of a sequence of calls, and every queued node has a weight and is a
node the relaxation can reach. -/
structure TraceInv (nodes : NodeSet δ) (weightFunc : WeightFunc δ) (fromId : Int)
    (s : RelaxState) : Prop where
  traced : ∀ x v, s.weights x = some v → ∃ T, IsTrace nodes weightFunc fromId s.weights T x v
  queued : ∀ e ∈ s.queue, (∃ v, s.weights e.To = some v) ∧
    e.To ∈ fromId :: allConns nodes ∧ e.From ∈ -1 :: fromId :: allConns nodes

/-- Edge weights on the line 1-2-3-4, the same in both directions: 1-2 costs
`2^53` and the other edges cost 1. -/
def absorbWeight : WeightFunc Unit := fun _ _ current cand =>
  if (current = 1 ∧ cand = 2) ∨ (current = 2 ∧ cand = 1) then (9007199254740992, none)
  else (1, none)

/-- Weight function that returns the cost `MaxFloat64` for every edge. -/
def hugeWeight : WeightFunc Unit := fun _ _ _ _ => (MaxFloat64, none)

/-- No edge of the route is vetoed by the weight function; `previous` is the
node before the head of the route (`-1` at the source, as in the solver). -/
def NoVeto (nodes : NodeSet δ) (weightFunc : WeightFunc δ) : Int → List Int → Prop
  | _, [] => True
  | _, [_] => True
  | previous, a :: b :: rest =>
    (weightFunc nodes previous a b).2 = none ∧ NoVeto nodes weightFunc a (b :: rest)

/-- Route from `fromId` to `x` along edges of the graph that the weight
function does not veto.  A route may go through a node more than once. -/
def AllowedRoute (nodes : NodeSet δ) (weightFunc : WeightFunc δ) (fromId x : Int)
    (p : List Int) : Prop :=
  p.head? = some fromId ∧ p.getLast? = some x ∧ IsRoute nodes p ∧
    NoVeto nodes weightFunc (-1) p

/-- Cost of a route as the solver accumulates it: the costs of its edges
added in `float64`, one after the other from the start of the route, to
`acc`.  `previous` is the node before the head of the route (`-1` at the
source, as in the solver). -/
def routeCost64 (nodes : NodeSet δ) (weightFunc : WeightFunc δ) : ℚ → Int → List Int → ℚ
  | acc, _, [] => acc
  | acc, _, [_] => acc
  | acc, previous, a :: b :: rest =>
    routeCost64 nodes weightFunc (f64add acc (weightFunc nodes previous a b).1) a (b :: rest)

/-- The node is the end of a route from `fromId` along non-vetoed edges whose
costs, added in `float64` from the source on, come to the given total (for a
weight function that depends only on the edge). -/
inductive CostReach (nodes : NodeSet δ) (weightFunc : WeightFunc δ) (fromId : Int) :
    Int → ℚ → Prop
  | source : CostReach nodes weightFunc fromId fromId 0
  | step {u c : Int} {v : ℚ} : CostReach nodes weightFunc fromId u v → c ∈ nodes.conns u →
      (weightFunc nodes (-1) u c).2 = none →
      CostReach nodes weightFunc fromId c (f64add v (weightFunc nodes (-1) u c).1)

/-- The edge from `x`, of weight `v`, to `c` needs no further look: it is
vetoed, or it is pruned against `top`, or `c` has a weight that the edge does
not improve. -/
def Settled (nodes : NodeSet δ) (weightFunc : WeightFunc δ) (s : RelaxState) (v : ℚ)
    (x c : Int) : Prop :=
  (weightFunc nodes (-1) x c).2 ≠ none ∨ s.top < f64add v (weightFunc nodes (-1) x c).1 ∨
    ∃ k, s.weights c = some k ∧ k ≤ f64add v (weightFunc nodes (-1) x c).1

/-- The connections of `x` that have been looped over: all of them, except
for the node `active.1` being expanded, of which only `active.2` have. -/
def settledList (nodes : NodeSet δ) (active : Option (Int × List Int)) (x : Int) : List Int :=
  match active with
  | none => nodes.conns x
  | some (u, done) => if x = u then done else nodes.conns x

/-- Invariant of the relaxation loop for a weight function that depends only
on the edge and returns non-negative costs or vetoes:

* `source`: the source has weight 0;
* `sound`: a weight is the total cost of a route along non-vetoed edges;
* `top`: `top` is still `MaxFloat64` and the target has no weight, or `top` is
  the weight of the target and is at most `MaxFloat64`;
* `noTarget`: the target is never queued;
* `closed`: a node with a weight, the target apart, is queued or has all the
  edges looped over settled. -/
structure CostInv (nodes : NodeSet δ) (weightFunc : WeightFunc δ) (fromId toId : Int)
    (active : Option (Int × List Int)) (s : RelaxState) : Prop where
  source : s.weights fromId = some 0
  sound : ∀ x v, s.weights x = some v → CostReach nodes weightFunc fromId x v
  top : (s.top = MaxFloat64 ∧ s.weights toId = none) ∨
    (s.weights toId = some s.top ∧ s.top ≤ MaxFloat64)
  noTarget : ∀ e ∈ s.queue, e.To ≠ toId
  closed : ∀ x v, s.weights x = some v → x ≠ toId →
    (∃ e ∈ s.queue, e.To = x) ∨
      ∀ c ∈ settledList nodes active x, Settled nodes weightFunc s v x c

/-! ## The constant `MaxFloat64` -/

theorem maxFloat64_eq : MaxFloat64 = (2 ^ 53 - 1) * 2 ^ 971 := by
  norm_num [MaxFloat64]

/-! ## More fuel does not change a result -/

theorem fastSearch_mono (nodes : NodeSet δ) (check : CheckFunc δ) (toId : Int) :
    ∀ (fuel : Nat) (s : FastState) (cur : Connection) (r : FastState × Connection),
      fastSearch nodes check toId fuel s cur = some r →
      fastSearch nodes check toId (fuel + 1) s cur = some r := by
  intro fuel
  induction fuel with
  | zero =>
    intro s cur r h
    cases hq : s.queue with
    | nil => simp [fastSearch, hq] at h ⊢; exact h
    | cons a q => simp [fastSearch, hq] at h
  | succ n ih =>
    intro s cur r h
    cases hq : s.queue with
    | nil => simp [fastSearch, hq] at h ⊢; exact h
    | cons a q =>
      rw [fastSearch] at h ⊢
      simp only [hq] at h ⊢
      by_cases ht : a.To = toId
      · simp only [ht, if_true] at h ⊢; exact h
      · simp only [ht, if_false] at h ⊢
        exact ih _ _ _ h

theorem fastSearch_mono_le (nodes : NodeSet δ) (check : CheckFunc δ) (toId : Int)
    (fuel fuel2 : Nat) (hle : fuel ≤ fuel2) (s : FastState) (cur : Connection)
    (r : FastState × Connection) (h : fastSearch nodes check toId fuel s cur = some r) :
    fastSearch nodes check toId fuel2 s cur = some r := by
  induction hle with
  | refl => exact h
  | step _ ih => exact fastSearch_mono nodes check toId _ s cur r ih

theorem fastWalk_mono (nodes : NodeSet δ) (visited : IntMap Int) (fromId : Int) :
    ∀ (fuel : Nat) (walk : Int) (path r : List Int),
      fastWalk nodes visited fromId fuel walk path = some r →
      fastWalk nodes visited fromId (fuel + 1) walk path = some r := by
  intro fuel
  induction fuel with
  | zero => intro walk path r h; simp [fastWalk] at h
  | succ n ih =>
    intro walk path r h
    rw [fastWalk] at h ⊢
    by_cases hw : walk = fromId
    · simp only [hw, if_true] at h ⊢; exact h
    · simp only [hw, if_false] at h ⊢
      exact ih _ _ _ h

theorem fastWalk_mono_le (nodes : NodeSet δ) (visited : IntMap Int) (fromId : Int)
    (fuel fuel2 : Nat) (hle : fuel ≤ fuel2) (walk : Int) (path r : List Int)
    (h : fastWalk nodes visited fromId fuel walk path = some r) :
    fastWalk nodes visited fromId fuel2 walk path = some r := by
  induction hle with
  | refl => exact h
  | step _ ih => exact fastWalk_mono nodes visited fromId _ walk path r ih

theorem FastSolver_mono (nodes : NodeSet δ) (fromId toId : Int) (check : CheckFunc δ)
    (fuel fuel2 : Nat) (hle : fuel ≤ fuel2) (r : List Int × Option Error)
    (h : nodes.FastSolver fuel fromId toId check = some r) :
    nodes.FastSolver fuel2 fromId toId check = some r := by
  unfold NodeSet.FastSolver at h ⊢
  cases hs : fastSearch nodes check toId fuel (fastInit fromId) ⟨0, 0⟩ with
  | none => simp [hs] at h
  | some sc =>
    obtain ⟨s, current⟩ := sc
    rw [fastSearch_mono_le nodes check toId fuel fuel2 hle _ _ _ hs]
    rw [hs] at h
    dsimp only at h ⊢
    by_cases hc : current.To ≠ toId
    · rw [if_pos hc] at h ⊢; exact h
    · rw [if_neg hc] at h ⊢
      cases hw : fastWalk nodes s.visited fromId fuel toId [] with
      | none => simp [hw] at h
      | some p =>
        rw [fastWalk_mono_le nodes s.visited fromId fuel fuel2 hle _ _ _ hw]
        rw [hw] at h; exact h

theorem relaxLoop_mono (nodes : NodeSet δ) (weightFunc : WeightFunc δ) (toId : Int) :
    ∀ (fuel : Nat) (s : RelaxState) (r : RelaxState × RelaxStatus),
      relaxLoop nodes weightFunc toId fuel s = r → r.2 ≠ RelaxStatus.outOfFuel →
      relaxLoop nodes weightFunc toId (fuel + 1) s = r := by
  intro fuel
  induction fuel with
  | zero =>
    intro s r h hr
    cases hq : s.queue with
    | nil => simp [relaxLoop, hq] at h ⊢; exact h
    | cons a q => simp [relaxLoop, hq] at h; subst h; simp at hr
  | succ n ih =>
    intro s r h hr
    cases hq : s.queue with
    | nil => simp [relaxLoop, hq] at h ⊢; exact h
    | cons a q =>
      rw [relaxLoop] at h ⊢
      simp only [hq] at h ⊢
      cases hc : relaxConnections nodes weightFunc toId a (nodes.conns a.To)
          { s with queue := q } with
      | mk s2 e =>
        cases e with
        | some err => simp only [hc] at h ⊢; exact h
        | none =>
          simp only [hc] at h ⊢
          exact ih _ _ h hr

theorem relaxLoop_mono_le (nodes : NodeSet δ) (weightFunc : WeightFunc δ) (toId : Int)
    (fuel fuel2 : Nat) (hle : fuel ≤ fuel2) (s : RelaxState) (r : RelaxState × RelaxStatus)
    (h : relaxLoop nodes weightFunc toId fuel s = r) (hr : r.2 ≠ RelaxStatus.outOfFuel) :
    relaxLoop nodes weightFunc toId fuel2 s = r := by
  induction hle with
  | refl => exact h
  | step _ ih => exact relaxLoop_mono nodes weightFunc toId _ s r ih hr

theorem weightedWalk_mono (weights : IntMap ℚ) (fromId : Int) :
    ∀ (fuel : Nat) (nodes : NodeSet δ) (walk : Int) (path : List Int)
      (r : Int × List Int × NodeSet δ),
      weightedWalk weights fromId fuel nodes walk path = some r →
      weightedWalk weights fromId (fuel + 1) nodes walk path = some r := by
  intro fuel
  induction fuel with
  | zero => intro nodes walk path r h; simp [weightedWalk] at h
  | succ n ih =>
    intro nodes walk path r h
    rw [weightedWalk] at h ⊢
    by_cases hw : walk = fromId
    · simp only [hw, if_true] at h ⊢; exact h
    · simp only [hw, if_false] at h ⊢
      by_cases hn : firstWeighted weights ((sortConnections nodes weights walk).conns walk) walk
          = walk
      · simp only [hn, if_true] at h ⊢; exact h
      · simp only [hn, if_false] at h ⊢
        exact ih _ _ _ _ h

theorem weightedWalk_mono_le (weights : IntMap ℚ) (fromId : Int)
    (fuel fuel2 : Nat) (hle : fuel ≤ fuel2) (nodes : NodeSet δ) (walk : Int) (path : List Int)
    (r : Int × List Int × NodeSet δ)
    (h : weightedWalk weights fromId fuel nodes walk path = some r) :
    weightedWalk weights fromId fuel2 nodes walk path = some r := by
  induction hle with
  | refl => exact h
  | step _ ih => exact weightedWalk_mono weights fromId _ nodes walk path r ih

theorem weightedRun_mono (nodes : NodeSet δ) (fromId toId : Int) (weightFunc : WeightFunc δ)
    (fuel fuel2 : Nat) (hle : fuel ≤ fuel2) (r : List Int × Option Error × NodeSet δ)
    (h : nodes.weightedRun fuel fromId toId weightFunc = some r) :
    nodes.weightedRun fuel2 fromId toId weightFunc = some r := by
  unfold NodeSet.weightedRun at h ⊢
  cases hs : relaxLoop nodes weightFunc toId fuel (relaxInit fromId) with
  | mk s st =>
    cases st with
    | outOfFuel => simp [hs] at h
    | aborted err =>
      rw [relaxLoop_mono_le nodes weightFunc toId fuel fuel2 hle _ _ hs (by simp)]
      rw [hs] at h; exact h
    | drained =>
      rw [relaxLoop_mono_le nodes weightFunc toId fuel fuel2 hle _ _ hs (by simp)]
      rw [hs] at h
      dsimp only at h ⊢
      cases hw : weightedWalk s.weights fromId fuel nodes toId [] with
      | none => simp [hw] at h
      | some p =>
        rw [weightedWalk_mono_le s.weights fromId fuel fuel2 hle _ _ _ _ hw]
        rw [hw] at h; exact h

theorem WeightedSolver_mono (nodes : NodeSet δ) (fromId toId : Int) (weightFunc : WeightFunc δ)
    (fuel fuel2 : Nat) (hle : fuel ≤ fuel2) (r : List Int × Option Error)
    (h : nodes.WeightedSolver fuel fromId toId weightFunc = some r) :
    nodes.WeightedSolver fuel2 fromId toId weightFunc = some r := by
  unfold NodeSet.WeightedSolver at h ⊢
  cases hr : nodes.weightedRun fuel fromId toId weightFunc with
  | none => simp [hr] at h
  | some x =>
    rw [weightedRun_mono nodes fromId toId weightFunc fuel fuel2 hle x hr]
    simpa [hr] using h

/-! ## Float64 addition -/

theorem pow2_eq (k : ℤ) : pow2 k = (2 : ℚ) ^ k := by
  unfold pow2
  split
  · rename_i h
    rw [Nat.one_shiftLeft]
    obtain ⟨n, rfl⟩ := Int.eq_ofNat_of_zero_le h
    simp
  · rename_i h
    rw [Nat.one_shiftLeft]
    obtain ⟨n, hn⟩ := Int.eq_ofNat_of_zero_le (show 0 ≤ -k by omega)
    have hk : k = -(n : ℤ) := by omega
    subst hk
    simp

theorem pow2_pos (k : ℤ) : 0 < pow2 k := by
  rw [pow2_eq]; positivity

theorem pow2_le_pow2 {j k : ℤ} (h : j ≤ k) : pow2 j ≤ pow2 k := by
  rw [pow2_eq, pow2_eq]
  exact zpow_le_zpow_right₀ (by norm_num) h

theorem pow2_lt_pow2 {j k : ℤ} (h : j < k) : pow2 j < pow2 k := by
  rw [pow2_eq, pow2_eq]
  exact zpow_lt_zpow_right₀ (by norm_num) h

theorem pow2_add (j k : ℤ) : pow2 (j + k) = pow2 j * pow2 k := by
  rw [pow2_eq, pow2_eq, pow2_eq, zpow_add₀ (by norm_num)]

theorem binadeSearch_spec (a : ℚ) :
    ∀ (fuel : ℕ) (lo hi : ℤ), lo < hi → hi - lo ≤ 2 ^ fuel → pow2 lo ≤ a → a < pow2 hi →
      lo ≤ binadeSearch fuel lo hi a ∧ binadeSearch fuel lo hi a < hi ∧
        pow2 (binadeSearch fuel lo hi a) ≤ a ∧ a < pow2 (binadeSearch fuel lo hi a + 1) := by
  intro fuel
  induction fuel with
  | zero =>
    intro lo hi h1 h2 h3 h4
    have : hi = lo + 1 := by simp at h2; omega
    subst this
    exact ⟨le_refl _, h1, h3, h4⟩
  | succ n ih =>
    intro lo hi h1 h2 h3 h4
    rw [binadeSearch]
    by_cases hc : hi ≤ lo + 1
    · rw [if_pos hc]
      have : hi = lo + 1 := by omega
      subst this
      exact ⟨le_refl _, h1, h3, h4⟩
    · rw [if_neg hc]
      have hpow : (2 : ℤ) ^ (n + 1) = 2 * 2 ^ n := by ring
      by_cases hm : pow2 ((lo + hi) / 2) ≤ a
      · rw [if_pos hm]
        obtain ⟨g1, g2, g3, g4⟩ := ih ((lo + hi) / 2) hi (by omega) (by omega) hm h4
        exact ⟨by omega, g2, g3, g4⟩
      · rw [if_neg hm]
        obtain ⟨g1, g2, g3, g4⟩ := ih lo ((lo + hi) / 2) (by omega) (by omega) h3
          (lt_of_not_le hm)
        exact ⟨g1, by omega, g3, g4⟩

theorem binade_range (a : ℚ) : -1022 ≤ binade a ∧ binade a ≤ 1024 := by
  unfold binade
  split
  · omega
  · split
    · omega
    · rename_i h1 h2
      obtain ⟨g1, g2, _, _⟩ := binadeSearch_spec a 12 (-1022) 1024 (by norm_num) (by norm_num)
        (le_of_not_lt h1) (lt_of_not_le h2)
      omega

theorem binade_lt (a : ℚ) (h : binade a ≤ 1023) : a < pow2 (binade a + 1) := by
  unfold binade at h ⊢
  split
  · rename_i h1
    exact lt_trans h1 (pow2_lt_pow2 (by norm_num))
  · split
    · rename_i h1 h2
      rw [if_neg h1, if_pos h2] at h
      omega
    · rename_i h1 h2
      exact (binadeSearch_spec a 12 (-1022) 1024 (by norm_num) (by norm_num)
        (le_of_not_lt h1) (lt_of_not_le h2)).2.2.2

theorem binade_le (a : ℚ) (h : pow2 (-1022) ≤ a) : pow2 (binade a) ≤ a := by
  unfold binade
  rw [if_neg (not_lt_of_le h)]
  split
  · rename_i h2; exact h2
  · rename_i h2
    exact (binadeSearch_spec a 12 (-1022) 1024 (by norm_num) (by norm_num)
      h (lt_of_not_le h2)).2.2.1

theorem binade_small (a : ℚ) (h : a < pow2 (-1022)) : binade a = -1022 := by
  unfold binade
  rw [if_pos h]

theorem binade_le_of_gt (a : ℚ) (h : -1022 < binade a) : pow2 (binade a) ≤ a := by
  apply binade_le
  by_contra hc
  rw [binade_small a (lt_of_not_le hc)] at h
  omega

/-- The binade of `a` is `k` when `2^k ≤ a < 2^(k+1)` and `k` is in range. -/
theorem binade_unique (a : ℚ) (k : ℤ) (hk1 : -1022 ≤ k) (hk2 : k ≤ 1023)
    (h1 : pow2 k ≤ a) (h2 : a < pow2 (k + 1)) : binade a = k := by
  have hr := binade_range a
  have hsmall : pow2 (-1022) ≤ a := le_trans (pow2_le_pow2 hk1) h1
  have hle := binade_le a hsmall
  have hb : binade a ≤ 1023 := by
    by_contra hc
    have h3 : binade a = 1024 := by omega
    rw [h3] at hle
    have := lt_of_le_of_lt hle h2
    have := pow2_le_pow2 (show k + 1 ≤ 1024 by omega)
    linarith
  have hlt := binade_lt a hb
  by_contra hne
  rcases lt_or_gt_of_ne hne with h3 | h3
  · have := pow2_le_pow2 (show binade a + 1 ≤ k by omega)
    linarith
  · have := pow2_le_pow2 (show k + 1 ≤ binade a by omega)
    linarith

theorem binade_mono (a b : ℚ) (h : a ≤ b) : binade a ≤ binade b := by
  by_contra hc
  have hr := binade_range a
  have hrb := binade_range b
  have h1 := binade_le_of_gt a (by omega)
  have h2 := binade_lt b (by omega)
  have := pow2_le_pow2 (show binade b + 1 ≤ binade a by omega)
  linarith

theorem roundHalfEven_floor_le (q : ℚ) : ⌊q⌋ ≤ roundHalfEven q := by
  unfold roundHalfEven
  split
  · exact le_refl _
  · split
    · omega
    · split <;> omega

theorem roundHalfEven_le (q : ℚ) : roundHalfEven q ≤ ⌊q⌋ + 1 := by
  unfold roundHalfEven
  split
  · omega
  · split
    · omega
    · split <;> omega

theorem roundHalfEven_int (k : ℤ) : roundHalfEven (k : ℚ) = k := by
  unfold roundHalfEven
  rw [Int.floor_intCast]
  simp

theorem roundHalfEven_mono (q r : ℚ) (h : q ≤ r) : roundHalfEven q ≤ roundHalfEven r := by
  have hfl : ⌊q⌋ ≤ ⌊r⌋ := Int.floor_mono h
  rcases lt_or_eq_of_le hfl with h1 | h1
  · have := roundHalfEven_le q
    have := roundHalfEven_floor_le r
    omega
  · unfold roundHalfEven
    rw [← h1]
    have hfr : q - ⌊q⌋ ≤ r - ⌊q⌋ := by linarith
    by_cases hq1 : q - ⌊q⌋ < 1 / 2
    · rw [if_pos hq1]
      split
      · exact le_refl _
      · split
        · omega
        · split <;> omega
    · rw [if_neg hq1]
      by_cases hq2 : 1 / 2 < q - ⌊q⌋
      · rw [if_pos hq2, if_neg (by linarith), if_pos (by linarith)]
      · rw [if_neg hq2]
        have hr1 : ¬ r - ⌊q⌋ < 1 / 2 := by linarith
        rw [if_neg hr1]
        by_cases hr2 : 1 / 2 < r - ⌊q⌋
        · rw [if_pos hr2]
          split <;> omega
        · rw [if_neg hr2]

theorem roundHalfEven_ge_int (q : ℚ) (k : ℤ) (h : (k : ℚ) ≤ q) : k ≤ roundHalfEven q := by
  have := roundHalfEven_mono _ _ h
  rwa [roundHalfEven_int] at this

theorem roundHalfEven_le_int (q : ℚ) (k : ℤ) (h : q ≤ (k : ℚ)) : roundHalfEven q ≤ k := by
  have := roundHalfEven_mono _ _ h
  rwa [roundHalfEven_int] at this

theorem f64mag_eq (a : ℚ) : f64mag a = if MaxFloat64 < f64grid a then f64inf else f64grid a := rfl

theorem pow2_53 : pow2 53 = 2 ^ 53 := by rw [pow2_eq]; norm_num

theorem pow2_52 : pow2 52 = 2 ^ 52 := by rw [pow2_eq]; norm_num

theorem pow2_split (e : ℤ) : pow2 e = 2 ^ 52 * pow2 (e - 52) := by
  rw [← pow2_52, ← pow2_add]
  congr 1
  ring

theorem pow2_split_succ (e : ℤ) : pow2 (e + 1) = 2 ^ 53 * pow2 (e - 52) := by
  rw [← pow2_53, ← pow2_add]
  congr 1
  ring

theorem f64grid_nonneg (a : ℚ) (h : 0 ≤ a) : 0 ≤ f64grid a := by
  unfold f64grid
  apply mul_nonneg _ (le_of_lt (pow2_pos _))
  have : (0 : ℤ) ≤ roundHalfEven (a / pow2 (binade a - 52)) := by
    apply roundHalfEven_ge_int
    simp only [Int.cast_zero]
    exact div_nonneg h (le_of_lt (pow2_pos _))
  exact_mod_cast this

theorem f64grid_le_top (a : ℚ) (h : binade a ≤ 1023) : f64grid a ≤ pow2 (binade a + 1) := by
  unfold f64grid
  rw [pow2_split_succ]
  apply mul_le_mul_of_nonneg_right _ (le_of_lt (pow2_pos _))
  have hlt := binade_lt a h
  rw [pow2_split_succ] at hlt
  have : roundHalfEven (a / pow2 (binade a - 52)) ≤ ((2 ^ 53 : ℕ) : ℤ) := by
    apply roundHalfEven_le_int
    rw [div_le_iff₀ (pow2_pos _)]
    push_cast
    exact le_of_lt hlt
  exact_mod_cast this

theorem f64grid_ge_bot (a : ℚ) (h : pow2 (binade a) ≤ a) : pow2 (binade a) ≤ f64grid a := by
  unfold f64grid
  rw [pow2_split (binade a)] at h ⊢
  have hu : pow2 (binade a - 52 - 52) = pow2 (binade a - 52 - 52) := rfl
  apply mul_le_mul_of_nonneg_right _ (le_of_lt (pow2_pos _))
  have : ((2 ^ 52 : ℕ) : ℤ) ≤ roundHalfEven (a / pow2 (binade a - 52)) := by
    apply roundHalfEven_ge_int
    rw [le_div_iff₀ (pow2_pos _)]
    push_cast
    exact h
  exact_mod_cast this

theorem f64grid_mono (a b : ℚ) (h : a ≤ b) : f64grid a ≤ f64grid b := by
  have hm := binade_mono a b h
  rcases lt_or_eq_of_le hm with h1 | h1
  · have hrb := binade_range b
    have hra := binade_range a
    have g1 := f64grid_le_top a (by omega)
    have g2 := f64grid_ge_bot b (binade_le_of_gt b (by omega))
    have g3 := pow2_le_pow2 (show binade a + 1 ≤ binade b by omega)
    linarith
  · unfold f64grid
    rw [h1]
    apply mul_le_mul_of_nonneg_right _ (le_of_lt (pow2_pos _))
    have : roundHalfEven (a / pow2 (binade b - 52)) ≤ roundHalfEven (b / pow2 (binade b - 52)) :=
      roundHalfEven_mono _ _ (div_le_div_of_nonneg_right h (le_of_lt (pow2_pos _)))
    exact_mod_cast this

theorem maxFloat64_lt_pow2 : MaxFloat64 < pow2 1024 := by
  rw [pow2_eq, maxFloat64_eq]
  norm_num

theorem f64inf_eq : f64inf = pow2 2000 := by
  rw [pow2_eq]
  unfold f64inf
  rw [Nat.one_shiftLeft]
  norm_num

theorem maxFloat64_lt_inf : MaxFloat64 < f64inf := by
  rw [f64inf_eq]
  exact lt_trans maxFloat64_lt_pow2 (pow2_lt_pow2 (by norm_num))

theorem maxFloat64_pos : 0 < MaxFloat64 := by
  rw [maxFloat64_eq]; norm_num

theorem f64mag_nonneg (a : ℚ) (h : 0 ≤ a) : 0 ≤ f64mag a := by
  rw [f64mag_eq]
  split
  · exact le_of_lt (lt_trans maxFloat64_pos maxFloat64_lt_inf)
  · exact f64grid_nonneg a h

theorem f64mag_mono (a b : ℚ) (h : a ≤ b) : f64mag a ≤ f64mag b := by
  have hg := f64grid_mono a b h
  rw [f64mag_eq, f64mag_eq]
  by_cases hb : MaxFloat64 < f64grid b
  · rw [if_pos hb]
    split
    · exact le_refl _
    · rename_i ha
      exact le_trans (le_of_not_lt ha) (le_of_lt maxFloat64_lt_inf)
  · rw [if_neg hb, if_neg (fun ha => hb (lt_of_lt_of_le ha hg))]
    exact hg

theorem f64mag_zero : f64mag 0 = 0 := by
  rw [f64mag_eq]
  have : f64grid 0 = 0 := by
    unfold f64grid
    rw [zero_div]
    have : roundHalfEven (0 : ℚ) = 0 := by
      have := roundHalfEven_int 0
      simpa using this
    rw [this]
    simp
  rw [this, if_neg (not_lt_of_le (le_of_lt maxFloat64_pos))]

theorem f64grid_of_binade (r : ℚ) (m e : ℤ) (hr : r = (m : ℚ) * pow2 (e - 52))
    (hb : binade r = e) : f64grid r = r := by
  unfold f64grid
  rw [hb, hr, mul_div_assoc, div_self (ne_of_gt (pow2_pos _)), mul_one, roundHalfEven_int]

/-- Every float64 magnitude is kept by the rounding: `m * 2^(e - 52)` with
`m ≤ 2^53`, the exponent in range, and `m` normalised unless the exponent is
the least one. -/
theorem f64grid_fixed (m e : ℤ) (hm0 : 0 ≤ m) (hm : m ≤ 2 ^ 53) (he1 : -1022 ≤ e)
    (he2 : e ≤ 1023) (hnorm : e = -1022 ∨ 2 ^ 52 ≤ m)
    (hfin : (m : ℚ) * pow2 (e - 52) ≤ MaxFloat64) :
    f64grid ((m : ℚ) * pow2 (e - 52)) = (m : ℚ) * pow2 (e - 52) := by
  have hu := pow2_pos (e - 52)
  by_cases h52 : m < 2 ^ 52
  · have he : e = -1022 := by
      rcases hnorm with h | h
      · exact h
      · omega
    subst he
    apply f64grid_of_binade _ m (-1022) rfl
    apply binade_small
    rw [pow2_split (-1022)]
    apply mul_lt_mul_of_pos_right _ hu
    exact_mod_cast h52
  · by_cases h53 : m < 2 ^ 53
    · apply f64grid_of_binade _ m e rfl
      apply binade_unique _ e he1 he2
      · rw [pow2_split e]
        apply mul_le_mul_of_nonneg_right _ (le_of_lt hu)
        have : (2 : ℤ) ^ 52 ≤ m := by omega
        exact_mod_cast this
      · rw [pow2_split_succ e]
        apply mul_lt_mul_of_pos_right _ hu
        exact_mod_cast h53
    · have hm53 : m = 2 ^ 53 := by omega
      subst hm53
      have hval : (((2 : ℤ) ^ 53 : ℤ) : ℚ) * pow2 (e - 52) = pow2 (e + 1) := by
        rw [pow2_split_succ e]
        norm_num
      rw [hval] at hfin ⊢
      have he3 : e + 1 ≤ 1023 := by
        by_contra hc
        have : e + 1 = 1024 := by omega
        rw [this] at hfin
        exact absurd hfin (not_le_of_lt maxFloat64_lt_pow2)
      apply f64grid_of_binade _ (2 ^ 52) (e + 1)
      · rw [pow2_split (e + 1)]
        norm_num
      · exact binade_unique _ (e + 1) (by omega) he3 (le_refl _) (pow2_lt_pow2 (by omega))

theorem f64grid_inf : f64grid f64inf = f64inf := by
  have hb : binade f64inf = 1024 := by
    unfold binade
    have h1 : ¬ f64inf < pow2 (-1022) := by
      rw [f64inf_eq]
      exact not_lt_of_le (pow2_le_pow2 (by norm_num))
    have h2 : pow2 1024 ≤ f64inf := by
      rw [f64inf_eq]
      exact pow2_le_pow2 (by norm_num)
    rw [if_neg h1, if_pos h2]
  apply f64grid_of_binade _ (2 ^ 1028) 1024 _ hb
  rw [f64inf_eq, pow2_eq, pow2_eq]
  norm_num

theorem f64mag_inf : f64mag f64inf = f64inf := by
  rw [f64mag_eq, f64grid_inf, if_pos maxFloat64_lt_inf]

/-- The value the rounding gives is a float64 magnitude. -/
theorem f64grid_idem (a : ℚ) (h0 : 0 ≤ a) (hfin : f64grid a ≤ MaxFloat64) :
    f64grid (f64grid a) = f64grid a := by
  have hr := binade_range a
  have hu := pow2_pos (binade a - 52)
  have hm0 : (0 : ℤ) ≤ roundHalfEven (a / pow2 (binade a - 52)) := by
    apply roundHalfEven_ge_int
    simp only [Int.cast_zero]
    exact div_nonneg h0 (le_of_lt hu)
  have he2 : binade a ≤ 1023 := by
    by_contra hc
    have h1 := f64grid_ge_bot a (binade_le_of_gt a (by omega))
    have h2 : binade a = 1024 := by omega
    rw [h2] at h1
    exact absurd (le_trans h1 hfin) (not_le_of_lt maxFloat64_lt_pow2)
  have hm : roundHalfEven (a / pow2 (binade a - 52)) ≤ 2 ^ 53 := by
    apply roundHalfEven_le_int
    rw [div_le_iff₀ hu]
    have := binade_lt a he2
    rw [pow2_split_succ] at this
    push_cast
    exact le_of_lt this
  have hnorm : binade a = -1022 ∨ 2 ^ 52 ≤ roundHalfEven (a / pow2 (binade a - 52)) := by
    by_cases hb : binade a = -1022
    · exact Or.inl hb
    · right
      have := binade_le_of_gt a (by omega)
      rw [pow2_split (binade a)] at this
      have h3 : ((2 ^ 52 : ℕ) : ℤ) ≤ roundHalfEven (a / pow2 (binade a - 52)) := by
        apply roundHalfEven_ge_int
        rw [le_div_iff₀ hu]
        push_cast
        exact this
      exact_mod_cast h3
  exact f64grid_fixed _ (binade a) hm0 hm hr.1 he2 hnorm hfin

theorem f64mag_idem (a : ℚ) (h0 : 0 ≤ a) : f64mag (f64mag a) = f64mag a := by
  by_cases hfin : MaxFloat64 < f64grid a
  · have : f64mag a = f64inf := by rw [f64mag_eq, if_pos hfin]
    rw [this, f64mag_inf]
  · have h1 : f64mag a = f64grid a := by rw [f64mag_eq, if_neg hfin]
    rw [h1, f64mag_eq, f64grid_idem a h0 (le_of_not_lt hfin), if_neg hfin]

theorem maxFloat64_ge : (2 : ℚ) ^ 53 ≤ MaxFloat64 := by
  rw [maxFloat64_eq]
  norm_num

theorem f64mag_nat (n : ℕ) (h : n ≤ 2 ^ 53) : f64mag (n : ℚ) = n := by
  have hnfin : (n : ℚ) ≤ MaxFloat64 := by
    have : (n : ℚ) ≤ 2 ^ 53 := by exact_mod_cast h
    exact le_trans this maxFloat64_ge
  rcases Nat.eq_zero_or_pos n with h0 | hpos
  · subst h0
    simpa using f64mag_zero
  · have key : f64grid (n : ℚ) = n := by
      rcases Nat.lt_or_ge n (2 ^ 53) with hlt | hge
      · have hlog : Nat.log 2 n < 53 := Nat.log_lt_of_lt_pow (by omega) hlt
        have hlo : 2 ^ Nat.log 2 n ≤ n := Nat.pow_log_le_self 2 (by omega)
        have hhi : n < 2 ^ (Nat.log 2 n + 1) := Nat.lt_pow_succ_log_self (by norm_num) n
        generalize Nat.log 2 n = e at hlog hlo hhi
        have hval : (n : ℚ) = (((n * 2 ^ (52 - e) : ℕ) : ℤ) : ℚ) * pow2 ((e : ℤ) - 52) := by
          rw [pow2_eq]
          push_cast
          rw [mul_assoc, ← zpow_natCast, ← zpow_add₀ (by norm_num)]
          have : ((52 - e : ℕ) : ℤ) + ((e : ℤ) - 52) = 0 := by omega
          rw [this, zpow_zero, mul_one]
        have hsplit : (2 : ℕ) ^ 52 = 2 ^ e * 2 ^ (52 - e) := by
          rw [← pow_add]
          congr 1
          omega
        have hsplit2 : (2 : ℕ) ^ 53 = 2 ^ (e + 1) * 2 ^ (52 - e) := by
          rw [← pow_add]
          congr 1
          omega
        have hpos2 : 0 < 2 ^ (52 - e) := by positivity
        rw [hval]
        apply f64grid_fixed
        · positivity
        · have : n * 2 ^ (52 - e) ≤ 2 ^ 53 := by
            rw [hsplit2]
            exact Nat.mul_le_mul_right _ (le_of_lt hhi)
          exact_mod_cast this
        · omega
        · omega
        · right
          have : 2 ^ 52 ≤ n * 2 ^ (52 - e) := by
            rw [hsplit]
            exact Nat.mul_le_mul_right _ hlo
          exact_mod_cast this
        · rw [← hval]
          exact hnfin
      · have hn : n = 2 ^ 53 := by omega
        subst hn
        have hval : (((2 ^ 53 : ℕ) : ℕ) : ℚ) = (((2 ^ 52 : ℤ) : ℤ) : ℚ) * pow2 (53 - 52) := by
          rw [pow2_eq]
          norm_num
        rw [hval]
        apply f64grid_fixed _ 53 (by norm_num) (by norm_num) (by norm_num) (by norm_num)
          (Or.inr (le_refl _))
        rw [← hval]
        exact hnfin
    rw [f64mag_eq, key, if_neg (not_lt_of_le hnfin)]

theorem f64round_eq (x : ℚ) :
    f64round x = if x < 0 then -f64mag (-x) else f64mag x := by
  unfold f64round
  by_cases hfast : x.den = 1 ∧ x.num.natAbs ≤ 2 ^ 53
  · rw [if_pos hfast]
    obtain ⟨hden, hnum⟩ := hfast
    have hx : (x.num : ℚ) = x := (Rat.den_eq_one_iff x).mp hden
    have hcast : ((x.num.natAbs : ℕ) : ℚ) = (((x.num.natAbs : ℕ) : ℤ) : ℚ) :=
      (Int.cast_natCast _).symm
    by_cases hneg : x < 0
    · rw [if_pos hneg]
      have hnum0 : x.num < 0 := Rat.num_neg.mpr hneg
      have hnx : -x = ((x.num.natAbs : ℕ) : ℚ) := by
        have : ((x.num.natAbs : ℕ) : ℤ) = -x.num := by omega
        rw [hcast, this, Int.cast_neg, hx]
      rw [hnx, f64mag_nat _ hnum, ← hnx, neg_neg]
    · rw [if_neg hneg]
      have hnum0 : 0 ≤ x.num := Rat.num_nonneg.mpr (le_of_not_lt hneg)
      have hnx : x = ((x.num.natAbs : ℕ) : ℚ) := by
        have : ((x.num.natAbs : ℕ) : ℤ) = x.num := by omega
        rw [hcast, this, hx]
      have h3 := f64mag_nat _ hnum
      rw [← hnx] at h3
      exact h3.symm
  · rw [if_neg hfast]

theorem f64round_mono (x y : ℚ) (h : x ≤ y) : f64round x ≤ f64round y := by
  rw [f64round_eq, f64round_eq]
  by_cases hx : x < 0
  · rw [if_pos hx]
    by_cases hy : y < 0
    · rw [if_pos hy]
      exact neg_le_neg (f64mag_mono _ _ (by linarith))
    · rw [if_neg hy]
      have h1 := f64mag_nonneg (-x) (by linarith)
      have h2 := f64mag_nonneg y (le_of_not_lt hy)
      linarith
  · rw [if_neg hx, if_neg (by linarith)]
    exact f64mag_mono _ _ h

theorem f64round_idem (x : ℚ) : f64round (f64round x) = f64round x := by
  by_cases hx : x < 0
  · have h1 : f64round x = -f64mag (-x) := by rw [f64round_eq, if_pos hx]
    have h2 := f64mag_nonneg (-x) (by linarith)
    rw [h1]
    rcases eq_or_lt_of_le h2 with h3 | h3
    · rw [← h3, neg_zero, f64round_eq, if_neg (lt_irrefl _), f64mag_zero]
    · rw [f64round_eq, if_pos (by linarith), neg_neg, f64mag_idem _ (by linarith)]
  · have h1 : f64round x = f64mag x := by rw [f64round_eq, if_neg hx]
    have h2 := f64mag_nonneg x (le_of_not_lt hx)
    rw [h1, f64round_eq, if_neg (not_lt_of_le h2), f64mag_idem _ (le_of_not_lt hx)]

theorem f64round_nat (n : ℕ) (h : n ≤ 2 ^ 53) : f64round (n : ℚ) = n := by
  unfold f64round
  rw [if_pos]
  simp only [Rat.den_natCast, Rat.num_natCast, Int.natAbs_ofNat, true_and]
  exact h

/-- Float64 addition of naturals is exact up to `2^53`. -/
theorem f64add_nat (a b : ℕ) (h : a + b ≤ 2 ^ 53) : f64add (a : ℚ) (b : ℚ) = a + b := by
  unfold f64add
  have := f64round_nat (a + b) h
  push_cast at this
  exact this

/-- Adding a non-negative cost to a float64 value does not give less. -/
theorem le_f64add (a b : ℚ) (ha : f64round a = a) (hb : 0 ≤ b) : a ≤ f64add a b := by
  unfold f64add
  have := f64round_mono a (a + b) (by linarith)
  rwa [ha] at this

theorem f64add_mono_left (a a2 b : ℚ) (h : a ≤ a2) : f64add a b ≤ f64add a2 b := by
  unfold f64add
  exact f64round_mono _ _ (by linarith)

theorem f64round_f64add (a b : ℚ) : f64round (f64add a b) = f64add a b :=
  f64round_idem _

theorem f64round_zero : f64round 0 = 0 := by
  have := f64round_nat 0 (by norm_num)
  simpa using this

unseal Rat.add Rat.mul Rat.inv Rat.sub in
theorem f64add_absorbs : f64add (2 ^ 53) 1 = 2 ^ 53 := by decide

/-- Adding 1 to a natural up to `2^53` gives at most its successor. -/
theorem f64add_nat_succ_le (a : ℕ) (h : a ≤ 2 ^ 53) : f64add (a : ℚ) 1 ≤ (a : ℚ) + 1 := by
  rcases Nat.lt_or_ge a (2 ^ 53) with hlt | hge
  · have := f64add_nat a 1 (by omega)
    push_cast at this
    rw [this]
  · have ha : a = 2 ^ 53 := by omega
    subst ha
    have hc : (((2 ^ 53 : ℕ) : ℕ) : ℚ) = 2 ^ 53 := by norm_num
    rw [hc, f64add_absorbs]
    norm_num

theorem f64add_nat_one (a : ℕ) (h : a + 1 ≤ 2 ^ 53) : f64add (a : ℚ) 1 = (a : ℚ) + 1 := by
  have := f64add_nat a 1 h
  push_cast at this
  exact this

/-- A natural up to `2^53` that is at most `a + 1` is at most the float64 sum
of `a` and 1. -/
theorem nat_le_f64add_one (a n : ℕ) (hn : n ≤ a + 1) (hn2 : n ≤ 2 ^ 53) :
    (n : ℚ) ≤ f64add (a : ℚ) 1 := by
  have h1 := f64round_mono (n : ℚ) ((a : ℚ) + 1) (by exact_mod_cast hn)
  rw [f64round_nat n hn2] at h1
  exact h1

/-! ## Concrete runs of `WeightedSolver` -/

unseal Rat.add in
/-- C6: on the chain 1-2-3-4 with the direct edge 1-4, whatever the order of
the four connection lists, when the weight function vetoes the edge 1 → 4 and
gives 1.0 to the others, `WeightedSolver(1, 4)` returns `[1, 4]`, the vetoed
edge itself, and not `[1, 2, 3, 4]`. -/
theorem WeightedSolver_vetoed_edge_returned :
    ∀ c1 ∈ [[2, 4], [4, 2]], ∀ c2 ∈ [[1, 3], [3, 1]], ∀ c3 ∈ [[2, 4], [4, 2]],
      ∀ c4 ∈ [[3, 1], [1, 3]], ∀ fuel, 4 ≤ fuel →
        (chainGraph c1 c2 c3 c4).WeightedSolver fuel 1 4 vetoEdge14 = some ([1, 4], none) := by
  have h : ∀ c1 ∈ [[2, 4], [4, 2]], ∀ c2 ∈ [[1, 3], [3, 1]], ∀ c3 ∈ [[2, 4], [4, 2]],
      ∀ c4 ∈ [[3, 1], [1, 3]],
        (chainGraph c1 c2 c3 c4).WeightedSolver 4 1 4 vetoEdge14 = some ([1, 4], none) := by
    decide
  intro c1 h1 c2 h2 c3 h3 c4 h4 fuel hf
  exact WeightedSolver_mono _ 1 4 vetoEdge14 4 fuel hf _ (h c1 h1 c2 h2 c3 h3 c4 h4)

unseal Rat.add in
/-- C2: on the undirected square with weights 1-2: 1, 2-4: 10, 1-3: 2,
3-4: 1, `WeightedSolver(1, 4)` returns `[1, 2, 4]`, of total weight 11, while
the route `[1, 3, 4]` has total weight 3. -/
theorem WeightedSolver_square_not_cheapest :
    (∀ fuel, 3 ≤ fuel →
        squareGraph.WeightedSolver fuel 1 4 squareWeight = some ([1, 2, 4], none)) ∧
      routeWeight squareGraph squareWeight (-1) [1, 2, 4] = 11 ∧
      IsRoute squareGraph [1, 3, 4] ∧
      routeWeight squareGraph squareWeight (-1) [1, 3, 4] = 3 := by
  refine ⟨?_, by decide, ?_, by decide⟩
  · intro fuel hf
    exact WeightedSolver_mono _ 1 4 squareWeight 3 fuel hf _ (by decide)
  · simp only [IsRoute, and_true]
    decide

unseal Rat.add in
/-- C5: on the line 1-2-3 with every edge into 3 vetoed, the relaxation
drains without a weight recorded for 3, and still `WeightedSolver(1, 3)`
returns the path `[1, 2, 3]` instead of `ErrNoPathFound`. -/
theorem WeightedSolver_unrecorded_target_path :
    (relaxLoop lineGraph vetoNode3 3 3 (relaxInit 1)).2 = RelaxStatus.drained ∧
      (relaxLoop lineGraph vetoNode3 3 3 (relaxInit 1)).1.weights 3 = none ∧
      ∀ fuel, 3 ≤ fuel →
        lineGraph.WeightedSolver fuel 1 3 vetoNode3 = some ([1, 2, 3], none) := by
  refine ⟨by decide, by decide, ?_⟩
  intro fuel hf
  exact WeightedSolver_mono _ 1 3 vetoNode3 3 fuel hf _ (by decide)

/-- Witness for C6: the run with the connection lists 1: [2, 4], 2: [1, 3],
3: [2, 4], 4: [3, 1] and four iterations of fuel. -/
theorem WeightedSolver_vetoed_edge_returned_witness :
    (chainGraph [2, 4] [1, 3] [2, 4] [3, 1]).WeightedSolver 4 1 4 vetoEdge14 =
      some ([1, 4], none) :=
  WeightedSolver_vetoed_edge_returned [2, 4] (by decide) [1, 3] (by decide) [2, 4] (by decide)
    [3, 1] (by decide) 4 (by decide)

/-! ## Nodes vetoed by the weight function -/

theorem relaxEdge_weights_none (nodes : NodeSet δ) (weightFunc : WeightFunc δ) (toId : Int)
    (X : Int) (hveto : ∀ previous current,
      (weightFunc nodes previous current X).2 = some Error.ErrInvalidNode)
    (current : Connection) (c : Int) (s : RelaxState) (h : s.weights X = none) :
    (relaxEdge nodes weightFunc toId current c s).1.weights X = none := by
  unfold relaxEdge
  dsimp only
  split
  · split <;> exact h
  · rename_i hnone
    have hc : X ≠ c := by
      intro hXc
      subst hXc
      rw [hveto] at hnone
      exact absurd hnone (by simp)
    split
    · exact h
    · split
      · split <;> simp [IntMap.set, hc, h]
      · exact h

theorem relaxConnections_weights_none (nodes : NodeSet δ) (weightFunc : WeightFunc δ)
    (toId : Int) (X : Int) (hveto : ∀ previous current,
      (weightFunc nodes previous current X).2 = some Error.ErrInvalidNode)
    (current : Connection) (cs : List Int) :
    ∀ s : RelaxState, s.weights X = none →
      (relaxConnections nodes weightFunc toId current cs s).1.weights X = none := by
  induction cs with
  | nil => intro s h; exact h
  | cons c cs ih =>
    intro s h
    rw [relaxConnections]
    have h1 := relaxEdge_weights_none nodes weightFunc toId X hveto current c s h
    cases hr : relaxEdge nodes weightFunc toId current c s with
    | mk s1 oe =>
      rw [hr] at h1
      cases oe with
      | some err => exact h1
      | none => exact ih s1 h1

theorem relaxLoop_weights_none (nodes : NodeSet δ) (weightFunc : WeightFunc δ)
    (toId : Int) (X : Int) (hveto : ∀ previous current,
      (weightFunc nodes previous current X).2 = some Error.ErrInvalidNode) :
    ∀ (fuel : Nat) (s : RelaxState), s.weights X = none →
      (relaxLoop nodes weightFunc toId fuel s).1.weights X = none := by
  intro fuel
  induction fuel with
  | zero =>
    intro s h
    rw [relaxLoop]
    split <;> exact h
  | succ n ih =>
    intro s h
    rw [relaxLoop]
    split
    · exact h
    · rename_i current queue hq
      have h1 := relaxConnections_weights_none nodes weightFunc toId X hveto current
        (nodes.conns current.To) { s with queue := queue } h
      split
      · rename_i s1 err hr
        rw [hr] at h1; exact h1
      · rename_i s1 hr
        rw [hr] at h1; exact ih s1 h1

theorem firstWeighted_cases (weights : IntMap ℚ) (cs : List Int) (walk : Int) :
    firstWeighted weights cs walk = walk ∨
      (firstWeighted weights cs walk ∈ cs ∧
        (weights (firstWeighted weights cs walk)).isSome = true) := by
  induction cs with
  | nil => left; rfl
  | cons c cs ih =>
    rw [firstWeighted]
    split
    · rcases ih with h | ⟨h1, h2⟩
      · left; exact h
      · right; exact ⟨List.mem_cons_of_mem _ h1, h2⟩
    · rename_i w hw
      right
      exact ⟨List.mem_cons_self _ _, by simp [hw]⟩

theorem weightedWalk_path (weights : IntMap ℚ) (fromId : Int) :
    ∀ (fuel : Nat) (nodes : NodeSet δ) (walk : Int) (path : List Int)
      (r : Int × List Int × NodeSet δ),
      weightedWalk weights fromId fuel nodes walk path = some r →
      ∀ x ∈ r.2.1, x ∈ path ∨ x = walk ∨ (weights x).isSome = true := by
  intro fuel
  induction fuel with
  | zero => intro nodes walk path r h; simp [weightedWalk] at h
  | succ n ih =>
    intro nodes walk path r h x hx
    rw [weightedWalk] at h
    split at h
    · simp only [Option.some.injEq] at h
      subst h
      rcases List.mem_cons.mp hx with h1 | h1
      · right; left; exact h1
      · left; exact h1
    · dsimp only at h
      split at h
      · simp only [Option.some.injEq] at h
        subst h
        rcases List.mem_cons.mp hx with h1 | h1
        · right; left; exact h1
        · left; exact h1
      · rename_i hne
        rcases ih _ _ _ _ h x hx with h1 | h1 | h1
        · rcases List.mem_cons.mp h1 with h2 | h2
          · right; left; exact h2
          · left; exact h2
        · right; right
          rcases firstWeighted_cases weights
            ((sortConnections nodes weights walk).conns walk) walk with h3 | ⟨_, h3⟩
          · exact absurd h3 hne
          · rw [h1]; exact h3
        · right; right; exact h1

/-- C7: when the weight function returns `ErrInvalidNode` for every edge whose
candidate is `X`, and `X` is neither `fromId` nor `toId`, then `X` does not
occur in any path returned by `WeightedSolver`. -/
theorem WeightedSolver_avoids_vetoed_node (nodes : NodeSet δ) (fromId toId X : Int)
    (weightFunc : WeightFunc δ) (hfrom : X ≠ fromId) (hto : X ≠ toId)
    (hveto : ∀ previous current,
      (weightFunc nodes previous current X).2 = some Error.ErrInvalidNode)
    (fuel : Nat) (path : List Int) (err : Option Error)
    (hrun : nodes.WeightedSolver fuel fromId toId weightFunc = some (path, err)) :
    X ∉ path := by
  unfold NodeSet.WeightedSolver NodeSet.weightedRun at hrun
  have hw := relaxLoop_weights_none nodes weightFunc toId X hveto fuel (relaxInit fromId)
    (by simp [relaxInit, IntMap.set, IntMap.empty, hfrom])
  cases hs : relaxLoop nodes weightFunc toId fuel (relaxInit fromId) with
  | mk s st =>
    rw [hs] at hrun hw
    cases st with
    | outOfFuel => simp at hrun
    | aborted e =>
      simp only [Option.map_some', Option.some.injEq, Prod.mk.injEq] at hrun
      rw [← hrun.1]; simp
    | drained =>
      dsimp only at hrun hw
      cases hwalk : weightedWalk s.weights fromId fuel nodes toId [] with
      | none => rw [hwalk] at hrun; simp at hrun
      | some r =>
        obtain ⟨walk, p, nodes2⟩ := r
        rw [hwalk] at hrun
        dsimp only at hrun
        split at hrun
        · simp only [Option.map_some', Option.some.injEq, Prod.mk.injEq] at hrun
          rw [← hrun.1]; simp
        · simp only [Option.map_some', Option.some.injEq, Prod.mk.injEq] at hrun
          rw [← hrun.1]
          intro hX
          rcases weightedWalk_path s.weights fromId fuel nodes toId [] _ hwalk X hX with h | h | h
          · simp at h
          · exact hto h
          · rw [hw] at h; simp at h

unseal Rat.add in
/-- Witness for C7: on the line 1-2-3 with a fourth node 4 hanging off 2, every
edge into 4 vetoed, the path from 1 to 3 does not hold 4. -/
theorem WeightedSolver_avoids_vetoed_node_witness :
    (4 : Int) ∉ [1, 2, 3] :=
  WeightedSolver_avoids_vetoed_node starGraph 1 3 4 vetoNode4 (by decide) (by decide)
    (by intro previous current; rfl) 3 [1, 2, 3] none (by decide)


/-! ## Errors of the weight function -/

theorem relaxEdge_calls (nodes : NodeSet δ) (weightFunc : WeightFunc δ) (toId : Int)
    (current : Connection) (c : Int) (s : RelaxState) :
    (relaxEdge nodes weightFunc toId current c s).1.calls =
      s.calls ++ [(current.From, current.To, c)] := by
  unfold relaxEdge
  dsimp only
  split
  · split <;> rfl
  · split
    · rfl
    · split
      · split <;> rfl
      · rfl

theorem relaxEdge_error (nodes : NodeSet δ) (weightFunc : WeightFunc δ) (toId : Int)
    (current : Connection) (c : Int) (s : RelaxState) :
    (relaxEdge nodes weightFunc toId current c s).2 =
      match (weightFunc nodes current.From current.To c).2 with
      | some err => if err = Error.ErrInvalidNode then none else some err
      | none => none := by
  unfold relaxEdge
  dsimp only
  split
  · split <;> rfl
  · split
    · rfl
    · split
      · split <;> rfl
      · rfl

theorem relaxEdge_callsAgree (nodes : NodeSet δ) (weightFunc : WeightFunc δ) (toId : Int)
    (current : Connection) (c : Int) (s : RelaxState)
    (h : CallsAgree nodes weightFunc s.calls none) :
    CallsAgree nodes weightFunc (relaxEdge nodes weightFunc toId current c s).1.calls
      (relaxEdge nodes weightFunc toId current c s).2 := by
  rw [relaxEdge_calls, relaxEdge_error]
  constructor
  · intro call hcall e he hne
    rcases List.mem_append.mp hcall with hold | hnew
    · exact absurd (h.1 call hold e he hne) (by simp)
    · simp only [List.mem_singleton] at hnew
      subst hnew
      dsimp only at he
      rw [he]
      simp [hne]
  · intro e he
    split at he
    · rename_i err herr
      split at he
      · simp at he
      · rename_i hne
        simp only [Option.some.injEq] at he
        rw [← he]; exact hne
    · simp at he

theorem relaxConnections_callsAgree (nodes : NodeSet δ) (weightFunc : WeightFunc δ)
    (toId : Int) (current : Connection) (cs : List Int) :
    ∀ s : RelaxState, CallsAgree nodes weightFunc s.calls none →
      CallsAgree nodes weightFunc (relaxConnections nodes weightFunc toId current cs s).1.calls
        (relaxConnections nodes weightFunc toId current cs s).2 := by
  induction cs with
  | nil => intro s h; exact h
  | cons c cs ih =>
    intro s h
    rw [relaxConnections]
    have h1 := relaxEdge_callsAgree nodes weightFunc toId current c s h
    cases hr : relaxEdge nodes weightFunc toId current c s with
    | mk s1 oe =>
      rw [hr] at h1
      cases oe with
      | some err => exact h1
      | none => exact ih s1 h1

theorem relaxLoop_callsAgree (nodes : NodeSet δ) (weightFunc : WeightFunc δ) (toId : Int) :
    ∀ (fuel : Nat) (s : RelaxState), CallsAgree nodes weightFunc s.calls none →
      CallsAgree nodes weightFunc (relaxLoop nodes weightFunc toId fuel s).1.calls
        (relaxLoop nodes weightFunc toId fuel s).2.error := by
  intro fuel
  induction fuel with
  | zero =>
    intro s h
    rw [relaxLoop]
    split <;> exact h
  | succ n ih =>
    intro s h
    rw [relaxLoop]
    split
    · exact h
    · rename_i current queue hq
      have h1 := relaxConnections_callsAgree nodes weightFunc toId current
        (nodes.conns current.To) { s with queue := queue } h
      split
      · rename_i s1 err hr
        rw [hr] at h1; exact h1
      · rename_i s1 hr
        rw [hr] at h1; exact ih s1 h1

theorem weightedRun_of_aborted (nodes : NodeSet δ) (fuel : Nat) (fromId toId : Int)
    (weightFunc : WeightFunc δ) (e : Error)
    (h : (relaxLoop nodes weightFunc toId fuel (relaxInit fromId)).2 = RelaxStatus.aborted e) :
    nodes.WeightedSolver fuel fromId toId weightFunc = some ([], some e) := by
  unfold NodeSet.WeightedSolver NodeSet.weightedRun
  cases hs : relaxLoop nodes weightFunc toId fuel (relaxInit fromId) with
  | mk s st =>
    rw [hs] at h
    dsimp only at h
    subst h
    rfl

/-- C9: an error other than `ErrInvalidNode` returned by the weight function
on an edge evaluated during the relaxation makes `WeightedSolver` stop and
return exactly that error with an empty path; this holds in particular for
the first edge evaluated; and `ErrInvalidNode` is never the error returned. -/
theorem WeightedSolver_propagates_error (nodes : NodeSet δ) (fromId toId : Int)
    (weightFunc : WeightFunc δ) :
    (∀ (fuel : Nat) (call : Int × Int × Int) (e : Error),
        call ∈ (relaxLoop nodes weightFunc toId fuel (relaxInit fromId)).1.calls →
        (weightFunc nodes call.1 call.2.1 call.2.2).2 = some e → e ≠ Error.ErrInvalidNode →
        (relaxLoop nodes weightFunc toId fuel (relaxInit fromId)).2 = RelaxStatus.aborted e ∧
          ∀ fuel2, fuel ≤ fuel2 →
            nodes.WeightedSolver fuel2 fromId toId weightFunc = some ([], some e)) ∧
      (∀ (c : Int) (rest : List Int) (e : Error), nodes.conns fromId = c :: rest →
        (weightFunc nodes (-1) fromId c).2 = some e → e ≠ Error.ErrInvalidNode →
        (relaxLoop nodes weightFunc toId 1 (relaxInit fromId)).1.calls = [(-1, fromId, c)] ∧
          ∀ fuel, 1 ≤ fuel →
            nodes.WeightedSolver fuel fromId toId weightFunc = some ([], some e)) ∧
      ∀ (fuel : Nat) (path : List Int),
        nodes.WeightedSolver fuel fromId toId weightFunc ≠
          some (path, some Error.ErrInvalidNode) := by
  have hinit : CallsAgree nodes weightFunc (relaxInit fromId).calls none :=
    ⟨by intro call hcall; simp [relaxInit] at hcall, by intro e he; simp at he⟩
  refine ⟨?_, ?_, ?_⟩
  · intro fuel call e hcall he hne
    have hagree := relaxLoop_callsAgree nodes weightFunc toId fuel (relaxInit fromId) hinit
    have hst := hagree.1 call hcall e he hne
    have hab : (relaxLoop nodes weightFunc toId fuel (relaxInit fromId)).2 =
        RelaxStatus.aborted e := by
      cases hs : (relaxLoop nodes weightFunc toId fuel (relaxInit fromId)).2 with
      | drained => rw [hs] at hst; simp [RelaxStatus.error] at hst
      | outOfFuel => rw [hs] at hst; simp [RelaxStatus.error] at hst
      | aborted e2 =>
        rw [hs] at hst
        simp only [RelaxStatus.error, Option.some.injEq] at hst
        rw [hst]
    refine ⟨hab, ?_⟩
    intro fuel2 hle
    exact WeightedSolver_mono nodes fromId toId weightFunc fuel fuel2 hle _
      (weightedRun_of_aborted nodes fuel fromId toId weightFunc e hab)
  · intro c rest e hconns he hne
    have hedge : relaxEdge nodes weightFunc toId ⟨fromId, -1⟩ c
        { weights := IntMap.empty.set fromId 0, top := MaxFloat64, queue := [], calls := [] } =
        ({ weights := IntMap.empty.set fromId 0, top := MaxFloat64, queue := [],
           calls := [(-1, fromId, c)] }, some e) := by
      unfold relaxEdge
      dsimp only
      rw [he]
      simp [hne]
    have hloop : relaxLoop nodes weightFunc toId 1 (relaxInit fromId) =
        ({ weights := IntMap.empty.set fromId 0, top := MaxFloat64, queue := [],
           calls := [(-1, fromId, c)] }, RelaxStatus.aborted e) := by
      rw [relaxLoop]
      simp only [relaxInit, hconns, relaxConnections, hedge]
    refine ⟨by rw [hloop], ?_⟩
    intro fuel hle
    exact WeightedSolver_mono nodes fromId toId weightFunc 1 fuel hle _
      (weightedRun_of_aborted nodes 1 fromId toId weightFunc e (by rw [hloop]))
  · intro fuel path hrun
    have hagree := relaxLoop_callsAgree nodes weightFunc toId fuel (relaxInit fromId) hinit
    unfold NodeSet.WeightedSolver NodeSet.weightedRun at hrun
    cases hs : relaxLoop nodes weightFunc toId fuel (relaxInit fromId) with
    | mk s st =>
      rw [hs] at hrun hagree
      cases st with
      | outOfFuel => simp at hrun
      | aborted e =>
        simp only [Option.map_some', Option.some.injEq, Prod.mk.injEq] at hrun
        exact hagree.2 e rfl hrun.2
      | drained =>
        dsimp only at hrun
        cases hwalk : weightedWalk s.weights fromId fuel nodes toId [] with
        | none => rw [hwalk] at hrun; simp at hrun
        | some r =>
          obtain ⟨walk, p, nodes2⟩ := r
          rw [hwalk] at hrun
          dsimp only at hrun
          split at hrun <;> simp at hrun

/-- Witness for C9: on the line 1-2-3 a weight function that fails on the first
edge makes the solver return that error and no path. -/
theorem WeightedSolver_propagates_error_witness :
    lineGraph.WeightedSolver 1 1 3 failingWeight = some ([], some (Error.other 7)) :=
  ((WeightedSolver_propagates_error lineGraph 1 3 failingWeight).2.1 2 [] (Error.other 7)
    (by decide) (by decide) (by decide)).2 1 (le_refl 1)


/-! ## Effect of `WeightedSolver` on the node set -/

theorem insertionStep_perm (less : Int → Int → Bool) (x : Int) (l : List Int) :
    (insertionStep less x l).Perm (x :: l) := by
  induction l with
  | nil => exact List.Perm.refl _
  | cons y ys ih =>
    rw [insertionStep]
    split
    · exact (List.Perm.cons y ih).trans (List.Perm.swap x y ys)
    · exact List.Perm.refl _

theorem insertionLoop_perm (less : Int → Int → Bool) (l : List Int) :
    ∀ done : List Int, (insertionLoop less done l).Perm (done ++ l) := by
  induction l with
  | nil =>
    intro done
    rw [insertionLoop, List.append_nil]
    exact List.reverse_perm done
  | cons x rest ih =>
    intro done
    rw [insertionLoop]
    refine (ih _).trans ?_
    refine (List.Perm.append_right rest (insertionStep_perm less x done)).trans ?_
    exact (@List.perm_middle Int x done rest).symm

theorem sortByWeight_perm (weight : IntMap ℚ) (l : List Int) :
    (sortByWeight weight l).Perm l := by
  unfold sortByWeight
  simpa using insertionLoop_perm (ByWeight.Less weight) l []

theorem lookup_setConnections (es : List (Int × Node δ)) (k : Int) (cs : List Int) (id : Int) :
    (setConnections es k cs).lookup id =
      (es.lookup id).map (fun n => if id = k then { n with Connections := cs } else n) := by
  induction es with
  | nil => simp [setConnections]
  | cons e es ih =>
    obtain ⟨k1, n⟩ := e
    rw [setConnections]
    by_cases hk : k1 = k
    · subst hk
      rw [if_pos rfl]
      by_cases hid : id = k1
      · subst hid
        simp [List.lookup_cons]
      · have hb : (id == k1) = false := by simpa using hid
        simp only [List.lookup_cons, hb]
        cases es.lookup id <;> simp [hid]
    · rw [if_neg hk]
      by_cases hid : id = k1
      · subst hid
        simp [List.lookup_cons, hk]
      · have hb : (id == k1) = false := by simpa using hid
        simp only [List.lookup_cons, hb]
        exact ih

theorem sortConnections_sameUpToOrder (nodes : NodeSet δ) (weights : IntMap ℚ) (walk : Int) :
    SameUpToOrder nodes (sortConnections nodes weights walk) := by
  intro id
  unfold sortConnections NodeSet.conns NodeSet.get
  dsimp only
  rw [lookup_setConnections]
  cases hl : nodes.entries.lookup id with
  | none => simp
  | some n =>
    simp only [Option.map_some', Option.getD_some, Option.isSome_some, and_true]
    by_cases hid : id = walk
    · subst hid
      simp only [if_true, and_self, and_true]
      have := sortByWeight_perm weights (nodes.conns id)
      simpa [NodeSet.conns, NodeSet.get, hl] using this
    · simp [hid]

theorem sortConnections_conns (nodes : NodeSet δ) (weights : IntMap ℚ) (walk : Int) :
    (sortConnections nodes weights walk).conns walk = sortByWeight weights (nodes.conns walk) := by
  unfold sortConnections NodeSet.conns NodeSet.get
  dsimp only
  rw [lookup_setConnections]
  cases hl : nodes.entries.lookup walk with
  | none => simp [sortByWeight, insertionLoop]
  | some n => simp

theorem SameUpToOrder.refl (nodes : NodeSet δ) : SameUpToOrder nodes nodes :=
  fun _ => ⟨List.Perm.refl _, rfl, rfl, rfl⟩

theorem SameUpToOrder.trans {a b c : NodeSet δ} (h1 : SameUpToOrder a b)
    (h2 : SameUpToOrder b c) : SameUpToOrder a c :=
  fun id =>
    ⟨((h2 id).1).trans (h1 id).1, ((h2 id).2.1).trans (h1 id).2.1,
      ((h2 id).2.2.1).trans (h1 id).2.2.1, ((h2 id).2.2.2).trans (h1 id).2.2.2⟩

theorem weightedWalk_sameUpToOrder (weights : IntMap ℚ) (fromId : Int) :
    ∀ (fuel : Nat) (nodes : NodeSet δ) (walk : Int) (path : List Int)
      (r : Int × List Int × NodeSet δ),
      weightedWalk weights fromId fuel nodes walk path = some r →
      SameUpToOrder nodes r.2.2 := by
  intro fuel
  induction fuel with
  | zero => intro nodes walk path r h; simp [weightedWalk] at h
  | succ n ih =>
    intro nodes walk path r h
    rw [weightedWalk] at h
    split at h
    · simp only [Option.some.injEq] at h
      subst h
      exact SameUpToOrder.refl nodes
    · dsimp only at h
      split at h
      · simp only [Option.some.injEq] at h
        subst h
        exact sortConnections_sameUpToOrder nodes weights walk
      · exact (sortConnections_sameUpToOrder nodes weights walk).trans (ih _ _ _ _ h)

unseal Rat.add in
/-- C10: on the chain 1-2-3-4 with the direct edge 1-4 (each connection list a
slice of its own) and the uniform weight function, `WeightedSolver(1, 4)`
returns `[1, 4]` and leaves the connection list of node 4 as `[1, 3]`, while it
was `[3, 1]` before the call: the walk back sorts the list in place. -/
theorem WeightedSolver_reorders_connections :
    (chainGraph [2, 4] [1, 3] [2, 4] [3, 1]).conns 4 = [3, 1] ∧
      ∀ fuel, 4 ≤ fuel →
        ∃ nodes2, (chainGraph [2, 4] [1, 3] [2, 4] [3, 1]).weightedRun fuel 1 4
            WeightFuncConnections = some ([1, 4], none, nodes2) ∧
          nodes2.conns 4 = [1, 3] := by
  refine ⟨by decide, ?_⟩
  intro fuel hfuel
  have h4 : ((chainGraph [2, 4] [1, 3] [2, 4] [3, 1]).weightedRun 4 1 4
      WeightFuncConnections).map (fun r => (r.1, r.2.1, r.2.2.conns 4)) =
      some ([1, 4], none, [1, 3]) := by decide
  cases hr : (chainGraph [2, 4] [1, 3] [2, 4] [3, 1]).weightedRun 4 1 4
      WeightFuncConnections with
  | none => rw [hr] at h4; simp at h4
  | some r =>
    rw [hr] at h4
    simp only [Option.map_some', Option.some.injEq, Prod.mk.injEq] at h4
    obtain ⟨h1, h2, h3⟩ := h4
    have := weightedRun_mono (chainGraph [2, 4] [1, 3] [2, 4] [3, 1]) 1 4
      WeightFuncConnections 4 fuel hfuel r hr
    refine ⟨r.2.2, ?_, h3⟩
    rw [this, ← h1, ← h2]

/-! ## The loop over the connections in `FastSolver` -/

theorem IntMap.set_same {β : Type} (m : IntMap β) (k : Int) (v : β) : m.set k v k = some v := by
  simp [IntMap.set]

theorem IntMap.set_other {β : Type} (m : IntMap β) (k : Int) (v : β) (x : Int) (h : x ≠ k) :
    m.set k v x = m x := by
  simp [IntMap.set, h]

theorem fastVisit_of_visited (nodes : NodeSet δ) (check : CheckFunc δ) (cur c : Int)
    (s : FastState) (v : Int) (h : s.visited c = some v) :
    fastVisit nodes check cur c s = s := by
  unfold fastVisit
  rw [h]

theorem fastVisit_of_new (nodes : NodeSet δ) (check : CheckFunc δ) (cur c : Int)
    (s : FastState) (h : s.visited c = none) :
    fastVisit nodes check cur c s =
      { visited := s.visited.set c (-1)
        queue := if check nodes c then s.queue ++ [⟨c, cur⟩] else s.queue
        calls := s.calls ++ [c] } := by
  unfold fastVisit
  rw [h]

theorem fastExpand_visited_keep (nodes : NodeSet δ) (check : CheckFunc δ) (cur : Int)
    (cs : List Int) :
    ∀ (s : FastState) (x v : Int), s.visited x = some v →
      (fastExpand nodes check cur cs s).visited x = some v := by
  induction cs with
  | nil => intro s x v h; exact h
  | cons c cs ih =>
    intro s x v h
    rw [fastExpand]
    apply ih
    cases hc : s.visited c with
    | some w => rw [fastVisit_of_visited nodes check cur c s w hc]; exact h
    | none =>
      rw [fastVisit_of_new nodes check cur c s hc]
      dsimp only
      rw [IntMap.set_other]
      · exact h
      · intro hx; rw [hx, hc] at h; exact absurd h (by simp)

theorem fastExpand_visited_new (nodes : NodeSet δ) (check : CheckFunc δ) (cur : Int)
    (cs : List Int) :
    ∀ (s : FastState) (x v : Int), (fastExpand nodes check cur cs s).visited x = some v →
      s.visited x = some v ∨ (s.visited x = none ∧ x ∈ cs ∧ v = -1) := by
  induction cs with
  | nil => intro s x v h; left; exact h
  | cons c cs ih =>
    intro s x v h
    rw [fastExpand] at h
    cases hc : s.visited c with
    | some w =>
      rw [fastVisit_of_visited nodes check cur c s w hc] at h
      rcases ih s x v h with h1 | ⟨h1, h2, h3⟩
      · left; exact h1
      · right; exact ⟨h1, List.mem_cons_of_mem _ h2, h3⟩
    | none =>
      rw [fastVisit_of_new nodes check cur c s hc] at h
      rcases ih _ x v h with h1 | ⟨h1, h2, h3⟩
      · dsimp only at h1
        by_cases hx : x = c
        · subst hx
          rw [IntMap.set_same] at h1
          right
          exact ⟨hc, List.mem_cons_self _ _, by simpa using h1.symm⟩
        · rw [IntMap.set_other _ _ _ _ hx] at h1
          left; exact h1
      · dsimp only at h1
        by_cases hx : x = c
        · subst hx
          rw [IntMap.set_same] at h1
          exact absurd h1 (by simp)
        · rw [IntMap.set_other _ _ _ _ hx] at h1
          right; exact ⟨h1, List.mem_cons_of_mem _ h2, h3⟩

theorem fastExpand_visited_all (nodes : NodeSet δ) (check : CheckFunc δ) (cur : Int)
    (cs : List Int) :
    ∀ (s : FastState), ∀ c ∈ cs, ∃ v, (fastExpand nodes check cur cs s).visited c = some v := by
  induction cs with
  | nil => intro s c hc; simp at hc
  | cons c0 cs ih =>
    intro s c hc
    rw [fastExpand]
    rcases List.mem_cons.mp hc with h | h
    · subst h
      cases hv : s.visited c with
      | some w =>
        rw [fastVisit_of_visited nodes check cur c s w hv]
        exact ⟨w, fastExpand_visited_keep nodes check cur cs s c w hv⟩
      | none =>
        rw [fastVisit_of_new nodes check cur c s hv]
        exact ⟨-1, fastExpand_visited_keep nodes check cur cs _ c (-1) (IntMap.set_same _ _ _)⟩
    · exact ih _ c h

theorem fastExpand_queue (nodes : NodeSet δ) (check : CheckFunc δ) (cur : Int)
    (cs : List Int) :
    ∀ (s : FastState), ∃ added : List Connection,
      (fastExpand nodes check cur cs s).queue = s.queue ++ added ∧
      (∀ e ∈ added, e.From = cur ∧ e.To ∈ cs ∧ s.visited e.To = none ∧
        check nodes e.To = true) ∧
      (added.map Connection.To).Nodup ∧
      (∀ c ∈ cs, s.visited c = none → check nodes c = true → (⟨c, cur⟩ : Connection) ∈ added) := by
  induction cs with
  | nil =>
    intro s
    exact ⟨[], by simp [fastExpand], by simp, by simp, by simp⟩
  | cons c cs ih =>
    intro s
    rw [fastExpand]
    cases hc : s.visited c with
    | some w =>
      rw [fastVisit_of_visited nodes check cur c s w hc]
      obtain ⟨added, h1, h2, h3, h4⟩ := ih s
      refine ⟨added, h1, ?_, h3, ?_⟩
      · intro e he
        obtain ⟨a, b, c1, d⟩ := h2 e he
        exact ⟨a, List.mem_cons_of_mem _ b, c1, d⟩
      · intro c1 hc1 hv hk
        rcases List.mem_cons.mp hc1 with h | h
        · subst h; rw [hc] at hv; exact absurd hv (by simp)
        · exact h4 c1 h hv hk
    | none =>
      rw [fastVisit_of_new nodes check cur c s hc]
      obtain ⟨added, h1, h2, h3, h4⟩ := ih
        { visited := s.visited.set c (-1)
          queue := if check nodes c then s.queue ++ [⟨c, cur⟩] else s.queue
          calls := s.calls ++ [c] }
      dsimp only at h1 h2 h4
      have hold : ∀ e ∈ added, e.To ≠ c ∧ s.visited e.To = none := by
        intro e he
        obtain ⟨_, _, c1, _⟩ := h2 e he
        have hne : e.To ≠ c := by
          intro hx
          rw [hx, IntMap.set_same] at c1
          exact absurd c1 (by simp)
        rw [IntMap.set_other _ _ _ _ hne] at c1
        exact ⟨hne, c1⟩
      by_cases hk : check nodes c = true
      · rw [if_pos hk] at h1 ⊢
        refine ⟨⟨c, cur⟩ :: added, ?_, ?_, ?_, ?_⟩
        · rw [h1]; simp
        · intro e he
          rcases List.mem_cons.mp he with h | h
          · subst h
            exact ⟨rfl, List.mem_cons_self _ _, hc, hk⟩
          · obtain ⟨a, b, _, d⟩ := h2 e h
            exact ⟨a, List.mem_cons_of_mem _ b, (hold e h).2, d⟩
        · rw [List.map_cons, List.nodup_cons]
          refine ⟨?_, h3⟩
          intro hmem
          obtain ⟨e, he, hto⟩ := List.mem_map.mp hmem
          exact (hold e he).1 hto
        · intro c1 hc1 hv hk1
          rcases List.mem_cons.mp hc1 with h | h
          · subst h; exact List.mem_cons_self _ _
          · by_cases hx : c1 = c
            · subst hx; exact List.mem_cons_self _ _
            · apply List.mem_cons_of_mem
              apply h4 c1 h _ hk1
              rw [IntMap.set_other _ _ _ _ hx]; exact hv
      · rw [if_neg hk] at h1 ⊢
        refine ⟨added, h1, ?_, h3, ?_⟩
        · intro e he
          obtain ⟨a, b, _, d⟩ := h2 e he
          exact ⟨a, List.mem_cons_of_mem _ b, (hold e he).2, d⟩
        · intro c1 hc1 hv hk1
          rcases List.mem_cons.mp hc1 with h | h
          · subst h; exact absurd hk1 hk
          · by_cases hx : c1 = c
            · subst hx; exact absurd hk1 hk
            · apply h4 c1 h _ hk1
              rw [IntMap.set_other _ _ _ _ hx]; exact hv


/-! ## Rejected nodes and the path of `FastSolver` -/

theorem fastExpand_visitedAdmitted (nodes : NodeSet δ) (check : CheckFunc δ) (fromId cur : Int)
    (cs : List Int) (s : FastState) (h : VisitedAdmitted nodes check fromId s.visited) :
    VisitedAdmitted nodes check fromId (fastExpand nodes check cur cs s).visited := by
  intro x v hv
  rcases fastExpand_visited_new nodes check cur cs s x v hv with h1 | ⟨_, _, h3⟩
  · exact h x v h1
  · subst h3
    exact ⟨le_refl _, fun h0 => absurd h0 (by decide)⟩

theorem fastExpand_queue_admitted (nodes : NodeSet δ) (check : CheckFunc δ) (fromId cur : Int)
    (cs : List Int) (s : FastState)
    (h : ∀ e ∈ s.queue, e.To = fromId ∨ check nodes e.To = true) :
    ∀ e ∈ (fastExpand nodes check cur cs s).queue, e.To = fromId ∨ check nodes e.To = true := by
  obtain ⟨added, h1, h2, _, _⟩ := fastExpand_queue nodes check cur cs s
  intro e he
  rw [h1] at he
  rcases List.mem_append.mp he with h3 | h3
  · exact h e h3
  · right; exact (h2 e h3).2.2.2

theorem IntMap.read_ge (visited : IntMap Int) (x : Int)
    (h : ∀ v, visited x = some v → -1 ≤ v) : -1 ≤ visited.read x := by
  unfold IntMap.read
  cases hx : visited x with
  | none => simp
  | some v => simpa using h v hx

theorem fastSearch_admitted (nodes : NodeSet δ) (check : CheckFunc δ) (fromId toId : Int) :
    ∀ (fuel : Nat) (s : FastState) (cur : Connection) (r : FastState × Connection),
      fastSearch nodes check toId fuel s cur = some r →
      VisitedAdmitted nodes check fromId s.visited →
      (∀ e ∈ s.queue, e.To = fromId ∨ check nodes e.To = true) →
      (s.queue = [] → cur.To = fromId ∨ check nodes cur.To = true) →
      VisitedAdmitted nodes check fromId r.1.visited ∧
        (r.2.To = fromId ∨ check nodes r.2.To = true) := by
  intro fuel
  induction fuel with
  | zero =>
    intro s cur r h hv hq hcur
    rw [fastSearch] at h
    split at h
    · rename_i hnil
      simp only [Option.some.injEq] at h
      subst h
      exact ⟨hv, hcur hnil⟩
    · simp at h
  | succ n ih =>
    intro s cur r h hv hq hcur
    rw [fastSearch] at h
    split at h
    · rename_i hnil
      simp only [Option.some.injEq] at h
      subst h
      exact ⟨hv, hcur hnil⟩
    · rename_i c queue hcons
      have hc : c.To = fromId ∨ check nodes c.To = true := hq c (by rw [hcons]; simp)
      have hv1 : VisitedAdmitted nodes check fromId
          (if c.From ≠ -1 then s.visited.set c.To (s.visited.read c.From + 1)
            else s.visited) := by
        split
        · intro x v hx
          by_cases hxc : x = c.To
          · subst hxc
            rw [IntMap.set_same] at hx
            simp only [Option.some.injEq] at hx
            have := IntMap.read_ge s.visited c.From (fun v hv0 => (hv _ v hv0).1)
            exact ⟨by omega, fun _ => hc⟩
          · rw [IntMap.set_other _ _ _ _ hxc] at hx
            exact hv x v hx
        · exact hv
      have hq1 : ∀ e ∈ queue, e.To = fromId ∨ check nodes e.To = true := by
        intro e he
        exact hq e (by rw [hcons]; exact List.mem_cons_of_mem _ he)
      dsimp only at h
      split at h
      · simp only [Option.some.injEq] at h
        subst h
        exact ⟨hv1, hc⟩
      · exact ih _ _ _ h
          (fastExpand_visitedAdmitted nodes check fromId c.To _ _ hv1)
          (fastExpand_queue_admitted nodes check fromId c.To _ _ hq1)
          (fun _ => hc)

theorem fastScan_cases (visited : IntMap Int) (dist : Int) (cs : List Int) :
    ∀ walk : Int, fastScan visited dist cs walk = walk ∨
      (fastScan visited dist cs walk ∈ cs ∧
        visited (fastScan visited dist cs walk) = some (dist - 1)) := by
  induction cs with
  | nil => intro walk; left; rfl
  | cons c cs ih =>
    intro walk
    rw [fastScan]
    split
    · rcases ih walk with h | ⟨h1, h2⟩
      · left; exact h
      · right; exact ⟨List.mem_cons_of_mem _ h1, h2⟩
    · rename_i cdist hc
      split
      · rename_i heq
        rcases ih c with h | ⟨h1, h2⟩
        · right
          rw [h]
          exact ⟨List.mem_cons_self _ _, by rw [hc, heq]⟩
        · right; exact ⟨List.mem_cons_of_mem _ h1, h2⟩
      · rcases ih walk with h | ⟨h1, h2⟩
        · left; exact h
        · right; exact ⟨List.mem_cons_of_mem _ h1, h2⟩

theorem fastWalk_stuck (nodes : NodeSet δ) (visited : IntMap Int) (fromId walk : Int)
    (hne : walk ≠ fromId)
    (hstuck : fastScan visited (visited.read walk) (nodes.conns walk) walk = walk) :
    ∀ (fuel : Nat) (path : List Int), fastWalk nodes visited fromId fuel walk path = none := by
  intro fuel
  induction fuel with
  | zero => intro path; rfl
  | succ n ih =>
    intro path
    rw [fastWalk, if_neg hne, hstuck]
    exact ih _

theorem fastWalk_admitted (nodes : NodeSet δ) (check : CheckFunc δ) (fromId : Int)
    (visited : IntMap Int) (hv : VisitedAdmitted nodes check fromId visited) :
    ∀ (fuel : Nat) (walk : Int) (path p : List Int),
      fastWalk nodes visited fromId fuel walk path = some p →
      (walk = fromId ∨ check nodes walk = true ∨ visited walk = some (-1)) →
      (∀ x ∈ path, check nodes x = true) →
      ∀ x ∈ p.tail, check nodes x = true := by
  intro fuel
  induction fuel with
  | zero => intro walk path p h; simp [fastWalk] at h
  | succ n ih =>
    intro walk path p h hw hpath
    rw [fastWalk] at h
    split at h
    · simp only [Option.some.injEq] at h
      subst h
      simpa using hpath
    · rename_i hne
      have hnext : ∀ y, y = fastScan visited (visited.read walk) (nodes.conns walk) walk →
          y = walk ∨ (y = fromId ∨ check nodes y = true ∨ visited y = some (-1)) := by
        intro y hy
        rcases fastScan_cases visited (visited.read walk) (nodes.conns walk) walk with h1 | ⟨_, h2⟩
        · left; rw [hy, h1]
        · right
          rw [← hy] at h2
          have := hv y _ h2
          by_cases h0 : 0 ≤ visited.read walk - 1
          · rcases this.2 h0 with h3 | h3
            · left; exact h3
            · right; left; exact h3
          · right; right
            have : visited.read walk - 1 = -1 := by omega
            rw [h2, this]
      by_cases hck : check nodes walk = true
      · have hpath2 : ∀ x ∈ walk :: path, check nodes x = true := by
          intro x hx
          rcases List.mem_cons.mp hx with h1 | h1
          · rw [h1]; exact hck
          · exact hpath x h1
        rcases hnext _ rfl with h1 | h1
        · rw [h1, fastWalk_stuck nodes visited fromId walk hne h1 n] at h
          exact absurd h (by simp)
        · exact ih _ _ _ h h1 hpath2
      · have hm1 : visited walk = some (-1) := by
          rcases hw with h1 | h1 | h1
          · exact absurd h1 hne
          · exact absurd h1 hck
          · exact h1
        have hstuck : fastScan visited (visited.read walk) (nodes.conns walk) walk = walk := by
          rcases fastScan_cases visited (visited.read walk) (nodes.conns walk) walk with h1 | ⟨_, h2⟩
          · exact h1
          · have h3 := (hv _ _ h2).1
            have h4 : visited.read walk = -1 := by simp [IntMap.read, hm1]
            rw [h4] at h3
            exact absurd h3 (by decide)
        rw [hstuck, fastWalk_stuck nodes visited fromId walk hne hstuck n] at h
        exact absurd h (by simp)

theorem fastInit_visitedAdmitted (nodes : NodeSet δ) (check : CheckFunc δ) (fromId : Int) :
    VisitedAdmitted nodes check fromId (fastInit fromId).visited := by
  intro x v hx
  unfold fastInit at hx
  dsimp only at hx
  by_cases h : x = fromId
  · subst h
    rw [IntMap.set_same] at hx
    simp only [Option.some.injEq] at hx
    subst hx
    exact ⟨by decide, fun _ => Or.inl rfl⟩
  · rw [IntMap.set_other _ _ _ _ h] at hx
    simp [IntMap.empty] at hx

/-- C8: for every graph, endpoints and predicate, every node of a path returned
by `FastSolver`, the first element apart, is accepted by `check`. -/
theorem FastSolver_path_admitted (nodes : NodeSet δ) (fromId toId : Int) (check : CheckFunc δ)
    (fuel : Nat) (path : List Int) (err : Option Error)
    (hrun : nodes.FastSolver fuel fromId toId check = some (path, err)) :
    ∀ x ∈ path.tail, check nodes x = true := by
  unfold NodeSet.FastSolver at hrun
  cases hs : fastSearch nodes check toId fuel (fastInit fromId) ⟨0, 0⟩ with
  | none => rw [hs] at hrun; simp at hrun
  | some r =>
    obtain ⟨s, current⟩ := r
    rw [hs] at hrun
    dsimp only at hrun
    have hadm := fastSearch_admitted nodes check fromId toId fuel _ _ _ hs
      (fastInit_visitedAdmitted nodes check fromId)
      (by intro e he; simp [fastInit] at he; left; rw [he])
      (by intro hq; simp [fastInit] at hq)
    split at hrun
    · simp only [Option.some.injEq, Prod.mk.injEq] at hrun
      rw [← hrun.1]; simp
    · rename_i hto
      have hto2 : current.To = toId := by simpa using hto
      cases hw : fastWalk nodes s.visited fromId fuel toId [] with
      | none => rw [hw] at hrun; simp at hrun
      | some p =>
        rw [hw] at hrun
        simp only [Option.some.injEq, Prod.mk.injEq] at hrun
        rw [← hrun.1]
        refine fastWalk_admitted nodes check fromId s.visited hadm.1 fuel toId [] p hw ?_
          (by simp)
        rcases hadm.2 with h | h
        · left; rw [← hto2]; exact h
        · right; left; rw [← hto2]; exact h

/-- Witness for C8: on the chain 1-2-3-4 with the direct edge 1-4 and node 4
rejected, the path from 1 to 3 is `[1, 2, 3]`, and 2 and 3 are accepted. -/
theorem FastSolver_path_admitted_witness :
    rejectNode4 (chainGraph [2, 4] [1, 3] [2, 4] [3, 1]) 2 = true ∧
      rejectNode4 (chainGraph [2, 4] [1, 3] [2, 4] [3, 1]) 3 = true :=
  ⟨FastSolver_path_admitted (chainGraph [2, 4] [1, 3] [2, 4] [3, 1]) 1 3 rejectNode4 3
      [1, 2, 3] none (by decide) 2 (by decide),
    FastSolver_path_admitted (chainGraph [2, 4] [1, 3] [2, 4] [3, 1]) 1 3 rejectNode4 3
      [1, 2, 3] none (by decide) 3 (by decide)⟩

/-! ## Admitted routes -/

theorem isRoute_iff_chain (nodes : NodeSet δ) (p : List Int) :
    IsRoute nodes p ↔ List.Chain' (fun a b => b ∈ nodes.conns a) p := by
  induction p with
  | nil => simp [IsRoute]
  | cons a p ih =>
    cases p with
    | nil => simp [IsRoute]
    | cons b rest => rw [IsRoute, List.chain'_cons, ih]

theorem reachIn_of_route (nodes : NodeSet δ) (check : CheckFunc δ) (fromId : Int)
    (p : List Int) :
    ∀ toId, AdmittedRoute nodes check fromId toId p →
      ReachIn nodes check fromId (p.length - 1) toId := by
  induction p using List.reverseRecOn with
  | nil => intro toId h; simp [AdmittedRoute] at h
  | append_singleton q x ih =>
    intro toId h
    obtain ⟨hhead, hlast, hroute, hcheck⟩ := h
    rw [List.getLast?_concat] at hlast
    simp only [Option.some.injEq] at hlast
    subst hlast
    cases hq : q.getLast? with
    | none =>
      rw [List.getLast?_eq_none_iff] at hq
      subst hq
      simp only [List.nil_append, List.head?_cons, Option.some.injEq] at hhead
      subst hhead
      simpa using ReachIn.source
    | some u =>
      have hne : q ≠ [] := by
        intro h0; subst h0; simp at hq
      rw [isRoute_iff_chain, List.chain'_append] at hroute
      obtain ⟨hr1, _, hr3⟩ := hroute
      have hconn : x ∈ nodes.conns u := hr3 u (by simp [hq]) x (by simp)
      have hq_route : AdmittedRoute nodes check fromId u q := by
        refine ⟨?_, hq, (isRoute_iff_chain nodes q).mpr hr1, ?_⟩
        · cases q with
          | nil => exact absurd rfl hne
          | cons a q1 => simpa using hhead
        · intro y hy
          apply hcheck
          rw [List.tail_append_of_ne_nil hne]
          exact List.mem_append_left _ hy
      have hx : check nodes x = true := by
        apply hcheck
        rw [List.tail_append_of_ne_nil hne]
        simp
      have := ReachIn.step (ih u hq_route) hconn hx
      have hlen : (q ++ [x]).length - 1 = q.length - 1 + 1 := by
        have : 0 < q.length := List.length_pos.mpr hne
        simp only [List.length_append, List.length_singleton]
        omega
      rw [hlen]
      exact this

theorem route_of_reachIn (nodes : NodeSet δ) (check : CheckFunc δ) (fromId : Int)
    (n : Nat) (toId : Int) (h : ReachIn nodes check fromId n toId) :
    ∃ p, AdmittedRoute nodes check fromId toId p ∧ p.length = n + 1 := by
  induction h with
  | source => exact ⟨[fromId], ⟨rfl, rfl, by simp [IsRoute], by simp⟩, rfl⟩
  | @step n u c _ hconn hcheck ih =>
    obtain ⟨p, ⟨hhead, hlast, hroute, hchk⟩, hlen⟩ := ih
    have hne : p ≠ [] := by
      intro h0; subst h0; simp at hhead
    refine ⟨p ++ [c], ⟨?_, List.getLast?_concat p, ?_, ?_⟩, by simp [hlen]⟩
    · cases p with
      | nil => exact absurd rfl hne
      | cons a q1 => simpa using hhead
    · rw [isRoute_iff_chain, List.chain'_append]
      refine ⟨(isRoute_iff_chain nodes p).mp hroute, by simp, ?_⟩
      intro x hx y hy
      rw [hlast] at hx
      simp only [Option.mem_def, Option.some.injEq] at hx
      simp only [List.head?_cons, Option.mem_def, Option.some.injEq] at hy
      subst hx; subst hy
      exact hconn
    · intro x hx
      rw [List.tail_append_of_ne_nil hne] at hx
      rcases List.mem_append.mp hx with h1 | h1
      · exact hchk x h1
      · simp only [List.mem_singleton] at h1
        rw [h1]; exact hcheck

theorem route_length_pos (nodes : NodeSet δ) (check : CheckFunc δ) (fromId toId : Int)
    (p : List Int) (h : AdmittedRoute nodes check fromId toId p) : 0 < p.length := by
  cases p with
  | nil => simp [AdmittedRoute] at h
  | cons a q => simp


/-! ## The search loop of `FastSolver`: termination -/

theorem mem_allConns (nodes : NodeSet δ) (x c : Int) (h : c ∈ nodes.conns x) :
    c ∈ allConns nodes := by
  unfold NodeSet.conns NodeSet.get at h
  unfold allConns
  cases hl : nodes.entries.lookup x with
  | none => rw [hl] at h; simp at h
  | some n =>
    rw [hl] at h
    simp only [Option.getD_some] at h
    have hmem : (x, n) ∈ nodes.entries := by
      generalize nodes.entries = es at hl
      induction es with
      | nil => simp at hl
      | cons e es ih =>
        obtain ⟨k, m⟩ := e
        rw [List.lookup_cons] at hl
        by_cases hk : x = k
        · subst hk
          simp only [beq_self_eq_true, Option.some.injEq] at hl
          subst hl
          exact List.mem_cons_self _ _
        · have hb : (x == k) = false := by simpa using hk
          rw [hb] at hl
          exact List.mem_cons_of_mem _ (ih hl)
    exact List.mem_flatMap.mpr ⟨(x, n), hmem, h⟩

theorem unvisited_set_le {β : Type} (visited : IntMap β) (k : Int) (w : β) (l : List Int) :
    unvisited (visited.set k w) l ≤ unvisited visited l := by
  unfold unvisited
  induction l with
  | nil => simp
  | cons a l ih =>
    rw [List.countP_cons, List.countP_cons]
    by_cases ha : a = k
    · subst ha
      rw [IntMap.set_same]
      simp only [Option.isNone_some, Bool.false_eq_true, if_false]
      omega
    · rw [IntMap.set_other _ _ _ _ ha]
      omega

theorem unvisited_set_lt {β : Type} (visited : IntMap β) (k : Int) (w : β) (l : List Int)
    (hk : k ∈ l)
    (hv : visited k = none) :
    unvisited (visited.set k w) l + 1 ≤ unvisited visited l := by
  induction l with
  | nil => simp at hk
  | cons a l ih =>
    have hle := unvisited_set_le visited k w l
    unfold unvisited at ih hle ⊢
    rw [List.countP_cons, List.countP_cons]
    by_cases ha : a = k
    · subst ha
      rw [IntMap.set_same, hv]
      simp only [Option.isNone_some, Bool.false_eq_true, if_false, Option.isNone_none, if_true]
      omega
    · rw [IntMap.set_other _ _ _ _ ha]
      have hk2 : k ∈ l := by
        rcases List.mem_cons.mp hk with h | h
        · exact absurd h.symm ha
        · exact h
      have := ih hk2
      omega

theorem fastExpand_measure (nodes : NodeSet δ) (check : CheckFunc δ) (cur : Int) (l : List Int)
    (cs : List Int) :
    ∀ s : FastState, (∀ c ∈ cs, c ∈ l) →
      (fastExpand nodes check cur cs s).queue.length +
          unvisited (fastExpand nodes check cur cs s).visited l ≤
        s.queue.length + unvisited s.visited l := by
  induction cs with
  | nil => intro s _; exact le_refl _
  | cons c cs ih =>
    intro s hcs
    rw [fastExpand]
    refine le_trans (ih _ (fun c1 h1 => hcs c1 (List.mem_cons_of_mem _ h1))) ?_
    cases hc : s.visited c with
    | some w => rw [fastVisit_of_visited nodes check cur c s w hc]
    | none =>
      rw [fastVisit_of_new nodes check cur c s hc]
      dsimp only
      have := unvisited_set_lt s.visited c (-1) l (hcs c (List.mem_cons_self _ _)) hc
      split
      · simp only [List.length_append, List.length_singleton]
        omega
      · omega

theorem fastSearch_terminates (nodes : NodeSet δ) (check : CheckFunc δ) (toId : Int) :
    ∀ (fuel : Nat) (s : FastState) (cur : Connection),
      s.queue.length + unvisited s.visited (allConns nodes) ≤ fuel →
      ∃ r, fastSearch nodes check toId fuel s cur = some r := by
  intro fuel
  induction fuel with
  | zero =>
    intro s cur h
    rw [fastSearch]
    cases hq : s.queue with
    | nil => exact ⟨_, rfl⟩
    | cons a q => rw [hq] at h; simp at h
  | succ n ih =>
    intro s cur h
    rw [fastSearch]
    cases hq : s.queue with
    | nil => exact ⟨_, rfl⟩
    | cons c q =>
      dsimp only
      split
      · exact ⟨_, rfl⟩
      · apply ih
        refine le_trans (fastExpand_measure nodes check c.To (allConns nodes) _ _
          (fun c1 h1 => mem_allConns nodes c.To c1 h1)) ?_
        dsimp only
        rw [hq] at h
        simp only [List.length_cons] at h
        have : unvisited (if c.From ≠ -1 then s.visited.set c.To (s.visited.read c.From + 1)
            else s.visited) (allConns nodes) ≤ unvisited s.visited (allConns nodes) := by
          split
          · exact unvisited_set_le _ _ _ _
          · exact le_refl _
        omega

/-! ## The search loop of `FastSolver`: what it reaches -/

theorem fastSearch_sound (nodes : NodeSet δ) (check : CheckFunc δ) (fromId toId : Int) :
    ∀ (fuel : Nat) (s : FastState) (cur : Connection) (r : FastState × Connection),
      fastSearch nodes check toId fuel s cur = some r →
      (∀ e ∈ s.queue, ∃ n, ReachIn nodes check fromId n e.To) →
      (r.2 = cur ∧ s.queue = []) ∨ ∃ n, ReachIn nodes check fromId n r.2.To := by
  intro fuel
  induction fuel with
  | zero =>
    intro s cur r h hq
    rw [fastSearch] at h
    split at h
    · rename_i hnil
      simp only [Option.some.injEq] at h
      subst h
      left; exact ⟨rfl, hnil⟩
    · simp at h
  | succ n ih =>
    intro s cur r h hq
    rw [fastSearch] at h
    split at h
    · rename_i hnil
      simp only [Option.some.injEq] at h
      subst h
      left; exact ⟨rfl, hnil⟩
    · rename_i c queue hcons
      obtain ⟨m, hm⟩ := hq c (by rw [hcons]; simp)
      dsimp only at h
      split at h
      · simp only [Option.some.injEq] at h
        subst h
        right; exact ⟨m, hm⟩
      · have hq2 : ∀ e ∈ (fastExpand nodes check c.To (nodes.conns c.To)
            { s with
              visited := if c.From ≠ -1 then s.visited.set c.To (s.visited.read c.From + 1)
                else s.visited
              queue := queue }).queue, ∃ n, ReachIn nodes check fromId n e.To := by
          obtain ⟨added, h1, h2, _, _⟩ := fastExpand_queue nodes check c.To (nodes.conns c.To)
            { s with
              visited := if c.From ≠ -1 then s.visited.set c.To (s.visited.read c.From + 1)
                else s.visited
              queue := queue }
          intro e he
          rw [h1] at he
          rcases List.mem_append.mp he with h3 | h3
          · exact hq e (by rw [hcons]; exact List.mem_cons_of_mem _ h3)
          · obtain ⟨_, hb, _, hd⟩ := h2 e h3
            exact ⟨m + 1, ReachIn.step hm hb hd⟩
        rcases ih _ _ _ h hq2 with ⟨h1, _⟩ | h1
        · right; rw [h1]; exact ⟨m, hm⟩
        · right; exact h1

theorem fastSearch_complete (nodes : NodeSet δ) (check : CheckFunc δ) (fromId toId : Int) :
    ∀ (fuel : Nat) (s : FastState) (cur : Connection) (r : FastState × Connection),
      fastSearch nodes check toId fuel s cur = some r →
      SearchClosed nodes check fromId toId s → r.2.To ≠ toId →
      SearchClosed nodes check fromId toId r.1 ∧ r.1.queue = [] := by
  intro fuel
  induction fuel with
  | zero =>
    intro s cur r h hk hne
    rw [fastSearch] at h
    split at h
    · rename_i hnil
      simp only [Option.some.injEq] at h
      subst h
      exact ⟨hk, hnil⟩
    · simp at h
  | succ n ih =>
    intro s cur r h hk hne
    rw [fastSearch] at h
    split at h
    · rename_i hnil
      simp only [Option.some.injEq] at h
      subst h
      exact ⟨hk, hnil⟩
    · rename_i c queue hcons
      dsimp only at h
      split at h
      · rename_i hto
        simp only [Option.some.injEq] at h
        subst h
        exact absurd hto hne
      · rename_i hto
        refine ih _ _ _ h ?_ hne
        -- the map after the distance of `c.To` is written
        have hdom : ∀ x v, s.visited x = some v →
            ∃ w, (if c.From ≠ -1 then s.visited.set c.To (s.visited.read c.From + 1)
              else s.visited) x = some w := by
          intro x v hx
          split
          · by_cases hxc : x = c.To
            · subst hxc; exact ⟨_, IntMap.set_same _ _ _⟩
            · rw [IntMap.set_other _ _ _ _ hxc]; exact ⟨v, hx⟩
          · exact ⟨v, hx⟩
        have hdom2 : ∀ x w, x ≠ c.To →
            (if c.From ≠ -1 then s.visited.set c.To (s.visited.read c.From + 1)
              else s.visited) x = some w → s.visited x = some w := by
          intro x w hxc hx
          split at hx
          · rw [IntMap.set_other _ _ _ _ hxc] at hx; exact hx
          · exact hx
        obtain ⟨added, hq1, _, _, hq4⟩ := fastExpand_queue nodes check c.To (nodes.conns c.To)
          { s with
            visited := if c.From ≠ -1 then s.visited.set c.To (s.visited.read c.From + 1)
              else s.visited
            queue := queue }
        constructor
        · obtain ⟨v, hv⟩ := hk.1
          obtain ⟨w, hw⟩ := hdom fromId v hv
          exact ⟨w, fastExpand_visited_keep nodes check c.To _ _ fromId w hw⟩
        · intro x v hx
          rcases fastExpand_visited_new nodes check c.To _ _ x v hx with h1 | ⟨h1, h2, _⟩
          · dsimp only at h1
            by_cases hxc : x = c.To
            · right; left
              refine ⟨by rw [hxc]; exact hto, ?_⟩
              intro c1 hc1
              rw [hxc] at hc1
              exact fastExpand_visited_all nodes check c.To _ _ c1 hc1
            · rcases hk.2 x v (hdom2 x v hxc h1) with ⟨e, he, hex⟩ | ⟨hxt, hcl⟩ | hrej
              · left
                rw [hcons] at he
                rcases List.mem_cons.mp he with h3 | h3
                · rw [h3] at hex; exact absurd hex.symm hxc
                · exact ⟨e, by rw [hq1]; exact List.mem_append_left _ h3, hex⟩
              · right; left
                refine ⟨hxt, ?_⟩
                intro c1 hc1
                obtain ⟨w, hw⟩ := hcl c1 hc1
                obtain ⟨w2, hw2⟩ := hdom c1 w hw
                exact ⟨w2, fastExpand_visited_keep nodes check c.To _ _ c1 w2 hw2⟩
              · right; right; exact hrej
          · dsimp only at h1
            by_cases hck : check nodes x = true
            · left
              exact ⟨⟨x, c.To⟩, by rw [hq1]; exact List.mem_append_right _ (hq4 x h2 h1 hck), rfl⟩
            · right; right
              refine ⟨by simpa using hck, ?_⟩
              intro hxf
              obtain ⟨v0, hv0⟩ := hk.1
              obtain ⟨w, hw⟩ := hdom fromId v0 hv0
              rw [hxf, hw] at h1
              exact absurd h1 (by simp)

theorem searchClosed_reach (nodes : NodeSet δ) (check : CheckFunc δ) (fromId toId : Int)
    (s : FastState) (hk : SearchClosed nodes check fromId toId s) (hq : s.queue = [])
    (n : Nat) (x : Int) (h : ReachIn nodes check fromId n x) :
    x ≠ toId ∧ ∀ c ∈ nodes.conns x, ∃ w, s.visited c = some w := by
  induction h with
  | source =>
    obtain ⟨v, hv⟩ := hk.1
    rcases hk.2 fromId v hv with ⟨e, he, _⟩ | h2 | ⟨_, h3⟩
    · rw [hq] at he; simp at he
    · exact h2
    · exact absurd rfl h3
  | @step n u c _ hconn hcheck ih =>
    obtain ⟨w, hw⟩ := ih.2 c hconn
    rcases hk.2 c w hw with ⟨e, he, _⟩ | h2 | ⟨h3, _⟩
    · rw [hq] at he; simp at he
    · exact h2
    · rw [hcheck] at h3; exact absurd h3 (by simp)

theorem fastInit_searchClosed (nodes : NodeSet δ) (check : CheckFunc δ) (fromId toId : Int) :
    SearchClosed nodes check fromId toId (fastInit fromId) := by
  constructor
  · exact ⟨0, IntMap.set_same _ _ _⟩
  · intro x v hx
    left
    unfold fastInit at hx ⊢
    dsimp only at hx ⊢
    by_cases h : x = fromId
    · exact ⟨⟨fromId, -1⟩, by simp, h.symm⟩
    · rw [IntMap.set_other _ _ _ _ h] at hx
      simp [IntMap.empty] at hx

/-- Fuel that is enough for the search loop of `FastSolver`. -/
theorem fastSearch_init_terminates (nodes : NodeSet δ) (check : CheckFunc δ)
    (fromId toId : Int) (fuel : Nat) (hfuel : 1 + (allConns nodes).length ≤ fuel) :
    ∃ r, fastSearch nodes check toId fuel (fastInit fromId) ⟨0, 0⟩ = some r := by
  apply fastSearch_terminates
  have : unvisited (fastInit fromId).visited (allConns nodes) ≤ (allConns nodes).length :=
    List.countP_le_length _
  simp only [fastInit, List.length_singleton] at this ⊢
  omega

theorem FastSolver_noPath_of_unreachable (nodes : NodeSet δ) (check : CheckFunc δ)
    (fromId toId : Int) (hno : ∀ n, ¬ ReachIn nodes check fromId n toId)
    (fuel : Nat) (hfuel : 1 + (allConns nodes).length ≤ fuel) :
    nodes.FastSolver fuel fromId toId check = some ([], some Error.ErrNoPathFound) := by
  obtain ⟨r, hr⟩ := fastSearch_init_terminates nodes check fromId toId fuel hfuel
  unfold NodeSet.FastSolver
  rw [hr]
  obtain ⟨s, current⟩ := r
  dsimp only
  have hsound := fastSearch_sound nodes check fromId toId fuel _ _ _ hr
    (by intro e he
        simp only [fastInit, List.mem_singleton] at he
        rw [he]; exact ⟨0, ReachIn.source⟩)
  have hne : current.To ≠ toId := by
    intro hto
    rcases hsound with ⟨_, h2⟩ | ⟨n, hn⟩
    · simp [fastInit] at h2
    · dsimp only at hn
      rw [hto] at hn
      exact hno n hn
  rw [if_pos hne]

theorem FastSolver_path_of_reachable (nodes : NodeSet δ) (check : CheckFunc δ)
    (fromId toId : Int) (n : Nat) (hreach : ReachIn nodes check fromId n toId)
    (fuel : Nat) (path : List Int) :
    nodes.FastSolver fuel fromId toId check ≠ some (path, some Error.ErrNoPathFound) := by
  intro hrun
  unfold NodeSet.FastSolver at hrun
  cases hs : fastSearch nodes check toId fuel (fastInit fromId) ⟨0, 0⟩ with
  | none => rw [hs] at hrun; simp at hrun
  | some r =>
    obtain ⟨s, current⟩ := r
    rw [hs] at hrun
    dsimp only at hrun
    split at hrun
    · rename_i hne
      obtain ⟨hk, hq⟩ := fastSearch_complete nodes check fromId toId fuel _ _ _ hs
        (fastInit_searchClosed nodes check fromId toId) hne
      exact (searchClosed_reach nodes check fromId toId s hk hq n toId hreach).1 rfl
    · cases hw : fastWalk nodes s.visited fromId fuel toId [] with
      | none => rw [hw] at hrun; simp at hrun
      | some p => rw [hw] at hrun; simp at hrun

/-- C4: for every graph, endpoints and predicate, `FastSolver` returns
`ErrNoPathFound` when no admitted route leads from `fromId` to `toId` (from
some fuel on, so the search ends), and never returns it when there is one; a
target distinct from the source that is in no connection list yields
`ErrNoPathFound`. -/
theorem FastSolver_noPath_iff_unreachable (nodes : NodeSet δ) (fromId toId : Int)
    (check : CheckFunc δ) :
    ((¬ ∃ p, AdmittedRoute nodes check fromId toId p) →
        ∃ N, ∀ fuel, N ≤ fuel →
          nodes.FastSolver fuel fromId toId check = some ([], some Error.ErrNoPathFound)) ∧
      ((∃ p, AdmittedRoute nodes check fromId toId p) →
        ∀ fuel path,
          nodes.FastSolver fuel fromId toId check ≠ some (path, some Error.ErrNoPathFound)) ∧
      (toId ≠ fromId → (∀ a, toId ∉ nodes.conns a) →
        ∃ N, ∀ fuel, N ≤ fuel →
          nodes.FastSolver fuel fromId toId check = some ([], some Error.ErrNoPathFound)) := by
  refine ⟨?_, ?_, ?_⟩
  · intro hno
    refine ⟨1 + (allConns nodes).length, ?_⟩
    intro fuel hfuel
    apply FastSolver_noPath_of_unreachable nodes check fromId toId _ fuel hfuel
    intro n hn
    obtain ⟨p, hp, _⟩ := route_of_reachIn nodes check fromId n toId hn
    exact hno ⟨p, hp⟩
  · intro ⟨p, hp⟩ fuel path
    exact FastSolver_path_of_reachable nodes check fromId toId _
      (reachIn_of_route nodes check fromId p toId hp) fuel path
  · intro hne hiso
    refine ⟨1 + (allConns nodes).length, ?_⟩
    intro fuel hfuel
    apply FastSolver_noPath_of_unreachable nodes check fromId toId _ fuel hfuel
    intro n hn
    cases hn with
    | source => exact hne rfl
    | step _ hconn _ => exact hiso _ hconn

/-- Witness for C4: node 5 is in no connection list of the chain graph, so the
search from 1 to 5 ends without a path. -/
theorem FastSolver_noPath_iff_unreachable_witness :
    ∃ N, ∀ fuel, N ≤ fuel →
      (chainGraph [2, 4] [1, 3] [2, 4] [3, 1]).FastSolver fuel 1 5 CheckAll =
        some ([], some Error.ErrNoPathFound) :=
  (FastSolver_noPath_iff_unreachable (chainGraph [2, 4] [1, 3] [2, 4] [3, 1]) 1 5 CheckAll).2.2
    (by decide) (fun a h => absurd (mem_allConns _ a 5 h) (by decide))


/-! ## The search loop of `FastSolver`: distances -/

theorem IntMap.read_some {β : Type} [Zero β] (m : IntMap β) (x : Int) (v : β)
    (h : m x = some v) : m.read x = v := by
  simp [IntMap.read, h]

/-- Looping over the connections of the node dequeued last restores the
invariant without exemption. -/
theorem levelInv_expand (nodes : NodeSet δ) (check : CheckFunc δ) (fromId : Int)
    (hsrc : ∀ u c, c ∈ nodes.conns u → u ≠ -1)
    (L : Int) (u : Int) (s : FastState)
    (h : LevelInv nodes check fromId L (some u) s) (hu : s.visited u = some L) :
    LevelInv nodes check fromId L none (fastExpand nodes check u (nodes.conns u) s) := by
  obtain ⟨added, hq1, hq2, hq3, hq4⟩ := fastExpand_queue nodes check u (nodes.conns u) s
  have hkeep := fastExpand_visited_keep nodes check u (nodes.conns u) s
  have hnew := fastExpand_visited_new nodes check u (nodes.conns u) s
  have hall := fastExpand_visited_all nodes check u (nodes.conns u) s
  have hread : ∀ x k, s.visited x = some k →
      (fastExpand nodes check u (nodes.conns u) s).visited.read x = s.visited.read x := by
    intro x k hx
    rw [IntMap.read_some _ _ _ (hkeep x k hx), IntMap.read_some _ _ _ hx]
  -- the queue part of the invariant, used again for `closed`
  have hqueue : ∀ e ∈ (fastExpand nodes check u (nodes.conns u) s).queue,
      e.From ≠ -1 ∧ (fastExpand nodes check u (nodes.conns u) s).visited e.To = some (-1) ∧
      check nodes e.To = true ∧ e.To ∈ nodes.conns e.From ∧
      ∃ k, (fastExpand nodes check u (nodes.conns u) s).visited e.From = some k ∧ 0 ≤ k ∧
        L ≤ k + 1 ∧ k ≤ L := by
    intro e he
    rw [hq1] at he
    rcases List.mem_append.mp he with h1 | h1
    · obtain ⟨a, b, c, d, k, hk, hk0, hk1, hk2⟩ := h.queue e h1
      exact ⟨a, hkeep _ _ b, c, d, k, hkeep _ _ hk, hk0, hk1, hk2⟩
    · obtain ⟨a, b, c, d⟩ := hq2 e h1
      refine ⟨?_, ?_, d, by rw [a]; exact b, L, by rw [a]; exact hkeep _ _ hu, h.level,
        by omega, le_refl _⟩
      · rw [a]; exact hsrc u e.To b
      · obtain ⟨v, hv⟩ := hall e.To b
        rcases hnew e.To v hv with h2 | ⟨_, _, h4⟩
        · rw [c] at h2; exact absurd h2 (by simp)
        · rw [hv, h4]
  have hpending : ∀ x, (fastExpand nodes check u (nodes.conns u) s).visited x = some (-1) →
      check nodes x = false ∨
        ∃ e ∈ (fastExpand nodes check u (nodes.conns u) s).queue, e.To = x := by
    intro x hx
    rcases hnew x (-1) hx with h1 | ⟨h1, h2, _⟩
    · rcases h.pending x h1 with h3 | ⟨e, he, hex⟩
      · left; exact h3
      · right; exact ⟨e, by rw [hq1]; exact List.mem_append_left _ he, hex⟩
    · by_cases hck : check nodes x = true
      · right
        exact ⟨⟨x, u⟩, by rw [hq1]; exact List.mem_append_right _ (hq4 x h2 h1 hck), rfl⟩
      · left; simpa using hck
  have hdist : ∀ x k, (fastExpand nodes check u (nodes.conns u) s).visited x = some k →
      k = -1 ∨ (0 ≤ k ∧ k ≤ L ∧ ReachIn nodes check fromId k.toNat x) := by
    intro x k hx
    rcases hnew x k hx with h1 | ⟨_, _, h3⟩
    · exact h.dist x k h1
    · left; exact h3
  refine ⟨hkeep _ _ h.source, h.level, hdist, hqueue, ?_, ?_, hpending, ?_⟩
  · -- sorted
    rw [hq1, List.pairwise_append]
    refine ⟨?_, ?_, ?_⟩
    · refine List.Pairwise.imp_of_mem ?_ h.sorted
      intro e e2 he he2 hle
      obtain ⟨_, _, _, _, k, hk, _⟩ := h.queue e he
      obtain ⟨_, _, _, _, k2, hk2, _⟩ := h.queue e2 he2
      rw [hread _ _ hk, hread _ _ hk2]; exact hle
    · rw [List.pairwise_iff_forall_sublist]
      intro e e2 hsub
      have he : e ∈ added := hsub.subset (by simp)
      have he2 : e2 ∈ added := hsub.subset (by simp)
      rw [(hq2 e he).1, (hq2 e2 he2).1]
    · intro e he e2 he2
      obtain ⟨_, _, _, _, k, hk, _, _, hk2⟩ := h.queue e he
      rw [(hq2 e2 he2).1, hread _ _ hk, hread _ _ hu, IntMap.read_some _ _ _ hk,
        IntMap.read_some _ _ _ hu]
      exact hk2
  · -- nodup
    rw [hq1, List.map_append, List.nodup_append]
    refine ⟨h.nodup, hq3, ?_⟩
    intro x hx1 hx2
    obtain ⟨e, he, hex⟩ := List.mem_map.mp hx1
    obtain ⟨e2, he2, hex2⟩ := List.mem_map.mp hx2
    have h1 := (h.queue e he).2.1
    have h2 := (hq2 e2 he2).2.2.1
    rw [hex] at h1
    rw [hex2, h1] at h2
    exact absurd h2 (by simp)
  · -- closed
    intro x k hx hk0 _ c hc hck
    have hxs : s.visited x = some k := by
      rcases hnew x k hx with h1 | ⟨_, _, h3⟩
      · exact h1
      · omega
    by_cases hxu : x = u
    · subst hxu
      have hkL : k = L := by rw [hu] at hxs; simpa using hxs.symm
      obtain ⟨j, hj⟩ := hall c hc
      by_cases hj0 : 0 ≤ j
      · left
        rcases hdist c j hj with h1 | ⟨_, h2, _⟩
        · omega
        · exact ⟨j, hj, hj0, by omega⟩
      · right
        have hj1 : j = -1 := by
          rcases hdist c j hj with h1 | ⟨h2, _⟩
          · exact h1
          · omega
        rw [hj1] at hj
        rcases hpending c hj with h1 | ⟨e, he, hex⟩
        · rw [hck] at h1; exact absurd h1 (by simp)
        · obtain ⟨_, _, _, _, k2, hk2, _, _, hk4⟩ := hqueue e he
          exact ⟨e, he, hex, by rw [IntMap.read_some _ _ _ hk2]; omega⟩
    · rcases h.closed x k hxs hk0 (by simpa using hxu) c hc hck with
        ⟨j, hj, hj0, hj1⟩ | ⟨e, he, hex, hle⟩
      · left; exact ⟨j, hkeep _ _ hj, hj0, hj1⟩
      · right
        obtain ⟨_, _, _, _, k2, hk2, _⟩ := h.queue e he
        exact ⟨e, by rw [hq1]; exact List.mem_append_left _ he, hex, by
          rw [hread _ _ hk2]; exact hle⟩

/-- Dequeuing the head of the queue and writing its distance gives the
invariant with the dequeued node exempt. -/
theorem levelInv_dequeue (nodes : NodeSet δ) (check : CheckFunc δ) (fromId : Int)
    (L : Int) (s : FastState) (e : Connection) (q : List Connection)
    (h : LevelInv nodes check fromId L none s) (hq : s.queue = e :: q) :
    LevelInv nodes check fromId (s.visited.read e.From + 1) (some e.To)
      { s with visited := s.visited.set e.To (s.visited.read e.From + 1), queue := q } := by
  have hmem : ∀ e2 ∈ q, e2 ∈ s.queue := fun e2 h2 => by rw [hq]; exact List.mem_cons_of_mem _ h2
  obtain ⟨_, heTo, heck, heconn, k, hk, hk0, hk1, hk2⟩ := h.queue e (by rw [hq]; simp)
  have hread : s.visited.read e.From = k := IntMap.read_some _ _ _ hk
  rw [hread]
  -- a node with a distance is not the dequeued one
  have hne : ∀ x j, s.visited x = some j → 0 ≤ j → x ≠ e.To := by
    intro x j hx hj hxe
    rw [hxe, heTo] at hx
    simp only [Option.some.injEq] at hx
    omega
  have hsorted := h.sorted
  rw [hq, List.pairwise_cons] at hsorted
  have hnodup := h.nodup
  rw [hq, List.map_cons, List.nodup_cons] at hnodup
  have hqne : ∀ e2 ∈ q, e2.To ≠ e.To := by
    intro e2 h2 heq
    exact hnodup.1 (List.mem_map.mpr ⟨e2, h2, heq⟩)
  have hreadq : ∀ e2 ∈ q, (s.visited.set e.To (k + 1)).read e2.From = s.visited.read e2.From := by
    intro e2 h2
    obtain ⟨_, _, _, _, k2, hk2, hk20, _⟩ := h.queue e2 (hmem e2 h2)
    unfold IntMap.read
    rw [IntMap.set_other _ _ _ _ (hne _ _ hk2 hk20)]
  refine ⟨?_, by omega, ?_, ?_, ?_, hnodup.2, ?_, ?_⟩
  · dsimp only
    rw [IntMap.set_other _ _ _ _ (hne _ _ h.source (le_refl _))]
    exact h.source
  · intro x j hx
    dsimp only at hx
    by_cases hxe : x = e.To
    · subst hxe
      rw [IntMap.set_same] at hx
      simp only [Option.some.injEq] at hx
      subst hx
      right
      refine ⟨by omega, le_refl _, ?_⟩
      rcases h.dist _ _ hk with h1 | ⟨_, _, h3⟩
      · omega
      · have : (k + 1).toNat = k.toNat + 1 := by omega
        rw [this]
        exact ReachIn.step h3 heconn heck
    · rw [IntMap.set_other _ _ _ _ hxe] at hx
      rcases h.dist x j hx with h1 | ⟨h1, h2, h3⟩
      · left; exact h1
      · right; exact ⟨h1, by omega, h3⟩
  · intro e2 h2
    dsimp only at h2 ⊢
    obtain ⟨a, b, c, d, k2, hk2, hk20, hk21, hk22⟩ := h.queue e2 (hmem e2 h2)
    refine ⟨a, ?_, c, d, k2, ?_, hk20, ?_, by omega⟩
    · rw [IntMap.set_other _ _ _ _ (hqne e2 h2)]; exact b
    · rw [IntMap.set_other _ _ _ _ (hne _ _ hk2 hk20)]; exact hk2
    · have := hsorted.1 e2 h2
      rw [hread, IntMap.read_some _ _ _ hk2] at this
      omega
  · dsimp only
    refine List.Pairwise.imp_of_mem ?_ hsorted.2
    intro a b ha hb hle
    rw [hreadq a ha, hreadq b hb]; exact hle
  · intro x hx
    dsimp only at hx ⊢
    by_cases hxe : x = e.To
    · subst hxe
      rw [IntMap.set_same] at hx
      simp only [Option.some.injEq] at hx
      omega
    · rw [IntMap.set_other _ _ _ _ hxe] at hx
      rcases h.pending x hx with h1 | ⟨e2, he2, hex⟩
      · left; exact h1
      · right
        rw [hq] at he2
        rcases List.mem_cons.mp he2 with h3 | h3
        · rw [h3] at hex; exact absurd hex.symm hxe
        · exact ⟨e2, h3, hex⟩
  · intro x j hx hj0 hxe c hc hck
    dsimp only at hx ⊢
    have hxe2 : x ≠ e.To := by simpa using hxe
    rw [IntMap.set_other _ _ _ _ hxe2] at hx
    rcases h.closed x j hx hj0 (by simp) c hc hck with ⟨i, hi, hi0, hi1⟩ | ⟨e2, he2, hex, hle⟩
    · left
      exact ⟨i, by rw [IntMap.set_other _ _ _ _ (hne _ _ hi hi0)]; exact hi, hi0, hi1⟩
    · rw [hq] at he2
      rcases List.mem_cons.mp he2 with h3 | h3
      · left
        rw [h3] at hex hle
        rw [hread] at hle
        exact ⟨k + 1, by rw [← hex]; exact IntMap.set_same _ _ _, by omega, by omega⟩
      · right
        exact ⟨e2, h3, hex, by rw [hreadq e2 h3]; exact hle⟩

/-- From a state of the loop that satisfies the invariant, the search that
ends on the target ends in a state that satisfies it with the target exempt
and at its level. -/
theorem fastSearch_levelInv (nodes : NodeSet δ) (check : CheckFunc δ) (fromId toId : Int)
    (hsrc : ∀ u c, c ∈ nodes.conns u → u ≠ -1) :
    ∀ (fuel : Nat) (s : FastState) (cur : Connection) (r : FastState × Connection) (L : Int),
      fastSearch nodes check toId fuel s cur = some r →
      LevelInv nodes check fromId L none s → s.queue ≠ [] → r.2.To = toId →
      ∃ L2, LevelInv nodes check fromId L2 (some toId) r.1 ∧ r.1.visited toId = some L2 := by
  intro fuel
  induction fuel with
  | zero =>
    intro s cur r L h hinv hq hto
    rw [fastSearch] at h
    split at h
    · rename_i hnil; exact absurd hnil hq
    · simp at h
  | succ n ih =>
    intro s cur r L h hinv hq hto
    rw [fastSearch] at h
    split at h
    · rename_i hnil; exact absurd hnil hq
    · rename_i c queue hcons
      have hfrom : c.From ≠ -1 := (hinv.queue c (by rw [hcons]; simp)).1
      have hmid := levelInv_dequeue nodes check fromId L s c queue hinv hcons
      dsimp only at h
      rw [if_pos hfrom] at h
      split at h
      · rename_i hcto
        simp only [Option.some.injEq] at h
        subst h
        dsimp only at hto ⊢
        rw [← hcto]
        exact ⟨_, hmid, IntMap.set_same _ _ _⟩
      · have hinv2 := levelInv_expand nodes check fromId hsrc _ c.To _ hmid
          (IntMap.set_same _ _ _)
        by_cases hq2 : (fastExpand nodes check c.To (nodes.conns c.To)
            { s with visited := s.visited.set c.To (s.visited.read c.From + 1),
                     queue := queue }).queue = []
        · -- the queue is empty: the loop ends on `c`, which is not the target
          rename_i hcto
          cases n with
          | zero =>
            rw [fastSearch, hq2] at h
            simp only [Option.some.injEq] at h
            subst h
            exact absurd hto hcto
          | succ m =>
            rw [fastSearch, hq2] at h
            simp only [Option.some.injEq] at h
            subst h
            exact absurd hto hcto
        · exact ih _ _ _ _ h hinv2 hq2 hto

/-- Initial state, once the source is dequeued: the invariant holds with the
source exempt. -/
theorem levelInv_init (nodes : NodeSet δ) (check : CheckFunc δ) (fromId : Int) :
    LevelInv nodes check fromId 0 (some fromId)
      { visited := IntMap.empty.set fromId 0, queue := [], calls := [] } := by
  have hval : ∀ x k, (IntMap.empty.set fromId (0 : Int)) x = some k → x = fromId ∧ k = 0 := by
    intro x k hx
    by_cases hxf : x = fromId
    · subst hxf
      rw [IntMap.set_same] at hx
      exact ⟨rfl, by simpa using hx.symm⟩
    · rw [IntMap.set_other _ _ _ _ hxf] at hx
      simp [IntMap.empty] at hx
  refine ⟨IntMap.set_same _ _ _, le_refl _, ?_, ?_, ?_, ?_, ?_, ?_⟩
  · intro x k hx
    obtain ⟨h1, h2⟩ := hval x k hx
    subst h1; subst h2
    right
    exact ⟨le_refl _, le_refl _, ReachIn.source⟩
  · intro e he; simp at he
  · simp
  · simp
  · intro x hx
    have := (hval x _ hx).2
    omega
  · intro x k hx _ hxe
    have := (hval x k hx).1
    subst this
    exact absurd rfl hxe

/-- The search of `FastSolver` that ends on the target ends in a state that
satisfies the invariant with the target exempt and at its level. -/
theorem fastSearch_init_levelInv (nodes : NodeSet δ) (check : CheckFunc δ) (fromId toId : Int)
    (hsrc : ∀ u c, c ∈ nodes.conns u → u ≠ -1) (fuel : Nat) (r : FastState × Connection)
    (h : fastSearch nodes check toId fuel (fastInit fromId) ⟨0, 0⟩ = some r)
    (hto : r.2.To = toId) :
    ∃ L, LevelInv nodes check fromId L (some toId) r.1 ∧ r.1.visited toId = some L := by
  cases fuel with
  | zero => simp [fastSearch, fastInit] at h
  | succ n =>
    rw [fastSearch] at h
    simp only [fastInit, ne_eq, not_true_eq_false, if_false] at h
    split at h
    · rename_i hft
      simp only [Option.some.injEq] at h
      subst h
      dsimp only at hto ⊢
      rw [← hft]
      exact ⟨0, levelInv_init nodes check fromId, IntMap.set_same _ _ _⟩
    · rename_i hft
      have hinv := levelInv_expand nodes check fromId hsrc 0 fromId _
        (levelInv_init nodes check fromId) (IntMap.set_same _ _ _)
      by_cases hq2 : (fastExpand nodes check fromId (nodes.conns fromId)
          { visited := IntMap.empty.set fromId 0, queue := [], calls := [] }).queue = []
      · cases n with
        | zero =>
          rw [fastSearch, hq2] at h
          simp only [Option.some.injEq] at h
          subst h
          exact absurd hto hft
        | succ m =>
          rw [fastSearch, hq2] at h
          simp only [Option.some.injEq] at h
          subst h
          exact absurd hto hft
      · exact fastSearch_levelInv nodes check fromId toId hsrc n _ _ _ 0 h hinv hq2 hto

/-! ## The distances recorded when the target is found -/

/-- Below the level of the exempt node every node at the end of an admitted
route has a distance in the map, at most the length of the route. -/
theorem levelInv_lower (nodes : NodeSet δ) (check : CheckFunc δ) (fromId : Int)
    (L : Int) (u : Int) (s : FastState)
    (h : LevelInv nodes check fromId L (some u) s) (hu : s.visited u = some L)
    (n : Nat) (x : Int) (hr : ReachIn nodes check fromId n x) :
    (n : Int) < L → ∃ k, s.visited x = some k ∧ 0 ≤ k ∧ k ≤ n := by
  induction hr with
  | source => intro _; exact ⟨0, h.source, le_refl _, by simp⟩
  | @step n w c _ hconn hcheck ih =>
    intro hn
    obtain ⟨k, hk, hk0, hkn⟩ := ih (by push_cast at hn; omega)
    have hwu : w ≠ u := by
      intro hwu
      rw [hwu, hu] at hk
      simp only [Option.some.injEq] at hk
      push_cast at hn; omega
    rcases h.closed w k hk hk0 (by simpa using hwu) c hconn hcheck with
      ⟨j, hj, hj0, hj1⟩ | ⟨e, he, _, hle⟩
    · exact ⟨j, hj, hj0, by push_cast; omega⟩
    · obtain ⟨_, _, _, _, k2, hk2, _, hk3, _⟩ := h.queue e he
      rw [IntMap.read_some _ _ _ hk2] at hle
      push_cast at hn; omega

/-- A distance in the map is the least length of an admitted route. -/
theorem levelInv_exact (nodes : NodeSet δ) (check : CheckFunc δ) (fromId : Int)
    (L : Int) (u : Int) (s : FastState)
    (h : LevelInv nodes check fromId L (some u) s) (hu : s.visited u = some L)
    (x : Int) (k : Int) (hx : s.visited x = some k) (hk : 0 ≤ k)
    (n : Nat) (hr : ReachIn nodes check fromId n x) : k ≤ n := by
  by_contra hlt
  rcases h.dist x k hx with h1 | ⟨_, h2, _⟩
  · omega
  · obtain ⟨j, hj, _, hjn⟩ := levelInv_lower nodes check fromId L u s h hu n x hr (by omega)
    rw [hx] at hj
    simp only [Option.some.injEq] at hj
    omega

theorem reachIn_zero (nodes : NodeSet δ) (check : CheckFunc δ) (fromId x : Int)
    (h : ReachIn nodes check fromId 0 x) : x = fromId := by
  cases h
  rfl

theorem reachIn_succ (nodes : NodeSet δ) (check : CheckFunc δ) (fromId x : Int) (m : Nat)
    (h : ReachIn nodes check fromId (m + 1) x) :
    ∃ p, ReachIn nodes check fromId m p ∧ x ∈ nodes.conns p ∧ check nodes x = true := by
  cases h with
  | step hp hconn hcheck => exact ⟨_, hp, hconn, hcheck⟩

/-- A node with a positive distance is a connection of a node whose distance
is one less. -/
theorem levelInv_pred (nodes : NodeSet δ) (check : CheckFunc δ) (fromId : Int)
    (L : Int) (u : Int) (s : FastState)
    (h : LevelInv nodes check fromId L (some u) s) (hu : s.visited u = some L)
    (x : Int) (k : Int) (hx : s.visited x = some k) (hk : 0 < k) :
    ∃ p, x ∈ nodes.conns p ∧ s.visited p = some (k - 1) := by
  rcases h.dist x k hx with h1 | ⟨_, h2, h3⟩
  · omega
  · obtain ⟨m, hm⟩ : ∃ m : Nat, k.toNat = m + 1 := ⟨k.toNat - 1, by omega⟩
    rw [hm] at h3
    obtain ⟨p, hp, hconn, hcheck⟩ := reachIn_succ nodes check fromId x m h3
    obtain ⟨j, hj, hj0, hjm⟩ := levelInv_lower nodes check fromId L u s h hu m p hp (by omega)
    refine ⟨p, hconn, ?_⟩
    rcases h.dist p j hj with h4 | ⟨_, _, h6⟩
    · omega
    · have hle := levelInv_exact nodes check fromId L u s h hu x k hx (le_of_lt hk)
        (j.toNat + 1) (ReachIn.step h6 hconn hcheck)
      have : j = k - 1 := by push_cast at hle; omega
      rw [hj, this]

theorem fastScan_found (visited : IntMap Int) (dist : Int) (cs : List Int) :
    ∀ walk : Int,
      (visited walk = some (dist - 1) ∨ ∃ c ∈ cs, visited c = some (dist - 1)) →
      visited (fastScan visited dist cs walk) = some (dist - 1) := by
  induction cs with
  | nil =>
    intro walk h
    rcases h with h | ⟨c, hc, _⟩
    · exact h
    · simp at hc
  | cons c cs ih =>
    intro walk h
    rw [fastScan]
    cases hc : visited c with
    | none =>
      dsimp only
      apply ih
      rcases h with h | ⟨c1, hc1, hv⟩
      · left; exact h
      · rcases List.mem_cons.mp hc1 with h1 | h1
        · rw [h1, hc] at hv; exact absurd hv (by simp)
        · right; exact ⟨c1, h1, hv⟩
    | some cdist =>
      dsimp only
      split
      · rename_i heq
        apply ih
        left; rw [hc, heq]
      · rename_i hneq
        apply ih
        rcases h with h | ⟨c1, hc1, hv⟩
        · left; exact h
        · rcases List.mem_cons.mp hc1 with h1 | h1
          · rw [h1, hc] at hv
            simp only [Option.some.injEq] at hv
            exact absurd hv hneq
          · right; exact ⟨c1, h1, hv⟩

/-- On an undirected graph the walk back from a node with distance `k` takes
`k` steps to the source. -/
theorem fastWalk_levels (nodes : NodeSet δ) (check : CheckFunc δ) (fromId : Int)
    (hsym : SymmetricGraph nodes) (L : Int) (u : Int) (s : FastState)
    (h : LevelInv nodes check fromId L (some u) s) (hu : s.visited u = some L) :
    ∀ (k : Nat) (walk : Int) (path : List Int) (fuel : Nat),
      s.visited walk = some (k : Int) → k + 1 ≤ fuel →
      ∃ q, fastWalk nodes s.visited fromId fuel walk path = some (q ++ path) ∧
        q.length = k + 1 ∧ q.head? = some fromId ∧ q.getLast? = some walk := by
  intro k
  induction k with
  | zero =>
    intro walk path fuel hw hfuel
    have hwf : walk = fromId := by
      rcases h.dist walk _ hw with h1 | ⟨_, _, h3⟩
      · simp at h1
      · exact reachIn_zero nodes check fromId walk (by simpa using h3)
    obtain ⟨n, hn⟩ : ∃ n, fuel = n + 1 := ⟨fuel - 1, by omega⟩
    subst hn
    rw [fastWalk, if_pos hwf]
    exact ⟨[walk], rfl, rfl, by simp [hwf], rfl⟩
  | succ k ih =>
    intro walk path fuel hw hfuel
    have hwf : walk ≠ fromId := by
      intro hwf
      rw [hwf, h.source] at hw
      simp only [Option.some.injEq] at hw
      push_cast at hw; omega
    obtain ⟨n, hn⟩ : ∃ n, fuel = n + 1 := ⟨fuel - 1, by omega⟩
    subst hn
    rw [fastWalk, if_neg hwf]
    obtain ⟨p, hp, hpv⟩ := levelInv_pred nodes check fromId L u s h hu walk _ hw
      (by push_cast; omega)
    have hread : s.visited.read walk = ((k + 1 : Nat) : Int) := IntMap.read_some _ _ _ hw
    have hnext := fastScan_found s.visited (s.visited.read walk) (nodes.conns walk) walk
      (Or.inr ⟨p, (hsym walk p).mpr hp, by rw [hread]; exact hpv⟩)
    rw [hread] at hnext
    have hnext2 : s.visited (fastScan s.visited (s.visited.read walk) (nodes.conns walk) walk) =
        some (k : Int) := by
      rw [hread, hnext]
      congr 1
      push_cast; omega
    obtain ⟨q, hq1, hq2, hq3, hq4⟩ := ih _ (walk :: path) n hnext2 (by omega)
    have hqne : q ≠ [] := by
      intro h0; subst h0; simp at hq2
    refine ⟨q ++ [walk], ?_, by simp [hq2], ?_, List.getLast?_concat q⟩
    · rw [hq1]; simp
    · cases q with
      | nil => exact absurd rfl hqne
      | cons a q1 => simpa using hq3

/-- On an undirected graph without the id `-1`, when the least number of edges
of an admitted route from `fromId` to `toId` is `d`, `FastSolver` returns a
path of `d + 1` nodes from `fromId` to `toId`, from some fuel on. -/
theorem fastSolver_path_of_least (nodes : NodeSet δ) (fromId toId : Int) (check : CheckFunc δ)
    (hsym : SymmetricGraph nodes) (hneg : NoMinusOne nodes) (d : Nat)
    (hroute : ∃ p, AdmittedRoute nodes check fromId toId p ∧ p.length = d + 1)
    (hmin : ∀ p, AdmittedRoute nodes check fromId toId p → d + 1 ≤ p.length)
    (fuel : Nat) (hfuel : 1 + (allConns nodes).length + d ≤ fuel) :
    ∃ path, nodes.FastSolver fuel fromId toId check = some (path, none) ∧
      path.length = d + 1 ∧ path.head? = some fromId ∧ path.getLast? = some toId := by
  have hsrc : ∀ u c, c ∈ nodes.conns u → u ≠ -1 := by
    intro u c hc hu
    have := (hsym u c).mp hc
    rw [hu] at this
    exact hneg.2 c this
  obtain ⟨p0, hp0, hlen0⟩ := hroute
  have hreach : ReachIn nodes check fromId d toId := by
    have := reachIn_of_route nodes check fromId p0 toId hp0
    rw [hlen0] at this
    simpa using this
  obtain ⟨r, hr⟩ := fastSearch_init_terminates nodes check fromId toId fuel (by omega)
  obtain ⟨s, current⟩ := r
  have hto : current.To = toId := by
    by_contra hne
    obtain ⟨hk, hq⟩ := fastSearch_complete nodes check fromId toId fuel _ _ _ hr
      (fastInit_searchClosed nodes check fromId toId) hne
    exact (searchClosed_reach nodes check fromId toId s hk hq d toId hreach).1 rfl
  obtain ⟨L, hinv, hL⟩ := fastSearch_init_levelInv nodes check fromId toId hsrc fuel _ hr hto
  dsimp only at hinv hL
  have hLd : L = d := by
    have h1 := levelInv_exact nodes check fromId L toId s hinv hL toId L hL hinv.level d hreach
    rcases hinv.dist toId L hL with h2 | ⟨_, _, h4⟩
    · have := hinv.level; omega
    · obtain ⟨p, hp, hlen⟩ := route_of_reachIn nodes check fromId _ toId h4
      have := hmin p hp
      omega
  rw [hLd] at hL
  obtain ⟨q, hq1, hq2, hq3, hq4⟩ := fastWalk_levels nodes check fromId hsym L toId s hinv
    (by rw [hLd]; exact hL) d toId [] fuel hL (by omega)
  refine ⟨q, ?_, hq2, hq3, hq4⟩
  unfold NodeSet.FastSolver
  rw [hr]
  dsimp only
  rw [if_neg (by simpa using hto), hq1]
  simp

/-- C1: on every undirected graph in which `-1` is not a node id, when `toId`
is reachable from `fromId` along nodes accepted by `check` and `d` is the
least number of edges of such an admitted route, `FastSolver` returns a path
of exactly `d + 1` node ids that starts with `fromId` and ends with `toId`. -/
theorem FastSolver_shortest (nodes : NodeSet δ) (fromId toId : Int) (check : CheckFunc δ)
    (hsym : SymmetricGraph nodes) (hneg : NoMinusOne nodes) (d : Nat)
    (hroute : ∃ p, AdmittedRoute nodes check fromId toId p ∧ p.length = d + 1)
    (hmin : ∀ p, AdmittedRoute nodes check fromId toId p → d + 1 ≤ p.length) :
    ∃ N, ∀ fuel, N ≤ fuel →
      ∃ path, nodes.FastSolver fuel fromId toId check = some (path, none) ∧
        path.length = d + 1 ∧ path.head? = some fromId ∧ path.getLast? = some toId :=
  ⟨1 + (allConns nodes).length + d, fun fuel hfuel =>
    fastSolver_path_of_least nodes fromId toId check hsym hneg d hroute hmin fuel hfuel⟩

theorem symmetricGraph_of_keys (nodes : NodeSet δ)
    (h : ∀ x ∈ nodes.entries.map Prod.fst, ∀ c ∈ nodes.conns x, x ∈ nodes.conns c) :
    SymmetricGraph nodes := by
  have hdir : ∀ a b, b ∈ nodes.conns a → a ∈ nodes.conns b := by
    intro a b hb
    apply h a _ b hb
    unfold NodeSet.conns NodeSet.get at hb
    cases hl : nodes.entries.lookup a with
    | none => rw [hl] at hb; simp at hb
    | some n =>
      generalize nodes.entries = es at hl
      induction es with
      | nil => simp at hl
      | cons e es ih =>
        obtain ⟨k, m⟩ := e
        rw [List.lookup_cons] at hl
        by_cases hk : a = k
        · subst hk; simp
        · have hbeq : (a == k) = false := by simpa using hk
          rw [hbeq] at hl
          simp only [List.map_cons, List.mem_cons]
          right; exact ih hl
  intro a b
  exact ⟨hdir a b, hdir b a⟩

theorem noMinusOne_of_allConns (nodes : NodeSet δ) (h1 : nodes.entries.lookup (-1) = none)
    (h2 : (-1 : Int) ∉ allConns nodes) : NoMinusOne nodes :=
  ⟨h1, fun a ha => h2 (mem_allConns nodes a (-1) ha)⟩

/-- Witness for C1: on the chain 1-2-3-4 with the direct edge 1-4 and every
node accepted, the least number of edges from 1 to 3 is 2. -/
theorem FastSolver_shortest_witness :
    ∃ N, ∀ fuel, N ≤ fuel →
      ∃ path, (chainGraph [2, 4] [1, 3] [2, 4] [3, 1]).FastSolver fuel 1 3 CheckAll =
          some (path, none) ∧
        path.length = 2 + 1 ∧ path.head? = some 1 ∧ path.getLast? = some 3 :=
  FastSolver_shortest (chainGraph [2, 4] [1, 3] [2, 4] [3, 1]) 1 3 CheckAll
    (symmetricGraph_of_keys _ (by decide))
    (noMinusOne_of_allConns _ (by rfl) (by decide)) 2
    ⟨[1, 2, 3], ⟨by decide, by decide, by simp only [IsRoute, and_true]; decide, by decide⟩,
      by decide⟩
    (by
      intro p hp
      obtain ⟨h1, h2, h3, _⟩ := hp
      match p, h1, h2, h3 with
      | [a], h1, h2, _ =>
        simp only [List.head?_cons, Option.some.injEq] at h1
        simp only [List.getLast?_singleton, Option.some.injEq] at h2
        omega
      | [a, b], h1, h2, h3 =>
        simp only [List.head?_cons, Option.some.injEq] at h1
        have h2b : b = 3 := by simpa using h2
        subst h1; subst h2b
        simp only [IsRoute, and_true] at h3
        revert h3; decide
      | a :: b :: c :: rest, _, _, _ => simp)


/-! ## The relaxation loop under the uniform weight function -/

theorem relaxInv_congr (nodes : NodeSet δ) (fromId toId : Int) (M L : Nat)
    (exempt : Option Int) (s s2 : RelaxState) (hw : s2.weights = s.weights)
    (ht : s2.top = s.top) (hq : s2.queue = s.queue)
    (h : RelaxInv nodes fromId toId M L exempt s) :
    RelaxInv nodes fromId toId M L exempt s2 := by
  obtain ⟨h1, h2, h3, h4, h5, h6, h7, h8⟩ := h
  constructor
  · rw [hw]; exact h1
  · rw [hw]; exact h2
  · rw [hw, hq]; exact h3
  · rw [hw, hq]; exact h4
  · rw [hw, ht]; exact h5
  · unfold EdgeClosed at h6 ⊢
    rw [hw, ht, hq]; exact h6
  · rw [hw, hq]; exact h7
  · rw [hw]; exact h8

/-- What one iteration over a connection does under the uniform weight
function: nothing to weights, `top` and queue, or the connection gets the new
weight and is announced as `top` or queued. -/
theorem relaxEdge_unit_cases (nodes : NodeSet δ) (toId : Int) (cur : Connection) (c : Int)
    (s : RelaxState) :
    (relaxEdge nodes WeightFuncConnections toId cur c s).2 = none ∧
    (((f64add (s.weights.read cur.To) 1 > s.top ∨
          ∃ k, s.weights c = some k ∧ ¬ f64add (s.weights.read cur.To) 1 < k) ∧
        (relaxEdge nodes WeightFuncConnections toId cur c s).1.weights = s.weights ∧
        (relaxEdge nodes WeightFuncConnections toId cur c s).1.top = s.top ∧
        (relaxEdge nodes WeightFuncConnections toId cur c s).1.queue = s.queue) ∨
      (¬ f64add (s.weights.read cur.To) 1 > s.top ∧
        (s.weights c = none ∨ ∃ k, s.weights c = some k ∧ f64add (s.weights.read cur.To) 1 < k) ∧
        (relaxEdge nodes WeightFuncConnections toId cur c s).1.weights =
          s.weights.set c (f64add (s.weights.read cur.To) 1) ∧
        ((c = toId ∧
            (relaxEdge nodes WeightFuncConnections toId cur c s).1.top =
              f64add (s.weights.read cur.To) 1 ∧
            (relaxEdge nodes WeightFuncConnections toId cur c s).1.queue = s.queue) ∨
          (c ≠ toId ∧
            (relaxEdge nodes WeightFuncConnections toId cur c s).1.top = s.top ∧
            (relaxEdge nodes WeightFuncConnections toId cur c s).1.queue =
              s.queue ++ [⟨c, cur.To⟩])))) := by
  refine ⟨by rw [relaxEdge_error]; rfl, ?_⟩
  unfold relaxEdge
  simp only [WeightFuncConnections]
  by_cases hp : f64add (s.weights.read cur.To) 1 > s.top
  · left
    rw [if_pos hp]
    exact ⟨Or.inl hp, rfl, rfl, rfl⟩
  · rw [if_neg hp]
    cases hc : s.weights c with
    | none =>
      right
      simp only [if_true]
      refine ⟨hp, Or.inl trivial, ?_⟩
      by_cases ht : c = toId
      · rw [if_pos ht]
        exact ⟨rfl, Or.inl ⟨ht, rfl, rfl⟩⟩
      · rw [if_neg ht]
        exact ⟨rfl, Or.inr ⟨ht, rfl, rfl⟩⟩
    | some k =>
      by_cases hb : f64add (s.weights.read cur.To) 1 < k
      · right
        simp only [hb, decide_True, if_true]
        refine ⟨hp, Or.inr ⟨k, rfl, hb⟩, ?_⟩
        by_cases ht : c = toId
        · rw [if_pos ht]
          exact ⟨rfl, Or.inl ⟨ht, rfl, rfl⟩⟩
        · rw [if_neg ht]
          exact ⟨rfl, Or.inr ⟨ht, rfl, rfl⟩⟩
      · left
        simp only [hb, decide_False, Bool.false_eq_true, if_false]
        exact ⟨Or.inr ⟨k, rfl, hb⟩, trivial, trivial, trivial⟩

theorem edgeClosed_mono (s s2 : RelaxState) (n : Nat) (c : Int)
    (hkeep : ∀ x k, s.weights x = some k → s2.weights x = some k) (htop : s2.top ≤ s.top)
    (h : EdgeClosed s n c) : EdgeClosed s2 n c := by
  rcases h with ⟨j, hj, hjn⟩ | h
  · left; exact ⟨j, hkeep _ _ hj, hjn⟩
  · right; exact lt_of_le_of_lt htop h

/-- One iteration over a connection of the node dequeued last keeps the
invariant, settles the edge, keeps the weights recorded and does not add to
the work left. -/
theorem relaxEdge_relaxInv (nodes : NodeSet δ) (fromId toId : Int) (M L : Nat)
    (hM : M ≤ 2 ^ 53) (u parent c : Int) (s : RelaxState)
    (h : RelaxInv nodes fromId toId M L (some u) s) (hu : s.weights u = some (L : ℚ))
    (hc : c ∈ nodes.conns u) :
    RelaxInv nodes fromId toId M L (some u)
        (relaxEdge nodes WeightFuncConnections toId ⟨u, parent⟩ c s).1 ∧
      EdgeClosed (relaxEdge nodes WeightFuncConnections toId ⟨u, parent⟩ c s).1 L c ∧
      (∀ x k, s.weights x = some k →
        (relaxEdge nodes WeightFuncConnections toId ⟨u, parent⟩ c s).1.weights x = some k) ∧
      (relaxEdge nodes WeightFuncConnections toId ⟨u, parent⟩ c s).1.top ≤ s.top ∧
      (relaxEdge nodes WeightFuncConnections toId ⟨u, parent⟩ c s).1.queue.length +
          unvisited (relaxEdge nodes WeightFuncConnections toId ⟨u, parent⟩ c s).1.weights
            (allConns nodes) ≤
        s.queue.length + unvisited s.weights (allConns nodes) := by
  have hread : s.weights.read u = (L : ℚ) := IntMap.read_some _ _ _ hu
  obtain ⟨_, hcases⟩ := relaxEdge_unit_cases nodes toId ⟨u, parent⟩ c s
  dsimp only at hcases
  rw [hread] at hcases
  generalize (relaxEdge nodes WeightFuncConnections toId ⟨u, parent⟩ c s).1 = s2 at hcases ⊢
  have hLM : L ≤ M := by
    have := h.size
    omega
  have hdistc : ∀ k, s.weights c = some k → ¬ (f64add (L : ℚ) 1 < k) := by
    intro k hk hlt
    obtain ⟨n, hn, hnL, _⟩ := h.dist c k hk
    have hkM := h.bound c k hk
    rw [hn] at hlt hkM
    have hn2 : n ≤ 2 ^ 53 := by
      have : n ≤ M := by exact_mod_cast hkM
      omega
    have := nat_le_f64add_one L n hnL hn2
    linarith
  rcases hcases with ⟨hwhy, hw, ht, hq⟩ | ⟨hnp, hnew, hw, hrest⟩
  · -- nothing changes
    refine ⟨relaxInv_congr nodes fromId toId M L (some u) s s2 hw ht hq h, ?_, ?_, ?_, ?_⟩
    · rcases hwhy with hp | ⟨k, hk, _⟩
      · right
        rw [ht]
        exact lt_of_lt_of_le hp (f64add_nat_succ_le L (by omega))
      · left
        obtain ⟨n, hn, hnL, _⟩ := h.dist c k hk
        exact ⟨n, by rw [hw, hk, hn], hnL⟩
    · intro x k hx; rw [hw]; exact hx
    · rw [ht]
    · rw [hw, hq]
  · -- the connection gets the weight `L + 1`
    have hcnone : s.weights c = none := by
      rcases hnew with h1 | ⟨k, hk, hlt⟩
      · exact h1
      · exact absurd hlt (hdistc k hk)
    have hL1 : L + 1 ≤ M := by
      have h1 := unvisited_set_lt s.weights c (0 : ℚ) (allConns nodes)
        (mem_allConns nodes u c hc) hcnone
      have h2 := h.size
      omega
    rw [f64add_nat_one L (by omega)] at hnp hw hrest
    have hne : ∀ x k, s.weights x = some k → x ≠ c := by
      intro x k hx hxc
      rw [hxc, hcnone] at hx
      exact absurd hx (by simp)
    have hbound2 : ∀ x k, s2.weights x = some k → k ≤ (M : ℚ) := by
      intro x k hx
      by_cases hxc : x = c
      · rw [hxc, hw, IntMap.set_same] at hx
        simp only [Option.some.injEq] at hx
        rw [← hx]
        exact_mod_cast hL1
      · rw [hw, IntMap.set_other _ _ _ _ hxc] at hx
        exact h.bound x k hx
    have hkeep : ∀ x k, s.weights x = some k → s2.weights x = some k := by
      intro x k hx
      rw [hw, IntMap.set_other _ _ _ _ (hne x k hx)]
      exact hx
    have hback : ∀ x k, s2.weights x = some k → x ≠ c → s.weights x = some k := by
      intro x k hx hxc
      rw [hw, IntMap.set_other _ _ _ _ hxc] at hx
      exact hx
    have hcw : s2.weights c = some (((L + 1 : Nat)) : ℚ) := by
      rw [hw, IntMap.set_same]
      push_cast; rfl
    have htop2 : s2.top ≤ s.top := by
      rcases hrest with ⟨_, ht, _⟩ | ⟨_, ht, _⟩
      · rw [ht]; exact not_lt.mp hnp
      · rw [ht]
    have hreach : ReachIn nodes CheckAll fromId (L + 1) c := by
      obtain ⟨n, hn, _, hr⟩ := h.dist u _ hu
      have : n = L := by exact_mod_cast hn.symm
      rw [this] at hr
      exact ReachIn.step hr hc rfl
    have hdist2 : ∀ x k, s2.weights x = some k →
        ∃ n : Nat, k = (n : ℚ) ∧ n ≤ L + 1 ∧ ReachIn nodes CheckAll fromId n x := by
      intro x k hx
      by_cases hxc : x = c
      · rw [hxc, hcw] at hx
        simp only [Option.some.injEq] at hx
        rw [hxc]
        exact ⟨L + 1, hx.symm, le_refl _, hreach⟩
      · exact h.dist x k (hback x k hx hxc)
    have hreadq : ∀ e ∈ s.queue, s2.weights.read e.To = s.weights.read e.To := by
      intro e he
      obtain ⟨n, hn, _⟩ := h.queue e he
      rw [IntMap.read_some _ _ _ (hkeep _ _ hn), IntMap.read_some _ _ _ hn]
    have hmeasure : unvisited s2.weights (allConns nodes) + 1 ≤
        unvisited s.weights (allConns nodes) := by
      rw [hw]
      exact unvisited_set_lt s.weights c _ (allConns nodes) (mem_allConns nodes u c hc) hcnone
    have hclosedc : EdgeClosed s2 L c := Or.inl ⟨L + 1, hcw, le_refl _⟩
    have hsize := h.size
    rcases hrest with ⟨hct, ht, hq⟩ | ⟨hct, ht, hq⟩
    · -- the target: `top` is announced
      refine ⟨⟨hkeep _ _ h.source, hdist2, ?_, ?_, ?_, ?_, ?_, ?_⟩, hclosedc, hkeep, htop2, ?_⟩
      · intro e he
        rw [hq] at he
        obtain ⟨n, hn, hnL⟩ := h.queue e he
        exact ⟨n, hkeep _ _ hn, hnL⟩
      · rw [hq]
        refine List.Pairwise.imp_of_mem ?_ h.sorted
        intro a b ha hb hle
        rw [hreadq a ha, hreadq b hb]; exact hle
      · right
        refine ⟨L + 1, by rw [ht]; push_cast; rfl, by rw [← hct]; exact hcw, ?_⟩
        intro x k hx
        obtain ⟨n, hn, hnL, _⟩ := hdist2 x k hx
        rw [hn]; exact_mod_cast hnL
      · intro x n hx hxt hxu
        have hxc : x ≠ c := by rw [hct]; exact hxt
        rcases h.closed x n (hback x _ hx hxc) hxt hxu with ⟨e, he, hex⟩ | hcl
        · left; exact ⟨e, by rw [hq]; exact he, hex⟩
        · right
          intro c2 hc2
          exact edgeClosed_mono s s2 n c2 hkeep htop2 (hcl c2 hc2)
      · rw [hq]; omega
      · exact hbound2
      · rw [hq]; omega
    · -- another node: it is queued
      refine ⟨⟨hkeep _ _ h.source, hdist2, ?_, ?_, ?_, ?_, ?_, ?_⟩, hclosedc, hkeep, htop2, ?_⟩
      · intro e he
        rw [hq] at he
        rcases List.mem_append.mp he with h1 | h1
        · obtain ⟨n, hn, hnL⟩ := h.queue e h1
          exact ⟨n, hkeep _ _ hn, hnL⟩
        · simp only [List.mem_singleton] at h1
          rw [h1]
          exact ⟨L + 1, hcw, by omega⟩
      · rw [hq, List.pairwise_append]
        refine ⟨?_, by simp, ?_⟩
        · refine List.Pairwise.imp_of_mem ?_ h.sorted
          intro a b ha hb hle
          rw [hreadq a ha, hreadq b hb]; exact hle
        · intro a ha b hb
          simp only [List.mem_singleton] at hb
          rw [hb, hreadq a ha, IntMap.read_some _ _ _ hcw]
          obtain ⟨n, hn, _⟩ := h.queue a ha
          obtain ⟨n2, hn2, hn2L, _⟩ := h.dist _ _ hn
          rw [IntMap.read_some _ _ _ hn, hn2]
          exact_mod_cast hn2L
      · rcases h.top with ⟨h1, h2⟩ | ⟨n, h1, h2, h3⟩
        · left
          refine ⟨by rw [ht]; exact h1, ?_⟩
          rcases h2 with h2 | h2
          · left
            rw [hw, IntMap.set_other _ _ _ _ (Ne.symm hct)]; exact h2
          · right; exact h2
        · right
          refine ⟨n, by rw [ht]; exact h1, hkeep _ _ h2, ?_⟩
          intro x k hx
          by_cases hxc : x = c
          · rw [hxc, hcw] at hx
            simp only [Option.some.injEq] at hx
            rw [← hx, ← h1]
            push_cast
            exact not_lt.mp hnp
          · exact h3 x k (hback x k hx hxc)
      · intro x n hx hxt hxu
        by_cases hxc : x = c
        · left
          exact ⟨⟨c, u⟩, by rw [hq]; simp, hxc.symm⟩
        · rcases h.closed x n (hback x _ hx hxc) hxt hxu with ⟨e, he, hex⟩ | hcl
          · left; exact ⟨e, by rw [hq]; exact List.mem_append_left _ he, hex⟩
          · right
            intro c2 hc2
            exact edgeClosed_mono s s2 n c2 hkeep htop2 (hcl c2 hc2)
      · rw [hq]; simp only [List.length_append, List.length_singleton]; omega
      · exact hbound2
      · rw [hq]; simp only [List.length_append, List.length_singleton]; omega

/-- The loop over the connections of the node dequeued last keeps the
invariant, settles every edge it looks at and does not add to the work
left. -/
theorem relaxConnections_relaxInv (nodes : NodeSet δ) (fromId toId : Int) (M L : Nat)
    (hM : M ≤ 2 ^ 53) (u parent : Int) (cs : List Int) :
    ∀ s : RelaxState, (∀ c ∈ cs, c ∈ nodes.conns u) →
      RelaxInv nodes fromId toId M L (some u) s → s.weights u = some (L : ℚ) →
      (relaxConnections nodes WeightFuncConnections toId ⟨u, parent⟩ cs s).2 = none ∧
      RelaxInv nodes fromId toId M L (some u)
        (relaxConnections nodes WeightFuncConnections toId ⟨u, parent⟩ cs s).1 ∧
      (∀ c ∈ cs,
        EdgeClosed (relaxConnections nodes WeightFuncConnections toId ⟨u, parent⟩ cs s).1 L c) ∧
      (∀ x k, s.weights x = some k →
        (relaxConnections nodes WeightFuncConnections toId ⟨u, parent⟩ cs s).1.weights x =
          some k) ∧
      (relaxConnections nodes WeightFuncConnections toId ⟨u, parent⟩ cs s).1.top ≤ s.top ∧
      (relaxConnections nodes WeightFuncConnections toId ⟨u, parent⟩ cs s).1.queue.length +
          unvisited
            (relaxConnections nodes WeightFuncConnections toId ⟨u, parent⟩ cs s).1.weights
            (allConns nodes) ≤
        s.queue.length + unvisited s.weights (allConns nodes) := by
  induction cs with
  | nil =>
    intro s _ h _
    exact ⟨rfl, h, by simp, fun _ _ hx => hx, le_refl _, le_refl _⟩
  | cons c cs ih =>
    intro s hcs h hu
    rw [relaxConnections]
    obtain ⟨h1, h2, h3, h4, h5⟩ := relaxEdge_relaxInv nodes fromId toId M L hM u parent c s h hu
      (hcs c (List.mem_cons_self _ _))
    have herr := (relaxEdge_unit_cases nodes toId ⟨u, parent⟩ c s).1
    cases hr : relaxEdge nodes WeightFuncConnections toId ⟨u, parent⟩ c s with
    | mk s1 oe =>
      rw [hr] at h1 h2 h3 h4 h5 herr
      dsimp only at h1 h2 h3 h4 h5 herr
      subst herr
      dsimp only
      obtain ⟨g0, g1, g2, g3, g4, g5⟩ := ih s1
        (fun c1 hc1 => hcs c1 (List.mem_cons_of_mem _ hc1)) h1 (h3 u _ hu)
      refine ⟨g0, g1, ?_, fun x k hx => g3 x k (h3 x k hx), le_trans g4 h4, le_trans g5 h5⟩
      intro c1 hc1
      rcases List.mem_cons.mp hc1 with h6 | h6
      · rw [h6]
        exact edgeClosed_mono s1 _ L c g3 g4 h2
      · exact g2 c1 h6

theorem relaxInv_unexempt (nodes : NodeSet δ) (fromId toId : Int) (M L : Nat) (u : Int)
    (s : RelaxState) (h : RelaxInv nodes fromId toId M L (some u) s)
    (hu : s.weights u = some (L : ℚ)) (hcl : ∀ c ∈ nodes.conns u, EdgeClosed s L c) :
    RelaxInv nodes fromId toId M L none s := by
  refine ⟨h.source, h.dist, h.queue, h.sorted, h.top, ?_, h.size, h.bound⟩
  intro x n hx hxt _
  by_cases hxu : x = u
  · right
    rw [hxu, hu] at hx
    simp only [Option.some.injEq, Nat.cast_inj] at hx
    rw [← hx, hxu]
    exact hcl
  · exact h.closed x n hx hxt (by simpa using hxu)

theorem relaxInv_dequeue (nodes : NodeSet δ) (fromId toId : Int) (M L : Nat)
    (s : RelaxState) (e : Connection) (q : List Connection)
    (h : RelaxInv nodes fromId toId M L none s) (hq : s.queue = e :: q) :
    ∃ L2 : Nat, s.weights e.To = some (L2 : ℚ) ∧
      RelaxInv nodes fromId toId M L2 (some e.To) { s with queue := q } := by
  obtain ⟨L2, hL2, hle⟩ := h.queue e (by rw [hq]; simp)
  obtain ⟨n0, hn0, hn0L, _⟩ := h.dist _ _ hL2
  have hL2L : L2 ≤ L + 1 := by
    have : n0 = L2 := by exact_mod_cast hn0.symm
    omega
  have hsorted := h.sorted
  rw [hq, List.pairwise_cons] at hsorted
  have hsize := h.size
  rw [hq] at hsize
  simp only [List.length_cons] at hsize
  refine ⟨L2, hL2, ⟨h.source, ?_, ?_, hsorted.2, h.top, ?_, ?_, h.bound⟩⟩
  · intro x k hx
    obtain ⟨n, hn, hnL, hr⟩ := h.dist x k hx
    exact ⟨n, hn, by omega, hr⟩
  · intro e2 he2
    obtain ⟨n, hn, _⟩ := h.queue e2 (by rw [hq]; exact List.mem_cons_of_mem _ he2)
    refine ⟨n, hn, ?_⟩
    have := hsorted.1 e2 he2
    rw [IntMap.read_some _ _ _ hL2, IntMap.read_some _ _ _ hn] at this
    exact_mod_cast this
  · intro x n hx hxt hxe
    have hxe2 : x ≠ e.To := by simpa using hxe
    rcases h.closed x n hx hxt (by simp) with ⟨e2, he2, hex⟩ | hcl
    · left
      rw [hq] at he2
      rcases List.mem_cons.mp he2 with h3 | h3
      · rw [h3] at hex; exact absurd hex.symm hxe2
      · exact ⟨e2, h3, hex⟩
    · right; exact hcl
  · dsimp only
    omega

/-- Under the uniform weight function the relaxation loop drains, and the
invariant holds when it does. -/
theorem relaxLoop_unit (nodes : NodeSet δ) (fromId toId : Int) (M : Nat) (hM : M ≤ 2 ^ 53) :
    ∀ (fuel : Nat) (s : RelaxState) (L : Nat),
      RelaxInv nodes fromId toId M L none s →
      s.queue.length + unvisited s.weights (allConns nodes) ≤ fuel →
      ∃ s2 L2, relaxLoop nodes WeightFuncConnections toId fuel s = (s2, RelaxStatus.drained) ∧
        RelaxInv nodes fromId toId M L2 none s2 ∧ s2.queue = [] := by
  intro fuel
  induction fuel with
  | zero =>
    intro s L h hfuel
    rw [relaxLoop]
    cases hq : s.queue with
    | nil => exact ⟨s, L, rfl, h, hq⟩
    | cons a q => rw [hq] at hfuel; simp at hfuel
  | succ n ih =>
    intro s L h hfuel
    rw [relaxLoop]
    cases hq : s.queue with
    | nil => exact ⟨s, L, rfl, h, hq⟩
    | cons e q =>
      dsimp only
      obtain ⟨L2, hL2, hmid⟩ := relaxInv_dequeue nodes fromId toId M L s e q h hq
      obtain ⟨g0, g1, g2, g3, _, g5⟩ := relaxConnections_relaxInv nodes fromId toId M L2
        hM e.To e.From (nodes.conns e.To) { s with queue := q } (fun _ hc => hc) hmid hL2
      cases hr : relaxConnections nodes WeightFuncConnections toId e (nodes.conns e.To)
          { s with queue := q } with
      | mk s1 oe =>
        have he : (⟨e.To, e.From⟩ : Connection) = e := rfl
        rw [he, hr] at g0 g1 g2 g3 g5
        dsimp only at g0 g1 g2 g3 g5
        subst g0
        dsimp only
        apply ih s1 L2 (relaxInv_unexempt nodes fromId toId M L2 e.To s1 g1 (g3 _ _ hL2) g2)
        rw [hq] at hfuel
        simp only [List.length_cons] at hfuel
        omega

theorem relaxInit_relaxInv (nodes : NodeSet δ) (fromId toId : Int) :
    RelaxInv nodes fromId toId (1 + (allConns nodes).length) 0 none (relaxInit fromId) := by
  have hval : ∀ x k, (IntMap.empty.set fromId (0 : ℚ)) x = some k → x = fromId ∧ k = 0 := by
    intro x k hx
    by_cases hxf : x = fromId
    · subst hxf
      rw [IntMap.set_same] at hx
      exact ⟨rfl, by simpa using hx.symm⟩
    · rw [IntMap.set_other _ _ _ _ hxf] at hx
      simp [IntMap.empty] at hx
  refine ⟨IntMap.set_same _ _ _, ?_, ?_, ?_, ?_, ?_, ?_, ?_⟩
  · intro x k hx
    obtain ⟨h1, h2⟩ := hval x k hx
    subst h1; subst h2
    exact ⟨0, by simp, by omega, ReachIn.source⟩
  · intro e he
    simp only [relaxInit, List.mem_singleton] at he
    subst he
    exact ⟨0, by simp [relaxInit, IntMap.set_same], le_refl _⟩
  · simp [relaxInit]
  · left
    refine ⟨rfl, ?_⟩
    by_cases hft : toId = fromId
    · right; exact hft
    · left
      simp only [relaxInit]
      rw [IntMap.set_other _ _ _ _ hft]
      rfl
  · intro x n hx _ _
    left
    have := (hval x _ hx).1
    exact ⟨⟨fromId, -1⟩, by simp [relaxInit], this.symm⟩
  · have : unvisited (relaxInit fromId).weights (allConns nodes) ≤ (allConns nodes).length :=
      List.countP_le_length _
    simp only [relaxInit, List.length_singleton] at this ⊢
    omega
  · intro x k hx
    rw [(hval x k hx).2]
    positivity

/-! ## The sort of the walk back -/

theorem byWeight_less_asymm (w : IntMap ℚ) (a b : Int) (h : ByWeight.Less w a b = true) :
    ByWeight.Less w b a = false := by
  unfold ByWeight.Less at h ⊢
  cases ha : w a with
  | none => rw [ha] at h; simp at h
  | some x =>
    cases hb : w b with
    | none => rfl
    | some y =>
      rw [ha, hb] at h
      simp only [decide_eq_true_eq] at h
      simp only [decide_eq_false_iff_not, not_lt]
      exact le_of_lt h

theorem byWeight_less_negtrans (w : IntMap ℚ) (a b c : Int)
    (h1 : ByWeight.Less w a b = false) (h2 : ByWeight.Less w b c = false) :
    ByWeight.Less w a c = false := by
  unfold ByWeight.Less at h1 h2 ⊢
  cases ha : w a with
  | none => rfl
  | some x =>
    rw [ha] at h1
    cases hb : w b with
    | none => rw [hb] at h1; simp at h1
    | some y =>
      rw [hb] at h1 h2
      cases hc : w c with
      | none => rw [hc] at h2; simp at h2
      | some z =>
        rw [hc] at h2
        simp only [decide_eq_false_iff_not, not_lt] at h1 h2 ⊢
        exact le_trans h2 h1

theorem insertionStep_sorted (less : Int → Int → Bool)
    (hasym : ∀ a b, less a b = true → less b a = false)
    (htrans : ∀ a b c, less a b = false → less b c = false → less a c = false)
    (x : Int) (l : List Int) (h : l.Pairwise (fun a b => less a b = false)) :
    (insertionStep less x l).Pairwise (fun a b => less a b = false) := by
  induction l with
  | nil => simp [insertionStep]
  | cons y ys ih =>
    rw [List.pairwise_cons] at h
    rw [insertionStep]
    by_cases hxy : less x y = true
    · rw [if_pos hxy, List.pairwise_cons]
      refine ⟨?_, ih h.2⟩
      intro z hz
      have hz2 : z ∈ x :: ys := (insertionStep_perm less x ys).subset hz
      rcases List.mem_cons.mp hz2 with h1 | h1
      · rw [h1]; exact hasym x y hxy
      · exact h.1 z h1
    · rw [if_neg hxy, List.pairwise_cons]
      have hxy2 : less x y = false := by simpa using hxy
      refine ⟨?_, List.pairwise_cons.mpr h⟩
      intro z hz
      rcases List.mem_cons.mp hz with h1 | h1
      · rw [h1]; exact hxy2
      · exact htrans x y z hxy2 (h.1 z h1)

theorem insertionLoop_sorted (less : Int → Int → Bool)
    (hasym : ∀ a b, less a b = true → less b a = false)
    (htrans : ∀ a b c, less a b = false → less b c = false → less a c = false)
    (l : List Int) :
    ∀ done : List Int, done.Pairwise (fun a b => less a b = false) →
      (insertionLoop less done l).Pairwise (fun a b => less b a = false) := by
  induction l with
  | nil =>
    intro done h
    rw [insertionLoop, List.pairwise_reverse]
    exact h
  | cons x rest ih =>
    intro done h
    rw [insertionLoop]
    exact ih _ (insertionStep_sorted less hasym htrans x done h)

theorem sortByWeight_sorted (w : IntMap ℚ) (l : List Int) :
    (sortByWeight w l).Pairwise (fun a b => ByWeight.Less w b a = false) :=
  insertionLoop_sorted (ByWeight.Less w) (byWeight_less_asymm w) (byWeight_less_negtrans w) l []
    List.Pairwise.nil

theorem firstWeighted_sorted (w : IntMap ℚ) (l : List Int)
    (hs : l.Pairwise (fun a b => ByWeight.Less w b a = false))
    (hex : ∃ c ∈ l, ∃ k, w c = some k) (walk : Int) :
    firstWeighted w l walk ∈ l ∧
      ∃ kr, w (firstWeighted w l walk) = some kr ∧ ∀ c ∈ l, ∀ k, w c = some k → kr ≤ k := by
  cases l with
  | nil =>
    obtain ⟨c, hc, _⟩ := hex
    simp at hc
  | cons c rest =>
    rw [List.pairwise_cons] at hs
    rw [firstWeighted]
    cases hc : w c with
    | none =>
      exfalso
      obtain ⟨b, hb, k, hk⟩ := hex
      rcases List.mem_cons.mp hb with h1 | h1
      · rw [h1, hc] at hk; exact absurd hk (by simp)
      · have := hs.1 b h1
        unfold ByWeight.Less at this
        rw [hk, hc] at this
        simp at this
    | some kc =>
      dsimp only
      refine ⟨List.mem_cons_self _ _, kc, hc, ?_⟩
      intro b hb k hk
      rcases List.mem_cons.mp hb with h1 | h1
      · rw [h1, hc] at hk
        simp only [Option.some.injEq] at hk
        rw [hk]
      · have := hs.1 b h1
        unfold ByWeight.Less at this
        rw [hk, hc] at this
        simpa using this

theorem firstWeighted_none (w : IntMap ℚ) (l : List Int) (walk : Int)
    (h : ∀ c ∈ l, w c = none) : firstWeighted w l walk = walk := by
  induction l with
  | nil => rfl
  | cons c rest ih =>
    rw [firstWeighted, h c (List.mem_cons_self _ _)]
    exact ih (fun c1 hc1 => h c1 (List.mem_cons_of_mem _ hc1))


/-! ## The weights when the relaxation has drained, uniform weight function -/

theorem relaxInv_weight_le (nodes : NodeSet δ) (fromId toId : Int) (M L : Nat)
    (ex : Option Int) (s : RelaxState) (h : RelaxInv nodes fromId toId M L ex s)
    (x : Int) (j : Nat) (hx : s.weights x = some (j : ℚ)) :
    j ≤ M + 1 ∧ ReachIn nodes CheckAll fromId j x := by
  obtain ⟨n, hn, hnL, hr⟩ := h.dist x _ hx
  have hjn : j = n := by exact_mod_cast hn
  have := h.size
  rw [hjn]
  exact ⟨by omega, hr⟩

/-- Every node within the distance `d` of the target has a weight, at most the
length of any route to it. -/
theorem relaxFinal_lower (nodes : NodeSet δ) (fromId toId : Int) (M L : Nat)
    (hM : (M : ℚ) + 2 ≤ MaxFloat64) (s : RelaxState)
    (h : RelaxInv nodes fromId toId M L none s) (hq : s.queue = []) (d : Nat)
    (hmin : ∀ m, ReachIn nodes CheckAll fromId m toId → d ≤ m)
    (n : Nat) (x : Int) (hr : ReachIn nodes CheckAll fromId n x) :
    n ≤ d → ∃ j : Nat, s.weights x = some (j : ℚ) ∧ j ≤ n := by
  induction hr with
  | source => intro _; exact ⟨0, by simpa using h.source, le_refl _⟩
  | @step n u c hu hconn _ ih =>
    intro hn
    obtain ⟨j, hj, hjn⟩ := ih (by omega)
    have hut : u ≠ toId := by
      intro hut
      rw [hut] at hu
      have := hmin n hu
      omega
    rcases h.closed u j hj hut (by simp) with ⟨e, he, _⟩ | hcl
    · rw [hq] at he; simp at he
    · rcases hcl c hconn with ⟨j2, hj2, hj2n⟩ | hpr
      · exact ⟨j2, hj2, by omega⟩
      · exfalso
        rcases h.top with ⟨h1, _⟩ | ⟨nt, h1, h2, _⟩
        · rw [h1] at hpr
          have hjM := (relaxInv_weight_le nodes fromId toId M L none s h u j hj).1
          have : (j : ℚ) ≤ (M : ℚ) + 1 := by exact_mod_cast hjM
          linarith
        · rw [h1] at hpr
          have hnt := hmin nt (relaxInv_weight_le nodes fromId toId M L none s h toId nt h2).2
          have : (j : ℚ) + 1 ≤ (nt : ℚ) := by exact_mod_cast (by omega : j + 1 ≤ nt)
          linarith

/-- The target has the least number of edges of a route as its weight, and no
weight is above it. -/
theorem relaxFinal_target (nodes : NodeSet δ) (fromId toId : Int) (M L : Nat)
    (hM : (M : ℚ) + 2 ≤ MaxFloat64) (s : RelaxState)
    (h : RelaxInv nodes fromId toId M L none s) (hq : s.queue = []) (d : Nat)
    (hd : ReachIn nodes CheckAll fromId d toId)
    (hmin : ∀ m, ReachIn nodes CheckAll fromId m toId → d ≤ m) (hne : toId ≠ fromId) :
    s.weights toId = some (d : ℚ) ∧ ∀ x (k : Nat), s.weights x = some (k : ℚ) → k ≤ d := by
  obtain ⟨j, hj, hjd⟩ := relaxFinal_lower nodes fromId toId M L hM s h hq d hmin d toId hd
    (le_refl _)
  have hjd2 := hmin j (relaxInv_weight_le nodes fromId toId M L none s h toId j hj).2
  have hjeq : j = d := by omega
  rw [hjeq] at hj
  refine ⟨hj, ?_⟩
  intro x k hx
  rcases h.top with ⟨_, h2⟩ | ⟨nt, _, h2, h3⟩
  · rcases h2 with h2 | h2
    · rw [hj] at h2; exact absurd h2 (by simp)
    · exact absurd h2 hne
  · rw [hj] at h2
    simp only [Option.some.injEq, Nat.cast_inj] at h2
    have := h3 x _ hx
    rw [← h2] at this
    exact_mod_cast this

/-- A weight is the least number of edges of a route to the node. -/
theorem relaxFinal_exact (nodes : NodeSet δ) (fromId toId : Int) (M L : Nat)
    (hM : (M : ℚ) + 2 ≤ MaxFloat64) (s : RelaxState)
    (h : RelaxInv nodes fromId toId M L none s) (hq : s.queue = []) (d : Nat)
    (hd : ReachIn nodes CheckAll fromId d toId)
    (hmin : ∀ m, ReachIn nodes CheckAll fromId m toId → d ≤ m) (hne : toId ≠ fromId)
    (x : Int) (k : Nat) (hx : s.weights x = some (k : ℚ))
    (n : Nat) (hr : ReachIn nodes CheckAll fromId n x) : k ≤ n := by
  have hkd := (relaxFinal_target nodes fromId toId M L hM s h hq d hd hmin hne).2 x k hx
  by_cases hnd : n ≤ d
  · obtain ⟨j, hj, hjn⟩ := relaxFinal_lower nodes fromId toId M L hM s h hq d hmin n x hr hnd
    rw [hx] at hj
    simp only [Option.some.injEq, Nat.cast_inj] at hj
    omega
  · omega

/-- A node with a positive weight is a connection of a node whose weight is one
less. -/
theorem relaxFinal_pred (nodes : NodeSet δ) (fromId toId : Int) (M L : Nat)
    (hM : (M : ℚ) + 2 ≤ MaxFloat64) (s : RelaxState)
    (h : RelaxInv nodes fromId toId M L none s) (hq : s.queue = []) (d : Nat)
    (hd : ReachIn nodes CheckAll fromId d toId)
    (hmin : ∀ m, ReachIn nodes CheckAll fromId m toId → d ≤ m) (hne : toId ≠ fromId)
    (x : Int) (k : Nat) (hx : s.weights x = some ((k + 1 : Nat) : ℚ)) :
    ∃ p, x ∈ nodes.conns p ∧ s.weights p = some (k : ℚ) := by
  have hxr := (relaxInv_weight_le nodes fromId toId M L none s h x (k + 1) hx).2
  have hkd := (relaxFinal_target nodes fromId toId M L hM s h hq d hd hmin hne).2 x _ hx
  obtain ⟨p, hp, hconn, hcheck⟩ := reachIn_succ nodes CheckAll fromId x k hxr
  obtain ⟨j, hj, hjk⟩ := relaxFinal_lower nodes fromId toId M L hM s h hq d hmin k p hp
    (by omega)
  have hpr := (relaxInv_weight_le nodes fromId toId M L none s h p j hj).2
  have := relaxFinal_exact nodes fromId toId M L hM s h hq d hd hmin hne x (k + 1) hx (j + 1)
    (ReachIn.step hpr hconn hcheck)
  have hjeq : j = k := by omega
  rw [hjeq] at hj
  exact ⟨p, hconn, hj⟩

theorem sameUpToOrder_mem (nodes nodes2 : NodeSet δ) (h : SameUpToOrder nodes nodes2)
    (x c : Int) : c ∈ nodes2.conns x ↔ c ∈ nodes.conns x :=
  (h x).1.mem_iff

/-- On an undirected graph the walk back of `WeightedSolver` from a node of
weight `k` takes `k` steps and ends on the source. -/
theorem weightedWalk_levels (nodes0 : NodeSet δ) (fromId toId : Int) (M L : Nat)
    (hM : (M : ℚ) + 2 ≤ MaxFloat64) (hsym : SymmetricGraph nodes0) (s : RelaxState)
    (h : RelaxInv nodes0 fromId toId M L none s) (hq : s.queue = []) (d : Nat)
    (hd : ReachIn nodes0 CheckAll fromId d toId)
    (hmin : ∀ m, ReachIn nodes0 CheckAll fromId m toId → d ≤ m) (hne : toId ≠ fromId) :
    ∀ (k : Nat) (nodes : NodeSet δ) (walk : Int) (path : List Int) (fuel : Nat),
      SameUpToOrder nodes0 nodes → s.weights walk = some (k : ℚ) → k + 1 ≤ fuel →
      ∃ q nodes2, weightedWalk s.weights fromId fuel nodes walk path =
          some (fromId, q ++ path, nodes2) ∧ q.length = k + 1 := by
  intro k
  induction k with
  | zero =>
    intro nodes walk path fuel _ hw hfuel
    have hwf : walk = fromId :=
      reachIn_zero nodes0 CheckAll fromId walk
        (relaxInv_weight_le nodes0 fromId toId M L none s h walk 0 hw).2
    obtain ⟨n, hn⟩ : ∃ n, fuel = n + 1 := ⟨fuel - 1, by omega⟩
    subst hn
    rw [weightedWalk, if_pos hwf]
    exact ⟨[walk], nodes, by rw [hwf]; rfl, rfl⟩
  | succ k ih =>
    intro nodes walk path fuel hsame hw hfuel
    have hwf : walk ≠ fromId := by
      intro hwf
      rw [hwf, h.source] at hw
      simp only [Option.some.injEq] at hw
      have : (0 : ℚ) < ((k + 1 : Nat) : ℚ) := by exact_mod_cast Nat.succ_pos k
      linarith
    obtain ⟨n, hn⟩ : ∃ n, fuel = n + 1 := ⟨fuel - 1, by omega⟩
    subst hn
    rw [weightedWalk, if_neg hwf]
    dsimp only
    rw [sortConnections_conns]
    obtain ⟨p, hp, hpw⟩ := relaxFinal_pred nodes0 fromId toId M L hM s h hq d hd hmin hne
      walk k hw
    have hpmem : p ∈ sortByWeight s.weights (nodes.conns walk) :=
      (sortByWeight_perm s.weights (nodes.conns walk)).mem_iff.mpr
        ((sameUpToOrder_mem nodes0 nodes hsame walk p).mpr ((hsym walk p).mpr hp))
    obtain ⟨hmem, kr, hkr, hleast⟩ := firstWeighted_sorted s.weights
      (sortByWeight s.weights (nodes.conns walk))
      (sortByWeight_sorted s.weights (nodes.conns walk)) ⟨p, hpmem, _, hpw⟩ walk
    generalize firstWeighted s.weights (sortByWeight s.weights (nodes.conns walk)) walk = next
      at hmem hkr hleast ⊢
    have hnext0 : next ∈ nodes0.conns walk :=
      (sameUpToOrder_mem nodes0 nodes hsame walk next).mp
        ((sortByWeight_perm s.weights (nodes.conns walk)).mem_iff.mp hmem)
    obtain ⟨j, hj, _, hjr⟩ := h.dist next kr hkr
    have hjk : j ≤ k := by
      have := hleast p hpmem _ hpw
      rw [hj] at this
      exact_mod_cast this
    have hkj : k + 1 ≤ j + 1 :=
      relaxFinal_exact nodes0 fromId toId M L hM s h hq d hd hmin hne walk (k + 1) hw (j + 1)
        (ReachIn.step hjr ((hsym walk next).mp hnext0) rfl)
    have hjeq : j = k := by omega
    rw [hj, hjeq] at hkr
    have hnw : next ≠ walk := by
      intro heq
      rw [heq, hw] at hkr
      simp only [Option.some.injEq, Nat.cast_inj] at hkr
      omega
    rw [if_neg hnw]
    obtain ⟨q, nodes2, hq1, hq2⟩ := ih (sortConnections nodes s.weights walk) next
      (walk :: path) n (hsame.trans (sortConnections_sameUpToOrder nodes s.weights walk)) hkr
      (by omega)
    exact ⟨q ++ [walk], nodes2, by rw [hq1]; simp, by simp [hq2]⟩

/-- Under the uniform weight function, on an undirected graph, when the least
number of edges of a route from `fromId` to `toId` is `d`, `WeightedSolver`
returns a path of `d + 1` nodes. -/
theorem WeightedSolver_unit_path (nodes : NodeSet δ) (fromId toId : Int)
    (hsym : SymmetricGraph nodes) (hsize : (allConns nodes).length < 2 ^ 53) (d : Nat)
    (hd : ReachIn nodes CheckAll fromId d toId)
    (hmin : ∀ m, ReachIn nodes CheckAll fromId m toId → d ≤ m)
    (fuel : Nat) (hfuel : 1 + (allConns nodes).length + d ≤ fuel) :
    ∃ path, nodes.WeightedSolver fuel fromId toId WeightFuncConnections = some (path, none) ∧
      path.length = d + 1 := by
  have hM : ((1 + (allConns nodes).length : Nat) : ℚ) + 2 ≤ MaxFloat64 := by
    have h1 : ((allConns nodes).length : ℚ) < 2 ^ 53 := by exact_mod_cast hsize
    have h2 : (2 : ℚ) ^ 53 + 3 ≤ MaxFloat64 := by norm_num [MaxFloat64]
    push_cast
    linarith
  obtain ⟨s, L, hloop, hinv, hq⟩ := relaxLoop_unit nodes fromId toId
    (1 + (allConns nodes).length) (by omega) fuel (relaxInit fromId) 0
    (relaxInit_relaxInv nodes fromId toId) (by
      have : unvisited (relaxInit fromId).weights (allConns nodes) ≤ (allConns nodes).length :=
        List.countP_le_length _
      simp only [relaxInit, List.length_singleton] at this ⊢
      omega)
  unfold NodeSet.WeightedSolver NodeSet.weightedRun
  rw [hloop]
  dsimp only
  by_cases hne : toId = fromId
  · have hd0 : d = 0 := by
      have := hmin 0 (by rw [hne]; exact ReachIn.source)
      omega
    obtain ⟨n, hn⟩ : ∃ n, fuel = n + 1 := ⟨fuel - 1, by omega⟩
    subst hn
    rw [weightedWalk, if_pos hne]
    refine ⟨[toId], ?_, by rw [hd0]; rfl⟩
    simp [hne]
  · obtain ⟨hwt, _⟩ := relaxFinal_target nodes fromId toId _ L hM s hinv hq d hd hmin hne
    obtain ⟨q, nodes2, hq1, hq2⟩ := weightedWalk_levels nodes fromId toId _ L hM hsym s hinv hq
      d hd hmin hne d nodes toId [] fuel (SameUpToOrder.refl nodes) hwt (by omega)
    rw [hq1]
    refine ⟨q, ?_, hq2⟩
    simp

/-- Under the uniform weight function, on an undirected graph, when no route
leads from `fromId` to `toId`, `WeightedSolver` returns `ErrNoPathFound`. -/
theorem WeightedSolver_unit_noPath (nodes : NodeSet δ) (fromId toId : Int)
    (hsym : SymmetricGraph nodes) (hsize : (allConns nodes).length < 2 ^ 53)
    (hno : ∀ n, ¬ ReachIn nodes CheckAll fromId n toId)
    (fuel : Nat) (hfuel : 1 + (allConns nodes).length ≤ fuel) :
    nodes.WeightedSolver fuel fromId toId WeightFuncConnections =
      some ([], some Error.ErrNoPathFound) := by
  obtain ⟨s, L, hloop, hinv, hq⟩ := relaxLoop_unit nodes fromId toId
    (1 + (allConns nodes).length) (by omega) fuel (relaxInit fromId) 0
    (relaxInit_relaxInv nodes fromId toId) (by
      have : unvisited (relaxInit fromId).weights (allConns nodes) ≤ (allConns nodes).length :=
        List.countP_le_length _
      simp only [relaxInit, List.length_singleton] at this ⊢
      omega)
  have hne : toId ≠ fromId := by
    intro h0
    exact hno 0 (by rw [h0]; exact ReachIn.source)
  have hnone : ∀ c ∈ sortByWeight s.weights (nodes.conns toId), s.weights c = none := by
    intro c hc
    have hc2 : c ∈ nodes.conns toId := (sortByWeight_perm s.weights _).mem_iff.mp hc
    cases hw : s.weights c with
    | none => rfl
    | some k =>
      exfalso
      obtain ⟨n, _, _, hr⟩ := hinv.dist c k hw
      exact hno (n + 1) (ReachIn.step hr ((hsym toId c).mp hc2) rfl)
  unfold NodeSet.WeightedSolver NodeSet.weightedRun
  rw [hloop]
  dsimp only
  obtain ⟨n, hn⟩ : ∃ n, fuel = n + 1 := ⟨fuel - 1, by omega⟩
  subst hn
  rw [weightedWalk, if_neg hne]
  dsimp only
  rw [sortConnections_conns, firstWeighted_none s.weights _ toId hnone]
  simp [hne]

/-- C3: on every undirected graph in which `-1` is not a node id (with fewer
than 2^53 connection entries, so that hop counts are exact `float64` values),
`WeightedSolver` with `WeightFuncConnections` and `FastSolver` with `CheckAll`
agree: both return `ErrNoPathFound`, or both return a path and the two paths
have the same number of node ids. -/
theorem solvers_agree_on_length (nodes : NodeSet δ) (fromId toId : Int)
    (hsym : SymmetricGraph nodes) (hneg : NoMinusOne nodes)
    (hsize : (allConns nodes).length < 2 ^ 53) :
    ∃ N, ∀ fuel, N ≤ fuel →
      (nodes.FastSolver fuel fromId toId CheckAll = some ([], some Error.ErrNoPathFound) ∧
        nodes.WeightedSolver fuel fromId toId WeightFuncConnections =
          some ([], some Error.ErrNoPathFound)) ∨
      ∃ p1 p2, nodes.FastSolver fuel fromId toId CheckAll = some (p1, none) ∧
        nodes.WeightedSolver fuel fromId toId WeightFuncConnections = some (p2, none) ∧
        p1.length = p2.length := by
  by_cases hr : ∃ n, ReachIn nodes CheckAll fromId n toId
  · obtain ⟨d, hd, hmin⟩ : ∃ d, ReachIn nodes CheckAll fromId d toId ∧
        ∀ m, ReachIn nodes CheckAll fromId m toId → d ≤ m := by
      classical
      exact ⟨Nat.find hr, Nat.find_spec hr, fun m hm => Nat.find_min' hr hm⟩
    refine ⟨1 + (allConns nodes).length + d, ?_⟩
    intro fuel hfuel
    right
    obtain ⟨p0, hp0, hlen0⟩ := route_of_reachIn nodes CheckAll fromId d toId hd
    obtain ⟨p1, hp1, hl1, _, _⟩ := fastSolver_path_of_least nodes fromId toId CheckAll hsym hneg
      d ⟨p0, hp0, hlen0⟩ (by
        intro p hp
        have h1 := hmin _ (reachIn_of_route nodes CheckAll fromId p toId hp)
        have h2 := route_length_pos nodes CheckAll fromId toId p hp
        omega) fuel hfuel
    obtain ⟨p2, hp2, hl2⟩ := WeightedSolver_unit_path nodes fromId toId hsym hsize d hd hmin
      fuel hfuel
    exact ⟨p1, p2, hp1, hp2, by omega⟩
  · refine ⟨1 + (allConns nodes).length, ?_⟩
    intro fuel hfuel
    left
    have hno : ∀ n, ¬ ReachIn nodes CheckAll fromId n toId := fun n hn => hr ⟨n, hn⟩
    exact ⟨FastSolver_noPath_of_unreachable nodes CheckAll fromId toId hno fuel hfuel,
      WeightedSolver_unit_noPath nodes fromId toId hsym hsize hno fuel hfuel⟩

/-- Witness for C3: the chain 1-2-3-4 with the direct edge 1-4, from 1 to 3. -/
theorem solvers_agree_on_length_witness :
    ∃ N, ∀ fuel, N ≤ fuel →
      ((chainGraph [2, 4] [1, 3] [2, 4] [3, 1]).FastSolver fuel 1 3 CheckAll =
          some ([], some Error.ErrNoPathFound) ∧
        (chainGraph [2, 4] [1, 3] [2, 4] [3, 1]).WeightedSolver fuel 1 3
          WeightFuncConnections = some ([], some Error.ErrNoPathFound)) ∨
      ∃ p1 p2, (chainGraph [2, 4] [1, 3] [2, 4] [3, 1]).FastSolver fuel 1 3 CheckAll =
          some (p1, none) ∧
        (chainGraph [2, 4] [1, 3] [2, 4] [3, 1]).WeightedSolver fuel 1 3
          WeightFuncConnections = some (p2, none) ∧
        p1.length = p2.length :=
  solvers_agree_on_length (chainGraph [2, 4] [1, 3] [2, 4] [3, 1]) 1 3
    (symmetricGraph_of_keys _ (by decide))
    (noMinusOne_of_allConns _ (by rfl) (by decide))
    (by decide)


/-! ## Registering nodes -/

theorem lookup_filter_ne (es : List (Int × Node δ)) (id other : Int) (h : other ≠ id) :
    (es.filter (fun e => e.1 ≠ id)).lookup other = es.lookup other := by
  induction es with
  | nil => rfl
  | cons e es ih =>
    obtain ⟨k, n⟩ := e
    by_cases hk : k = id
    · subst hk
      have hb : (other == k) = false := by simpa using h
      simp only [List.filter, ne_eq, not_true_eq_false, decide_False, List.lookup_cons, hb]
      exact ih
    · by_cases ho : other = k
      · subst ho
        simp [List.filter, hk, List.lookup_cons]
      · have hb : (other == k) = false := by simpa using ho
        simp only [List.filter, ne_eq, hk, not_false_eq_true, decide_True, List.lookup_cons, hb]
        exact ih

/-- C17: after `RegisterNode(id, connections, data)` the entry at `id` is exactly
the node `{id, connections, data}`, whatever was registered under `id` before;
the entry of every other id is unchanged; and an id that is not registered
looks up as the zero node, whose connection list is empty. -/
theorem RegisterNode_entries (nodes : NodeSet δ) (id : Int) (connections : List Int)
    (data : Option δ) :
    (nodes.RegisterNode id connections data).entries.lookup id =
        some ⟨id, connections, data⟩ ∧
      (nodes.RegisterNode id connections data).get id = ⟨id, connections, data⟩ ∧
      (∀ other, other ≠ id →
        (nodes.RegisterNode id connections data).entries.lookup other =
            nodes.entries.lookup other ∧
          (nodes.RegisterNode id connections data).get other = nodes.get other) ∧
      (∀ x, nodes.entries.lookup x = none →
        nodes.get x = ⟨0, [], none⟩ ∧ nodes.conns x = []) ∧
      ∀ (size : Nat) (x : Int), (NewNodeSet δ size).entries.lookup x = none := by
  refine ⟨?_, ?_, ?_, ?_, ?_⟩
  · simp [NodeSet.RegisterNode, List.lookup_cons]
  · simp [NodeSet.RegisterNode, NodeSet.get, List.lookup_cons]
  · intro other hne
    have hb : (other == id) = false := by simpa using hne
    have h1 : (nodes.RegisterNode id connections data).entries.lookup other =
        nodes.entries.lookup other := by
      simp only [NodeSet.RegisterNode, List.lookup_cons, hb]
      exact lookup_filter_ne nodes.entries id other hne
    exact ⟨h1, by unfold NodeSet.get; rw [h1]⟩
  · intro x hx
    unfold NodeSet.conns NodeSet.get
    rw [hx]
    exact ⟨rfl, rfl⟩
  · intro size x
    rfl

/-! ## The uniform weight function on the chain with a direct edge -/

unseal Rat.add in
/-- C16: on the chain 1-2-3-4 with the direct edge 1-4, whatever the order of
the four connection lists, `WeightedSolver(1, 4, WeightFuncConnections)`
returns the path `[1, 4]`, and so not `[1, 2, 3, 4]`. -/
theorem WeightedSolver_chain_direct :
    ∀ c1 ∈ [[2, 4], [4, 2]], ∀ c2 ∈ [[1, 3], [3, 1]], ∀ c3 ∈ [[2, 4], [4, 2]],
      ∀ c4 ∈ [[3, 1], [1, 3]], ∀ fuel, 2 ≤ fuel →
        (chainGraph c1 c2 c3 c4).WeightedSolver fuel 1 4 WeightFuncConnections =
            some ([1, 4], none) ∧
          (chainGraph c1 c2 c3 c4).WeightedSolver fuel 1 4 WeightFuncConnections ≠
            some ([1, 2, 3, 4], none) := by
  have h : ∀ c1 ∈ [[2, 4], [4, 2]], ∀ c2 ∈ [[1, 3], [3, 1]], ∀ c3 ∈ [[2, 4], [4, 2]],
      ∀ c4 ∈ [[3, 1], [1, 3]],
        (chainGraph c1 c2 c3 c4).WeightedSolver 2 1 4 WeightFuncConnections =
          some ([1, 4], none) := by
    decide
  intro c1 h1 c2 h2 c3 h3 c4 h4 fuel hf
  have := WeightedSolver_mono _ 1 4 WeightFuncConnections 2 fuel hf _ (h c1 h1 c2 h2 c3 h3 c4 h4)
  rw [this]
  exact ⟨rfl, by decide⟩

/-- Witness for C16: the run with the connection lists 1: [2, 4], 2: [1, 3],
3: [2, 4], 4: [3, 1] and two iterations of fuel. -/
theorem WeightedSolver_chain_direct_witness :
    (chainGraph [2, 4] [1, 3] [2, 4] [3, 1]).WeightedSolver 2 1 4 WeightFuncConnections =
      some ([1, 4], none) :=
  (WeightedSolver_chain_direct [2, 4] (by decide) [1, 3] (by decide) [2, 4] (by decide)
    [3, 1] (by decide) 2 (by decide)).1


/-! ## Walks back that never end -/

theorem FastSolver_none_of_no_way_back (nodes : NodeSet δ) (check : CheckFunc δ)
    (fromId toId : Int) (hne : toId ≠ fromId) (hconns : nodes.conns toId = []) (n : Nat)
    (hreach : ReachIn nodes check fromId n toId) (fuel : Nat) :
    nodes.FastSolver fuel fromId toId check = none := by
  have hnot := FastSolver_path_of_reachable nodes check fromId toId n hreach fuel
  unfold NodeSet.FastSolver at hnot ⊢
  cases hs : fastSearch nodes check toId fuel (fastInit fromId) ⟨0, 0⟩ with
  | none => rfl
  | some r =>
    obtain ⟨s, current⟩ := r
    rw [hs] at hnot
    dsimp only at hnot ⊢
    by_cases hto : current.To ≠ toId
    · rw [if_pos hto] at hnot
      exact absurd rfl (hnot [])
    · rw [if_neg hto]
      rw [fastWalk_stuck nodes s.visited fromId toId hne (by rw [hconns]; rfl) fuel []]

/-- C11: on the graph in which node 1 has the connection list `[2]` and node 2
is not registered, node 2 is reachable from node 1, and `FastSolver(1, 2,
CheckAll)` returns nothing however many iterations it is given: the walk back
stays on node 2 for ever. -/
theorem FastSolver_dangling_never_returns :
    AdmittedRoute danglingGraph CheckAll 1 2 [1, 2] ∧
      ∀ fuel, danglingGraph.FastSolver fuel 1 2 CheckAll = none := by
  refine ⟨⟨by decide, by decide, by simp only [IsRoute, and_true]; decide, by decide⟩, ?_⟩
  intro fuel
  exact FastSolver_none_of_no_way_back danglingGraph CheckAll 1 2 (by decide) (by decide) 1
    (ReachIn.step ReachIn.source (by decide) rfl) fuel

theorem sortConnections_conns_other (nodes : NodeSet δ) (weights : IntMap ℚ) (walk x : Int)
    (h : x ≠ walk) : (sortConnections nodes weights walk).conns x = nodes.conns x := by
  unfold sortConnections NodeSet.conns NodeSet.get
  dsimp only
  rw [lookup_setConnections]
  cases hl : nodes.entries.lookup x with
  | none => simp
  | some n => simp [h]

/-- Two nodes, neither of them the source, each of which is the first weighted
connection of the other: the walk back goes to and fro between them. -/
theorem weightedWalk_two_cycle (weights : IntMap ℚ) (fromId a b : Int) (la lb : List Int)
    (ha : a ≠ fromId) (hb : b ≠ fromId) (hab : a ≠ b)
    (hsa : sortByWeight weights la = la) (hsb : sortByWeight weights lb = lb)
    (hfa : firstWeighted weights la a = b) (hfb : firstWeighted weights lb b = a) :
    ∀ (fuel : Nat) (nodes : NodeSet δ) (path : List Int),
      nodes.conns a = la → nodes.conns b = lb →
      weightedWalk weights fromId fuel nodes a path = none ∧
        weightedWalk weights fromId fuel nodes b path = none := by
  intro fuel
  induction fuel with
  | zero => intro nodes path _ _; exact ⟨rfl, rfl⟩
  | succ n ih =>
    intro nodes path hca hcb
    constructor
    · rw [weightedWalk, if_neg ha]
      dsimp only
      rw [sortConnections_conns, hca, hsa, hfa, if_neg (Ne.symm hab)]
      refine (ih _ _ ?_ ?_).2
      · rw [sortConnections_conns, hca, hsa]
      · rw [sortConnections_conns_other _ _ _ _ (Ne.symm hab), hcb]
    · rw [weightedWalk, if_neg hb]
      dsimp only
      rw [sortConnections_conns, hcb, hsb, hfb, if_neg hab]
      refine (ih _ _ ?_ ?_).1
      · rw [sortConnections_conns_other _ _ _ _ hab, hca]
      · rw [sortConnections_conns, hcb, hsb]

theorem WeightedSolver_none_of_two_cycle (nodes : NodeSet δ) (weightFunc : WeightFunc δ)
    (fromId toId b : Int) (k : Nat)
    (hlow : ∀ fuel, fuel < k →
      (relaxLoop nodes weightFunc toId fuel (relaxInit fromId)).2 = RelaxStatus.outOfFuel)
    (hdr : (relaxLoop nodes weightFunc toId k (relaxInit fromId)).2 = RelaxStatus.drained)
    (ha : toId ≠ fromId) (hb : b ≠ fromId) (hab : toId ≠ b)
    (hsa : sortByWeight (relaxLoop nodes weightFunc toId k (relaxInit fromId)).1.weights
      (nodes.conns toId) = nodes.conns toId)
    (hsb : sortByWeight (relaxLoop nodes weightFunc toId k (relaxInit fromId)).1.weights
      (nodes.conns b) = nodes.conns b)
    (hfa : firstWeighted (relaxLoop nodes weightFunc toId k (relaxInit fromId)).1.weights
      (nodes.conns toId) toId = b)
    (hfb : firstWeighted (relaxLoop nodes weightFunc toId k (relaxInit fromId)).1.weights
      (nodes.conns b) b = toId)
    (fuel : Nat) : nodes.WeightedSolver fuel fromId toId weightFunc = none := by
  unfold NodeSet.WeightedSolver NodeSet.weightedRun
  by_cases hf : fuel < k
  · have := hlow fuel hf
    cases hs : relaxLoop nodes weightFunc toId fuel (relaxInit fromId) with
    | mk s st =>
      rw [hs] at this
      dsimp only at this
      subst this
      rfl
  · have hmono := relaxLoop_mono_le nodes weightFunc toId k fuel (by omega) (relaxInit fromId)
      _ rfl (by rw [hdr]; simp)
    cases hs : relaxLoop nodes weightFunc toId k (relaxInit fromId) with
    | mk s st =>
      rw [hs] at hmono hdr hsa hsb hfa hfb
      dsimp only at hdr hsa hsb hfa hfb
      subst hdr
      rw [hmono]
      dsimp only
      rw [(weightedWalk_two_cycle s.weights fromId toId b (nodes.conns toId) (nodes.conns b)
        ha hb hab hsa hsb hfa hfb fuel nodes [] rfl rfl).1]
      rfl

unseal Rat.add in
/-- C12: `WeightedSolver` returns nothing, however many iterations it is given,
on the directed graph 1 → 2 → 3 → 2 from 1 to 3 under the uniform weight
function, and on the undirected line 1-2-3-4 from 1 to 4 when the edges 2-3 and
3-4 cost 0: the relaxation drains, and the walk back then goes to and fro
between two nodes for ever. -/
theorem WeightedSolver_walk_never_ends :
    (relaxLoop cycleGraph WeightFuncConnections 3 2 (relaxInit 1)).2 = RelaxStatus.drained ∧
      (∀ fuel, cycleGraph.WeightedSolver fuel 1 3 WeightFuncConnections = none) ∧
      (relaxLoop lineGraph4 freeTailWeight 4 3 (relaxInit 1)).2 = RelaxStatus.drained ∧
      ∀ fuel, lineGraph4.WeightedSolver fuel 1 4 freeTailWeight = none := by
  refine ⟨by decide, ?_, by decide, ?_⟩
  · exact WeightedSolver_none_of_two_cycle cycleGraph WeightFuncConnections 1 3 2 2
      (by decide) (by decide) (by decide) (by decide) (by decide) (by decide) (by decide)
      (by decide) (by decide)
  · exact WeightedSolver_none_of_two_cycle lineGraph4 freeTailWeight 1 4 3 3
      (by decide) (by decide) (by decide) (by decide) (by decide) (by decide) (by decide)
      (by decide) (by decide)

/-! ## The walk back of `FastSolver` on a directed graph -/

/-- C13: on the directed graph with the edges 1 → 2, 1 → 3, 2 → 4, 3 → 1 and
4 → 3, `FastSolver(1, 4, CheckAll)` returns `[1, 3, 4]`, although 4 is not in
the connection list of 3: the returned sequence is not a route of the graph,
while `[1, 2, 4]` is one.  The walk back reads the connection list of the node
it stands on as the edges into it. -/
theorem FastSolver_oneWay_not_a_route :
    (∀ fuel, 4 ≤ fuel → oneWayGraph.FastSolver fuel 1 4 CheckAll = some ([1, 3, 4], none)) ∧
      (4 : Int) ∉ oneWayGraph.conns 3 ∧ ¬ IsRoute oneWayGraph [1, 3, 4] ∧
      AdmittedRoute oneWayGraph CheckAll 1 4 [1, 2, 4] := by
  refine ⟨?_, by decide, ?_, ⟨by decide, by decide, ?_, by decide⟩⟩
  · intro fuel hf
    exact FastSolver_mono oneWayGraph 1 4 CheckAll 4 fuel hf _ (by decide)
  · simp only [IsRoute, and_true]
    decide
  · simp only [IsRoute, and_true]
    decide

/-! ## The calls of `check` -/

theorem checkedOnce_visit (nodes : NodeSet δ) (check : CheckFunc δ) (fromId cur c : Int)
    (s : FastState) (h : CheckedOnce nodes check fromId s) :
    CheckedOnce nodes check fromId (fastVisit nodes check cur c s) := by
  cases hc : s.visited c with
  | some v => rw [fastVisit_of_visited nodes check cur c s v hc]; exact h
  | none =>
    rw [fastVisit_of_new nodes check cur c s hc]
    have hcn : c ∉ s.calls := by
      intro hmem
      obtain ⟨v, hv⟩ := h.marked c hmem
      rw [hc] at hv
      exact absurd hv (by simp)
    have hcf : c ≠ fromId := by
      intro heq
      obtain ⟨v, hv⟩ := h.source
      rw [← heq, hc] at hv
      exact absurd hv (by simp)
    refine ⟨?_, ?_, ?_, ?_, ?_, ?_⟩
    · dsimp only
      rw [List.nodup_append]
      refine ⟨h.nodup, List.nodup_singleton c, ?_⟩
      intro x hx hx2
      rw [List.mem_singleton] at hx2
      subst hx2
      exact hcn hx
    · obtain ⟨v, hv⟩ := h.source
      refine ⟨v, ?_⟩
      dsimp only
      rw [IntMap.set_other _ _ _ _ (Ne.symm hcf)]
      exact hv
    · dsimp only
      intro hmem
      rw [List.mem_append, List.mem_singleton] at hmem
      rcases hmem with hmem | hmem
      · exact h.fresh hmem
      · exact hcf hmem.symm
    · intro x hx
      dsimp only at hx ⊢
      by_cases hxc : x = c
      · subst hxc
        exact ⟨-1, IntMap.set_same _ _ _⟩
      · rw [IntMap.set_other _ _ _ _ hxc]
        rw [List.mem_append, List.mem_singleton] at hx
        rcases hx with hx | hx
        · exact h.marked x hx
        · exact absurd hx hxc
    · intro x hx hrej
      dsimp only at hx ⊢
      by_cases hxc : x = c
      · subst hxc
        exact IntMap.set_same _ _ _
      · rw [IntMap.set_other _ _ _ _ hxc]
        rw [List.mem_append, List.mem_singleton] at hx
        rcases hx with hx | hx
        · exact h.rejected x hx hrej
        · exact absurd hx hxc
    · intro e he
      dsimp only at he
      by_cases hch : check nodes c = true
      · rw [if_pos hch, List.mem_append, List.mem_singleton] at he
        rcases he with he | he
        · exact h.queued e he
        · subst he
          right
          exact hch
      · rw [if_neg hch] at he
        exact h.queued e he

theorem checkedOnce_expand (nodes : NodeSet δ) (check : CheckFunc δ) (fromId cur : Int)
    (cs : List Int) :
    ∀ s : FastState, CheckedOnce nodes check fromId s →
      CheckedOnce nodes check fromId (fastExpand nodes check cur cs s) := by
  induction cs with
  | nil => intro s h; exact h
  | cons c cs ih =>
    intro s h
    rw [fastExpand]
    exact ih _ (checkedOnce_visit nodes check fromId cur c s h)

theorem checkedOnce_dequeue (nodes : NodeSet δ) (check : CheckFunc δ) (fromId : Int)
    (s : FastState) (cur : Connection) (queue : List Connection) (visited : IntMap Int)
    (hq : s.queue = cur :: queue)
    (hv : visited = s.visited ∨ ∃ d, visited = s.visited.set cur.To d)
    (h : CheckedOnce nodes check fromId s) :
    CheckedOnce nodes check fromId { s with visited := visited, queue := queue } := by
  have hkeep : ∀ x, (∃ v, s.visited x = some v) → ∃ v, visited x = some v := by
    intro x hx
    rcases hv with hv | ⟨d, hv⟩
    · rw [hv]; exact hx
    · rw [hv]
      by_cases hxc : x = cur.To
      · rw [hxc]; exact ⟨d, IntMap.set_same _ _ _⟩
      · rw [IntMap.set_other _ _ _ _ hxc]; exact hx
  refine ⟨h.nodup, hkeep _ h.source, h.fresh, fun x hx => hkeep x (h.marked x hx), ?_, ?_⟩
  · intro x hx hrej
    dsimp only at hx ⊢
    rcases hv with hv | ⟨d, hv⟩
    · rw [hv]; exact h.rejected x hx hrej
    · rw [hv]
      have hxc : x ≠ cur.To := by
        intro heq
        rcases h.queued cur (by rw [hq]; exact List.mem_cons_self _ _) with h1 | h1
        · rw [← heq] at h1
          rw [h1] at hx
          exact h.fresh hx
        · rw [← heq, hrej] at h1
          exact absurd h1 (by simp)
      rw [IntMap.set_other _ _ _ _ hxc]
      exact h.rejected x hx hrej
  · intro e he
    exact h.queued e (by rw [hq]; exact List.mem_cons_of_mem _ he)

theorem fastInit_checkedOnce (nodes : NodeSet δ) (check : CheckFunc δ) (fromId : Int) :
    CheckedOnce nodes check fromId (fastInit fromId) := by
  refine ⟨List.nodup_nil, ⟨0, IntMap.set_same _ _ _⟩, by simp [fastInit], ?_, ?_, ?_⟩
  · intro x hx; simp [fastInit] at hx
  · intro x hx; simp [fastInit] at hx
  · intro e he
    simp only [fastInit, List.mem_singleton] at he
    subst he
    left
    rfl

theorem fastIterate_checkedOnce (nodes : NodeSet δ) (check : CheckFunc δ) (fromId toId : Int) :
    ∀ (n : Nat) (s : FastState), CheckedOnce nodes check fromId s →
      CheckedOnce nodes check fromId (fastIterate nodes check toId n s) := by
  intro n
  induction n with
  | zero => intro s h; exact h
  | succ n ih =>
    intro s h
    rw [fastIterate]
    cases hq : s.queue with
    | nil => exact h
    | cons cur queue =>
      dsimp only
      have hd := checkedOnce_dequeue nodes check fromId s cur queue
        (if cur.From ≠ -1 then s.visited.set cur.To (s.visited.read cur.From + 1)
          else s.visited) hq
        (by
          by_cases hf : cur.From ≠ -1
          · rw [if_pos hf]; exact Or.inr ⟨_, rfl⟩
          · rw [if_neg hf]; exact Or.inl rfl) h
      by_cases hto : cur.To = toId
      · rw [if_pos hto]
        exact hd
      · rw [if_neg hto]
        exact ih _ (checkedOnce_expand nodes check fromId cur.To _ _ hd)

theorem fastSearch_eq_iterate (nodes : NodeSet δ) (check : CheckFunc δ) (toId : Int) :
    ∀ (fuel : Nat) (s : FastState) (current : Connection) (r : FastState × Connection),
      fastSearch nodes check toId fuel s current = some r →
      r.1 = fastIterate nodes check toId fuel s := by
  intro fuel
  induction fuel with
  | zero =>
    intro s current r h
    rw [fastSearch] at h
    cases hq : s.queue with
    | nil =>
      rw [hq] at h
      simp only [Option.some.injEq] at h
      subst h
      rfl
    | cons cur queue => rw [hq] at h; simp at h
  | succ n ih =>
    intro s current r h
    rw [fastSearch] at h
    rw [fastIterate]
    cases hq : s.queue with
    | nil =>
      rw [hq] at h
      simp only [Option.some.injEq] at h
      subst h
      rfl
    | cons cur queue =>
      rw [hq] at h
      dsimp only at h ⊢
      by_cases hto : cur.To = toId
      · rw [if_pos hto] at h ⊢
        simp only [Option.some.injEq] at h
        subst h
        rfl
      · rw [if_neg hto] at h ⊢
        exact ih _ _ _ h

/-- C19: at every point of the search loop of one `FastSolver` call - after
any number `n` of its iterations, and so in the state the loop ends in - the
log of the ids `check` was invoked on holds no id twice and does not hold
`fromId`; every id in it is marked visited; an id in it that `check` rejected
still holds the placeholder `-1` and is not in the queue.  The loop ends, and
one step of the loop over the connections never enqueues a rejected id. -/
theorem FastSolver_check_once (nodes : NodeSet δ) (check : CheckFunc δ) (fromId toId : Int) :
    (∀ n : Nat,
      (fastIterate nodes check toId n (fastInit fromId)).calls.Nodup ∧
      fromId ∉ (fastIterate nodes check toId n (fastInit fromId)).calls ∧
      (∀ x ∈ (fastIterate nodes check toId n (fastInit fromId)).calls,
        ∃ v, (fastIterate nodes check toId n (fastInit fromId)).visited x = some v) ∧
      (∀ x ∈ (fastIterate nodes check toId n (fastInit fromId)).calls,
        check nodes x = false →
        (fastIterate nodes check toId n (fastInit fromId)).visited x = some (-1) ∧
        ∀ e ∈ (fastIterate nodes check toId n (fastInit fromId)).queue, e.To ≠ x)) ∧
    (∀ fuel, 1 + (allConns nodes).length ≤ fuel →
      ∃ current, fastSearch nodes check toId fuel (fastInit fromId) ⟨0, 0⟩ =
        some (fastIterate nodes check toId fuel (fastInit fromId), current)) ∧
    (∀ (s : FastState) (cur c : Int), check nodes c = false →
      (fastVisit nodes check cur c s).queue = s.queue ∧
      ∃ v, (fastVisit nodes check cur c s).visited c = some v) := by
  refine ⟨?_, ?_, ?_⟩
  · intro n
    have h := fastIterate_checkedOnce nodes check fromId toId n _
      (fastInit_checkedOnce nodes check fromId)
    refine ⟨h.nodup, h.fresh, h.marked, ?_⟩
    intro x hx hrej
    refine ⟨h.rejected x hx hrej, ?_⟩
    intro e he heq
    rcases h.queued e he with h1 | h1
    · rw [heq] at h1
      rw [h1] at hx
      exact h.fresh hx
    · rw [heq, hrej] at h1
      exact absurd h1 (by simp)
  · intro fuel hfuel
    obtain ⟨r, hr⟩ := fastSearch_init_terminates nodes check fromId toId fuel hfuel
    have := fastSearch_eq_iterate nodes check toId fuel _ _ r hr
    refine ⟨r.2, ?_⟩
    rw [hr, ← this]
  · intro s cur c hrej
    cases hc : s.visited c with
    | some v =>
      rw [fastVisit_of_visited nodes check cur c s v hc]
      exact ⟨rfl, v, hc⟩
    | none =>
      rw [fastVisit_of_new nodes check cur c s hc]
      dsimp only
      rw [hrej]
      exact ⟨by simp, -1, IntMap.set_same _ _ _⟩


/-! ## Rejecting a node off the shortest routes -/

theorem reachIn_mono_check (nodes : NodeSet δ) (check check2 : CheckFunc δ) (a : Int)
    (hle : ∀ x, check2 nodes x = true → check nodes x = true) (n : Nat) (x : Int)
    (h : ReachIn nodes check2 a n x) : ReachIn nodes check a n x := by
  induction h with
  | source => exact ReachIn.source
  | step _ hconn hcheck ih => exact ReachIn.step ih hconn (hle _ hcheck)

theorem reachIn_cons (nodes : NodeSet δ) (check : CheckFunc δ) (u c : Int)
    (hconn : c ∈ nodes.conns u) (hcheck : check nodes c = true) (m : Nat) (y : Int)
    (h : ReachIn nodes check c m y) : ReachIn nodes check u (m + 1) y := by
  induction h with
  | source => exact ReachIn.step ReachIn.source hconn hcheck
  | step _ hconn2 hcheck2 ih => exact ReachIn.step ih hconn2 hcheck2

theorem admittedRoute_snoc (nodes : NodeSet δ) (check : CheckFunc δ) (a u c : Int)
    (p : List Int) (hp : AdmittedRoute nodes check a u p) (hconn : c ∈ nodes.conns u)
    (hcheck : check nodes c = true) : AdmittedRoute nodes check a c (p ++ [c]) := by
  obtain ⟨hhead, hlast, hroute, hchk⟩ := hp
  have hne : p ≠ [] := by
    intro h0; subst h0; simp at hhead
  refine ⟨?_, List.getLast?_concat p, ?_, ?_⟩
  · cases p with
    | nil => exact absurd rfl hne
    | cons a q1 => simpa using hhead
  · rw [isRoute_iff_chain, List.chain'_append]
    refine ⟨(isRoute_iff_chain nodes p).mp hroute, by simp, ?_⟩
    intro x hx y hy
    rw [hlast] at hx
    simp only [Option.mem_def, Option.some.injEq] at hx
    simp only [List.head?_cons, Option.mem_def, Option.some.injEq] at hy
    subst hx; subst hy
    exact hconn
  · intro x hx
    rw [List.tail_append_of_ne_nil hne] at hx
    rcases List.mem_append.mp hx with h1 | h1
    · exact hchk x h1
    · simp only [List.mem_singleton] at h1
      rw [h1]; exact hcheck

theorem route_through (nodes : NodeSet δ) (check : CheckFunc δ) (a x : Int) (k : Nat)
    (hk : ReachIn nodes check a k x) (m : Nat) (y : Int) (hm : ReachIn nodes check x m y) :
    ∃ p, AdmittedRoute nodes check a y p ∧ p.length = k + m + 1 ∧ x ∈ p := by
  induction hm with
  | source =>
    obtain ⟨p, hp, hlen⟩ := route_of_reachIn nodes check a k x hk
    exact ⟨p, hp, by omega, List.mem_of_mem_getLast? hp.2.1⟩
  | step _ hconn hcheck ih =>
    obtain ⟨p, hp, hlen, hx⟩ := ih
    exact ⟨p ++ [_], admittedRoute_snoc nodes check a _ _ p hp hconn hcheck,
      by simp only [List.length_append, List.length_singleton]; omega,
      List.mem_append_left _ hx⟩

theorem rejectAlso_le (nodes : NodeSet δ) (check : CheckFunc δ) (X : Int) :
    ∀ x, rejectAlso check X nodes x = true → check nodes x = true := by
  intro x h
  unfold rejectAlso at h
  by_cases hx : x = X
  · rw [if_pos hx] at h; exact absurd h (by simp)
  · rw [if_neg hx] at h; exact h

/-- A node on a route of `d` edges to the target is reached without `X` when
no route of `d` edges goes through `X`. -/
theorem reachIn_avoid (nodes : NodeSet δ) (check : CheckFunc δ) (fromId toId X : Int) (d : Nat)
    (hX : ∀ p, AdmittedRoute nodes check fromId toId p → p.length = d + 1 → X ∉ p)
    (k : Nat) (x : Int) (hk : ReachIn nodes check fromId k x) :
    ∀ m, ReachIn nodes check x m toId → k + m = d →
      ReachIn nodes (rejectAlso check X) fromId k x := by
  induction hk with
  | source => intro m _ _; exact ReachIn.source
  | @step n u c hu hconn hcheck ih =>
    intro m hm hd
    have h1 := ih (m + 1) (reachIn_cons nodes check u c hconn hcheck m toId hm) (by omega)
    refine ReachIn.step h1 hconn ?_
    obtain ⟨p, hp, hlen, hc⟩ := route_through nodes check fromId c (n + 1)
      (ReachIn.step hu hconn hcheck) m toId hm
    have hne : c ≠ X := by
      intro heq
      rw [heq] at hc
      exact hX p hp (by omega) hc
    unfold rejectAlso
    rw [if_neg hne]
    exact hcheck

theorem fastScan_congr (visited visited2 : IntMap Int) (dist : Int) (cs : List Int)
    (h : ∀ c ∈ cs, visited c = some (dist - 1) ↔ visited2 c = some (dist - 1)) :
    ∀ walk, fastScan visited dist cs walk = fastScan visited2 dist cs walk := by
  induction cs with
  | nil => intro walk; rfl
  | cons c cs ih =>
    intro walk
    have hc := h c (List.mem_cons_self _ _)
    have ih2 := ih (fun x hx => h x (List.mem_cons_of_mem _ hx))
    by_cases h1 : visited c = some (dist - 1)
    · have h2 := hc.mp h1
      rw [fastScan, fastScan, h1, h2]
      dsimp only
      rw [if_pos rfl, if_pos rfl]
      exact ih2 c
    · have h2 : ¬ visited2 c = some (dist - 1) := fun h3 => h1 (hc.mpr h3)
      have e1 : fastScan visited dist (c :: cs) walk = fastScan visited dist cs walk := by
        rw [fastScan]
        cases hv : visited c with
        | none => rfl
        | some cdist =>
          dsimp only
          rw [if_neg]
          intro heq
          rw [hv, heq] at h1
          exact h1 rfl
      have e2 : fastScan visited2 dist (c :: cs) walk = fastScan visited2 dist cs walk := by
        rw [fastScan]
        cases hv : visited2 c with
        | none => rfl
        | some cdist =>
          dsimp only
          rw [if_neg]
          intro heq
          rw [hv, heq] at h2
          exact h2 rfl
      rw [e1, e2]
      exact ih2 walk

/-- The two walks back agree from a node that has the same distance in both
visited maps and lies on a shortest route to the target. -/
theorem fastWalk_agree (nodes : NodeSet δ) (check : CheckFunc δ) (fromId toId X : Int)
    (hsym : SymmetricGraph nodes) (d : Nat)
    (hX : ∀ p, AdmittedRoute nodes check fromId toId p → p.length = d + 1 → X ∉ p)
    (s s2 : FastState)
    (h : LevelInv nodes check fromId d (some toId) s) (hu : s.visited toId = some (d : Int))
    (h2 : LevelInv nodes (rejectAlso check X) fromId d (some toId) s2)
    (hu2 : s2.visited toId = some (d : Int)) :
    ∀ (fuel : Nat) (k : Nat) (walk : Int) (path : List Int) (m : Nat),
      s.visited walk = some (k : Int) → s2.visited walk = some (k : Int) →
      ReachIn nodes check walk m toId → k + m = d →
      fastWalk nodes s.visited fromId fuel walk path =
        fastWalk nodes s2.visited fromId fuel walk path := by
  intro fuel
  induction fuel with
  | zero => intro k walk path m _ _ _ _; rfl
  | succ n ih =>
    intro k walk path m hw hw2 hm hd
    rw [fastWalk, fastWalk]
    by_cases hwf : walk = fromId
    · rw [if_pos hwf, if_pos hwf]
    · rw [if_neg hwf, if_neg hwf]
      rw [IntMap.read_some _ _ _ hw, IntMap.read_some _ _ _ hw2]
      have hreach : ReachIn nodes check fromId k walk := by
        rcases h.dist walk k hw with h1 | ⟨_, _, h3⟩
        · omega
        · simpa using h3
      have hkpos : 0 < k := by
        rcases Nat.eq_zero_or_pos k with h0 | h0
        · subst h0
          exact absurd (reachIn_zero nodes check fromId walk hreach) hwf
        · exact h0
      obtain ⟨j, hj⟩ : ∃ j, k = j + 1 := ⟨k - 1, by omega⟩
      subst hj
      obtain ⟨_, _, _, hcheckw⟩ := reachIn_succ nodes check fromId walk j hreach
      have hkj : ((j + 1 : Nat) : Int) - 1 = (j : Int) := by push_cast; ring
      have hiff : ∀ c ∈ nodes.conns walk,
          s.visited c = some (((j + 1 : Nat) : Int) - 1) ↔
            s2.visited c = some (((j + 1 : Nat) : Int) - 1) := by
        intro c hc
        rw [hkj]
        have hback : walk ∈ nodes.conns c := (hsym walk c).mp hc
        constructor
        · intro hcv
          have hcr : ReachIn nodes check fromId j c := by
            rcases h.dist c j hcv with h1 | ⟨_, _, h3⟩
            · omega
            · simpa using h3
          have hav := reachIn_avoid nodes check fromId toId X d hX j c hcr (m + 1)
            (reachIn_cons nodes check c walk hback hcheckw m toId hm) (by omega)
          obtain ⟨i, hi1, hi2, hi3⟩ := levelInv_lower nodes (rejectAlso check X) fromId d toId
            s2 h2 hu2 j c hav (by omega)
          have hi4 : ReachIn nodes check fromId i.toNat c := by
            rcases h2.dist c i hi1 with h1 | ⟨_, _, h3⟩
            · omega
            · exact reachIn_mono_check nodes check _ fromId (rejectAlso_le nodes check X) _ _ h3
          have := levelInv_exact nodes check fromId d toId s h hu c j hcv (by omega) i.toNat hi4
          have hij : i = j := by omega
          rw [hi1, hij]
        · intro hcv
          have hcr : ReachIn nodes check fromId j c := by
            rcases h2.dist c j hcv with h1 | ⟨_, _, h3⟩
            · omega
            · exact reachIn_mono_check nodes check _ fromId (rejectAlso_le nodes check X) _ _
                (by simpa using h3)
          obtain ⟨i, hi1, hi2, hi3⟩ := levelInv_lower nodes check fromId d toId
            s h hu j c hcr (by omega)
          have hi4 : ReachIn nodes check fromId (i.toNat + 1) walk := by
            rcases h.dist c i hi1 with h1 | ⟨_, _, h3⟩
            · omega
            · exact ReachIn.step h3 hback hcheckw
          have := levelInv_exact nodes check fromId d toId s h hu walk _ hw (by omega)
            (i.toNat + 1) hi4
          have hij : i = j := by omega
          rw [hi1, hij]
      rw [← fastScan_congr s.visited s2.visited _ (nodes.conns walk) hiff walk]
      rcases fastScan_cases s.visited ((j + 1 : Nat) : Int) (nodes.conns walk) walk with
        hst | ⟨hmem, hval⟩
      · rw [hst]
        exact ih (j + 1) walk (walk :: path) m hw hw2 hm hd
      · have hval2 := (hiff _ hmem).mp hval
        rw [hkj] at hval hval2
        exact ih j _ (walk :: path) (m + 1) hval hval2
          (reachIn_cons nodes check _ walk ((hsym walk _).mp hmem) hcheckw m toId hm) (by omega)

theorem fastSolver_reject_agree (nodes : NodeSet δ) (fromId toId X : Int) (check : CheckFunc δ)
    (hsym : SymmetricGraph nodes) (hneg : NoMinusOne nodes)
    (hX : ∀ p, AdmittedRoute nodes check fromId toId p →
      (∀ q, AdmittedRoute nodes check fromId toId q → p.length ≤ q.length) → X ∉ p) :
    ∃ N, ∀ fuel, N ≤ fuel →
      ∃ r, nodes.FastSolver fuel fromId toId check = some r ∧
        nodes.FastSolver fuel fromId toId (rejectAlso check X) = some r ∧
        (r.2 = none ∨ r = ([], some Error.ErrNoPathFound)) := by
  by_cases hex : ∃ n, ReachIn nodes check fromId n toId
  · classical
    let d := Nat.find hex
    have hd : ReachIn nodes check fromId d toId := Nat.find_spec hex
    have hdmin : ∀ n, ReachIn nodes check fromId n toId → d ≤ n := fun n hn =>
      Nat.find_min' hex hn
    have hX2 : ∀ p, AdmittedRoute nodes check fromId toId p → p.length = d + 1 → X ∉ p := by
      intro p hp hlen
      apply hX p hp
      intro q hq
      have := hdmin _ (reachIn_of_route nodes check fromId q toId hq)
      have := route_length_pos nodes check fromId toId q hq
      omega
    have hd2 : ReachIn nodes (rejectAlso check X) fromId d toId :=
      reachIn_avoid nodes check fromId toId X d hX2 d toId hd 0 ReachIn.source rfl
    have hsrc : ∀ u c, c ∈ nodes.conns u → u ≠ -1 := by
      intro u c hc hu
      have := (hsym u c).mp hc
      rw [hu] at this
      exact hneg.2 c this
    refine ⟨1 + (allConns nodes).length + d, ?_⟩
    intro fuel hfuel
    -- the search with `check`
    obtain ⟨r, hr⟩ := fastSearch_init_terminates nodes check fromId toId fuel (by omega)
    obtain ⟨s, current⟩ := r
    have hto : current.To = toId := by
      by_contra hne
      obtain ⟨hk, hq⟩ := fastSearch_complete nodes check fromId toId fuel _ _ _ hr
        (fastInit_searchClosed nodes check fromId toId) hne
      exact (searchClosed_reach nodes check fromId toId s hk hq d toId hd).1 rfl
    obtain ⟨L, hinv, hL⟩ := fastSearch_init_levelInv nodes check fromId toId hsrc fuel _ hr hto
    dsimp only at hinv hL
    have hLd : L = d := by
      have h1 := levelInv_exact nodes check fromId L toId s hinv hL toId L hL hinv.level d hd
      rcases hinv.dist toId L hL with h2 | ⟨_, _, h4⟩
      · have := hinv.level; omega
      · have := hdmin _ h4
        omega
    subst hLd
    -- the search with the predicate that rejects `X`
    obtain ⟨r2, hr2⟩ := fastSearch_init_terminates nodes (rejectAlso check X) fromId toId fuel
      (by omega)
    obtain ⟨s2, current2⟩ := r2
    have hto2 : current2.To = toId := by
      by_contra hne
      obtain ⟨hk, hq⟩ := fastSearch_complete nodes (rejectAlso check X) fromId toId fuel _ _ _
        hr2 (fastInit_searchClosed nodes (rejectAlso check X) fromId toId) hne
      exact (searchClosed_reach nodes (rejectAlso check X) fromId toId s2 hk hq d toId hd2).1 rfl
    obtain ⟨L2, hinv2, hL2⟩ := fastSearch_init_levelInv nodes (rejectAlso check X) fromId toId
      hsrc fuel _ hr2 hto2
    dsimp only at hinv2 hL2
    have hLd2 : L2 = d := by
      have h1 := levelInv_exact nodes (rejectAlso check X) fromId L2 toId s2 hinv2 hL2 toId L2
        hL2 hinv2.level d hd2
      rcases hinv2.dist toId L2 hL2 with h2 | ⟨_, _, h4⟩
      · have := hinv2.level; omega
      · have := hdmin _ (reachIn_mono_check nodes check _ fromId (rejectAlso_le nodes check X)
          _ _ h4)
        omega
    subst hLd2
    obtain ⟨q, hq1, _, _, _⟩ := fastWalk_levels nodes check fromId hsym _ toId s hinv hL
      d toId [] fuel hL (by omega)
    have hagree := fastWalk_agree nodes check fromId toId X hsym d hX2 s s2 hinv hL hinv2 hL2
      fuel d toId [] 0 hL hL2 ReachIn.source rfl
    refine ⟨(q ++ [], none), ?_, ?_, Or.inl rfl⟩
    · unfold NodeSet.FastSolver
      rw [hr]
      dsimp only
      rw [if_neg (by simpa using hto), hq1]
    · unfold NodeSet.FastSolver
      rw [hr2]
      dsimp only
      rw [if_neg (by simpa using hto2), ← hagree, hq1]
  · have hno : ∀ n, ¬ ReachIn nodes check fromId n toId := fun n hn => hex ⟨n, hn⟩
    have hno2 : ∀ n, ¬ ReachIn nodes (rejectAlso check X) fromId n toId := fun n hn =>
      hno n (reachIn_mono_check nodes check _ fromId (rejectAlso_le nodes check X) _ _ hn)
    refine ⟨1 + (allConns nodes).length, ?_⟩
    intro fuel hfuel
    exact ⟨([], some Error.ErrNoPathFound),
      FastSolver_noPath_of_unreachable nodes check fromId toId hno fuel hfuel,
      FastSolver_noPath_of_unreachable nodes (rejectAlso check X) fromId toId hno2 fuel hfuel,
      Or.inr rfl⟩

/-- C15: on every undirected graph in which `-1` is not a node id, for every
`check` and every node `X` that is on no admitted route from `fromId` to `toId`
with the least number of edges, `FastSolver` with the predicate that rejects
`X` and otherwise equals `check` returns the result it returns with `check`:
the same path, or `ErrNoPathFound` in both runs. -/
theorem FastSolver_reject_off_shortest (nodes : NodeSet δ) (fromId toId X : Int)
    (check : CheckFunc δ) (hsym : SymmetricGraph nodes) (hneg : NoMinusOne nodes)
    (hX : ∀ p, AdmittedRoute nodes check fromId toId p →
      (∀ q, AdmittedRoute nodes check fromId toId q → p.length ≤ q.length) → X ∉ p) :
    ∃ N, ∀ fuel, N ≤ fuel →
      ∃ r, nodes.FastSolver fuel fromId toId check = some r ∧
        nodes.FastSolver fuel fromId toId (rejectAlso check X) = some r ∧
        (r.2 = none ∨ r = ([], some Error.ErrNoPathFound)) :=
  fastSolver_reject_agree nodes fromId toId X check hsym hneg hX

/-- Witness for C15: on the chain 1-2-3-4 with the direct edge 1-4 and every
node accepted, node 2 is not on the shortest route `[1, 4]` from 1 to 4. -/
theorem FastSolver_reject_off_shortest_witness :
    ∃ N, ∀ fuel, N ≤ fuel →
      ∃ r, (chainGraph [2, 4] [1, 3] [2, 4] [3, 1]).FastSolver fuel 1 4 CheckAll = some r ∧
        (chainGraph [2, 4] [1, 3] [2, 4] [3, 1]).FastSolver fuel 1 4 (rejectAlso CheckAll 2) =
          some r ∧
        (r.2 = none ∨ r = ([], some Error.ErrNoPathFound)) :=
  FastSolver_reject_off_shortest (chainGraph [2, 4] [1, 3] [2, 4] [3, 1]) 1 4 2 CheckAll
    (symmetricGraph_of_keys _ (by decide))
    (noMinusOne_of_allConns _ (by rfl) (by decide))
    (by
      intro p hp hmin
      have hlen := hmin [1, 4]
        ⟨by decide, by decide, by simp only [IsRoute, and_true]; decide, by decide⟩
      obtain ⟨h1, h2, _, _⟩ := hp
      match p, h1, h2, hlen with
      | [a], h1, h2, _ =>
        simp only [List.head?_cons, Option.some.injEq] at h1
        simp only [List.getLast?_singleton, Option.some.injEq] at h2
        omega
      | [a, b], h1, h2, _ =>
        simp only [List.head?_cons, Option.some.injEq] at h1
        have h2b : b = 4 := by simpa using h2
        subst h1; subst h2b
        decide
      | a :: b :: c :: rest, _, _, hlen => simp at hlen)


/-! ## The relaxation loop in general -/

/-- What one step of the loop over the connections does: nothing but logging
the call, or lowering the weight of the connection. -/
theorem relaxEdge_cases (nodes : NodeSet δ) (weightFunc : WeightFunc δ) (toId : Int)
    (cur : Connection) (c : Int) (s : RelaxState) :
    ((relaxEdge nodes weightFunc toId cur c s).1.weights = s.weights ∧
      (relaxEdge nodes weightFunc toId cur c s).1.top = s.top ∧
      (relaxEdge nodes weightFunc toId cur c s).1.queue = s.queue ∧
      ((weightFunc nodes cur.From cur.To c).2 ≠ none ∨
        f64add (s.weights.read cur.To) (weightFunc nodes cur.From cur.To c).1 > s.top ∨
        ∃ k, s.weights c = some k ∧
          ¬ f64add (s.weights.read cur.To) (weightFunc nodes cur.From cur.To c).1 < k)) ∨
    ((weightFunc nodes cur.From cur.To c).2 = none ∧
      ¬ f64add (s.weights.read cur.To) (weightFunc nodes cur.From cur.To c).1 > s.top ∧
      (s.weights c = none ∨ ∃ k, s.weights c = some k ∧
        f64add (s.weights.read cur.To) (weightFunc nodes cur.From cur.To c).1 < k) ∧
      (relaxEdge nodes weightFunc toId cur c s).1.weights =
        s.weights.set c (f64add (s.weights.read cur.To) (weightFunc nodes cur.From cur.To c).1) ∧
      ((c = toId ∧
          (relaxEdge nodes weightFunc toId cur c s).1.top =
            f64add (s.weights.read cur.To) (weightFunc nodes cur.From cur.To c).1 ∧
          (relaxEdge nodes weightFunc toId cur c s).1.queue = s.queue) ∨
        (c ≠ toId ∧ (relaxEdge nodes weightFunc toId cur c s).1.top = s.top ∧
          (relaxEdge nodes weightFunc toId cur c s).1.queue = s.queue ++ [⟨c, cur.To⟩]))) := by
  unfold relaxEdge
  dsimp only
  cases herr : (weightFunc nodes cur.From cur.To c).2 with
  | some err =>
    left
    dsimp only
    by_cases he : err = Error.ErrInvalidNode
    · rw [if_pos he]
      exact ⟨rfl, rfl, rfl, Or.inl (by simp)⟩
    · rw [if_neg he]
      exact ⟨rfl, rfl, rfl, Or.inl (by simp)⟩
  | none =>
    dsimp only
    by_cases hgt : f64add (s.weights.read cur.To) (weightFunc nodes cur.From cur.To c).1 > s.top
    · left
      rw [if_pos hgt]
      exact ⟨rfl, rfl, rfl, Or.inr (Or.inl hgt)⟩
    · rw [if_neg hgt]
      cases hc : s.weights c with
      | none =>
        right
        dsimp only
        rw [if_pos rfl]
        refine ⟨rfl, hgt, Or.inl rfl, ?_⟩
        by_cases hto : c = toId
        · rw [if_pos hto]
          exact ⟨rfl, Or.inl ⟨hto, rfl, rfl⟩⟩
        · rw [if_neg hto]
          exact ⟨rfl, Or.inr ⟨hto, rfl, rfl⟩⟩
      | some k =>
        dsimp only
        by_cases hlt : f64add (s.weights.read cur.To) (weightFunc nodes cur.From cur.To c).1 < k
        · right
          rw [if_pos (by simpa using hlt)]
          refine ⟨rfl, hgt, Or.inr ⟨k, rfl, hlt⟩, ?_⟩
          by_cases hto : c = toId
          · rw [if_pos hto]
            exact ⟨rfl, Or.inl ⟨hto, rfl, rfl⟩⟩
          · rw [if_neg hto]
            exact ⟨rfl, Or.inr ⟨hto, rfl, rfl⟩⟩
        · left
          rw [if_neg (by simpa using hlt)]
          exact ⟨rfl, rfl, rfl, Or.inr (Or.inr ⟨k, rfl, hlt⟩)⟩

theorem relaxEdge_no_error (nodes : NodeSet δ) (weightFunc : WeightFunc δ) (toId : Int)
    (cur : Connection) (c : Int) (s : RelaxState)
    (h : (weightFunc nodes cur.From cur.To c).2 = some Error.ErrInvalidNode ∨
      (weightFunc nodes cur.From cur.To c).2 = none) :
    (relaxEdge nodes weightFunc toId cur c s).2 = none := by
  unfold relaxEdge
  dsimp only
  rcases h with h | h
  · rw [h]
    dsimp only
    rw [if_pos rfl]
  · rw [h]
    dsimp only
    split
    · rfl
    · split
      · split <;> rfl
      · rfl

theorem relaxConnections_induct (nodes : NodeSet δ) (weightFunc : WeightFunc δ) (toId : Int)
    (P : List Int → RelaxState → Prop) (μ : RelaxState → Nat) (cur : Connection)
    (hedge : ∀ done c rest s, nodes.conns cur.To = done ++ c :: rest → P done s →
      (relaxEdge nodes weightFunc toId cur c s).2 = none ∧
      P (done ++ [c]) (relaxEdge nodes weightFunc toId cur c s).1 ∧
      μ (relaxEdge nodes weightFunc toId cur c s).1 ≤ μ s) :
    ∀ (rest done : List Int) (s : RelaxState), nodes.conns cur.To = done ++ rest → P done s →
      (relaxConnections nodes weightFunc toId cur rest s).2 = none ∧
      P (nodes.conns cur.To) (relaxConnections nodes weightFunc toId cur rest s).1 ∧
      μ (relaxConnections nodes weightFunc toId cur rest s).1 ≤ μ s := by
  intro rest
  induction rest with
  | nil =>
    intro done s hsplit hP
    rw [List.append_nil] at hsplit
    rw [hsplit]
    exact ⟨rfl, hP, le_refl _⟩
  | cons c rest ih =>
    intro done s hsplit hP
    obtain ⟨h1, h2, h3⟩ := hedge done c rest s hsplit hP
    rw [relaxConnections]
    cases hr : relaxEdge nodes weightFunc toId cur c s with
    | mk s1 e1 =>
      rw [hr] at h1 h2 h3
      dsimp only at h1 h2 h3
      subst h1
      dsimp only
      obtain ⟨g1, g2, g3⟩ := ih (done ++ [c]) s1 (by rw [hsplit]; simp) h2
      exact ⟨g1, g2, le_trans g3 h3⟩

/-- Induction over the relaxation loop: `Q` holds at the head of the loop,
`P cur done` while the connections of `cur` are looped over (`done` being those
dealt with), and `μ` bounds the iterations left. -/
theorem relaxLoop_induct (nodes : NodeSet δ) (weightFunc : WeightFunc δ) (toId : Int)
    (Q : RelaxState → Prop) (P : Connection → List Int → RelaxState → Prop)
    (μ : RelaxState → Nat)
    (hdeq : ∀ s cur queue, Q s → s.queue = cur :: queue →
      P cur [] { s with queue := queue } ∧ μ { s with queue := queue } + 1 ≤ μ s)
    (hedge : ∀ cur done c rest s, nodes.conns cur.To = done ++ c :: rest → P cur done s →
      (relaxEdge nodes weightFunc toId cur c s).2 = none ∧
      P cur (done ++ [c]) (relaxEdge nodes weightFunc toId cur c s).1 ∧
      μ (relaxEdge nodes weightFunc toId cur c s).1 ≤ μ s)
    (hdone : ∀ cur s, P cur (nodes.conns cur.To) s → Q s) :
    ∀ (fuel : Nat) (s : RelaxState), Q s → μ s ≤ fuel →
      (relaxLoop nodes weightFunc toId fuel s).2 = RelaxStatus.drained ∧
      Q (relaxLoop nodes weightFunc toId fuel s).1 ∧
      (relaxLoop nodes weightFunc toId fuel s).1.queue = [] := by
  intro fuel
  induction fuel with
  | zero =>
    intro s hQ hμ
    rw [relaxLoop]
    cases hq : s.queue with
    | nil => exact ⟨rfl, hQ, hq⟩
    | cons cur queue =>
      have := (hdeq s cur queue hQ hq).2
      omega
  | succ n ih =>
    intro s hQ hμ
    rw [relaxLoop]
    cases hq : s.queue with
    | nil => exact ⟨rfl, hQ, hq⟩
    | cons cur queue =>
      dsimp only
      obtain ⟨hP, hμ2⟩ := hdeq s cur queue hQ hq
      obtain ⟨g1, g2, g3⟩ := relaxConnections_induct nodes weightFunc toId (P cur) μ cur
        (hedge cur) (nodes.conns cur.To) [] { s with queue := queue } rfl hP
      cases hr : relaxConnections nodes weightFunc toId cur (nodes.conns cur.To)
          { s with queue := queue } with
      | mk s1 e1 =>
        rw [hr] at g1 g2 g3
        dsimp only at g1 g2 g3
        subst g1
        dsimp only
        exact ih s1 (hdone cur s1 g2) (by omega)


/-! ## Termination of the relaxation under non-negative weights -/

theorem countP_lt_of_mem {α : Type} (p q : α → Bool) (l : List α)
    (hle : ∀ x ∈ l, p x = true → q x = true) (a : α) (ha : a ∈ l)
    (hq : q a = true) (hp : p a = false) : l.countP p < l.countP q := by
  induction l with
  | nil => simp at ha
  | cons b l ih =>
    have hle2 : ∀ x ∈ l, p x = true → q x = true := fun x hx =>
      hle x (List.mem_cons_of_mem _ hx)
    have hmono : l.countP p ≤ l.countP q := List.countP_mono_left hle2
    rcases List.mem_cons.mp ha with h1 | h1
    · subst h1
      rw [List.countP_cons_of_pos _ _ hq, List.countP_cons_of_neg _ _ (by simp [hp])]
      omega
    · have := ih hle2 h1
      by_cases hb : p b = true
      · rw [List.countP_cons_of_pos _ _ hb,
          List.countP_cons_of_pos _ _ (hle b (List.mem_cons_self _ _) hb)]
        omega
      · rw [List.countP_cons_of_neg _ _ hb]
        by_cases hqb : q b = true
        · rw [List.countP_cons_of_pos _ _ hqb]; omega
        · rw [List.countP_cons_of_neg _ _ hqb]; exact this

theorem mem_allTraces (nodes : NodeSet δ) (fromId : Int) (T : List (Int × Int × Int))
    (hnodup : T.Nodup) (hmem : ∀ e ∈ T, e ∈ tripleList nodes fromId) :
    T ∈ allTraces nodes fromId := by
  obtain ⟨l, hperm, hsub⟩ := List.subperm_of_subset hnodup hmem
  unfold allTraces
  rw [List.mem_flatMap]
  exact ⟨l, (List.mem_sublists).mpr hsub, (List.mem_permutations).mpr hperm.symm⟩

theorem mem_tripleList (nodes : NodeSet δ) (fromId p u c : Int)
    (hp : p ∈ -1 :: fromId :: allConns nodes) (hu : u ∈ fromId :: allConns nodes)
    (hc : c ∈ allConns nodes) : (p, u, c) ∈ tripleList nodes fromId := by
  unfold tripleList
  exact List.mem_product.mpr ⟨hp, List.mem_product.mpr ⟨hu, hc⟩⟩

theorem traceValue_snoc (nodes : NodeSet δ) (weightFunc : WeightFunc δ)
    (T : List (Int × Int × Int)) (e : Int × Int × Int) :
    traceValue nodes weightFunc (T ++ [e]) =
      f64add (traceValue nodes weightFunc T) (weightFunc nodes e.1 e.2.1 e.2.2).1 := by
  simp [traceValue, List.foldl_append]

theorem traceValue_isF64 (nodes : NodeSet δ) (weightFunc : WeightFunc δ)
    (T : List (Int × Int × Int)) :
    f64round (traceValue nodes weightFunc T) = traceValue nodes weightFunc T := by
  rcases List.eq_nil_or_concat T with h | ⟨T1, e, h⟩
  · subst h
    exact f64round_zero
  · rw [List.concat_eq_append] at h
    rw [h, traceValue_snoc]
    exact f64round_f64add _ _

/-- Calls of non-negative weight do not lower the value of a sequence. -/
theorem traceValue_le_append (nodes : NodeSet δ) (weightFunc : WeightFunc δ)
    (T2 : List (Int × Int × Int)) :
    ∀ T : List (Int × Int × Int), (∀ e ∈ T2, 0 ≤ (weightFunc nodes e.1 e.2.1 e.2.2).1) →
      traceValue nodes weightFunc T ≤ traceValue nodes weightFunc (T ++ T2) := by
  induction T2 with
  | nil => intro T _; rw [List.append_nil]
  | cons e T2 ih =>
    intro T h
    have h1 := ih (T ++ [e]) (fun x hx => h x (List.mem_cons_of_mem _ hx))
    rw [List.append_assoc, List.singleton_append, traceValue_snoc] at h1
    exact le_trans (le_f64add _ _ (traceValue_isF64 nodes weightFunc T)
      (h e (List.mem_cons_self _ _))) h1

/-- Lowering weights keeps a sequence of calls the witness of a weight. -/
theorem isTrace_mono (nodes : NodeSet δ) (weightFunc : WeightFunc δ) (fromId : Int)
    (weights weights2 : IntMap ℚ) (T : List (Int × Int × Int)) (x : Int) (v : ℚ)
    (hle : ∀ y w, weights y = some w → ∃ w2, weights2 y = some w2 ∧ w2 ≤ w)
    (h : IsTrace nodes weightFunc fromId weights T x v) :
    IsTrace nodes weightFunc fromId weights2 T x v := by
  refine ⟨h.last, h.value, h.nodup, h.mem, h.nonneg, ?_⟩
  intro T1 e T2 hsplit
  obtain ⟨w, hw1, hw2⟩ := h.initial T1 e T2 hsplit
  obtain ⟨w2, hw3, hw4⟩ := hle _ _ hw1
  exact ⟨w2, hw3, le_trans hw4 hw2⟩

theorem traceBelow_mono (nodes : NodeSet δ) (weightFunc : WeightFunc δ)
    (weights weights2 : IntMap ℚ) (T : List (Int × Int × Int))
    (hle : ∀ y w, weights y = some w → ∃ w2, weights2 y = some w2 ∧ w2 ≤ w)
    (h : traceBelow nodes weightFunc weights2 T = true) :
    traceBelow nodes weightFunc weights T = true := by
  unfold traceBelow at h ⊢
  cases hl : T.getLast? with
  | none => rw [hl] at h; exact h
  | some e =>
    rw [hl] at h
    dsimp only at h ⊢
    cases hw : weights e.2.2 with
    | none => rfl
    | some w =>
      obtain ⟨w2, hw3, hw4⟩ := hle _ _ hw
      rw [hw3] at h
      dsimp only at h ⊢
      simp only [decide_eq_true_eq] at h ⊢
      exact lt_of_lt_of_le h hw4

/-- One step of the loop over the connections keeps the invariant, only
lowers weights, and does not raise the bound on the iterations left. -/
theorem traceInv_edge (nodes : NodeSet δ) (weightFunc : WeightFunc δ) (fromId toId : Int)
    (hnn : NonNegOrVeto nodes weightFunc) (cur : Connection) (c : Int) (s : RelaxState)
    (h : TraceInv nodes weightFunc fromId s) (hcur : ∃ v, s.weights cur.To = some v)
    (hcurTo : cur.To ∈ fromId :: allConns nodes)
    (hcurFrom : cur.From ∈ -1 :: fromId :: allConns nodes) (hc : c ∈ nodes.conns cur.To) :
    (relaxEdge nodes weightFunc toId cur c s).2 = none ∧
    TraceInv nodes weightFunc fromId (relaxEdge nodes weightFunc toId cur c s).1 ∧
    (∀ y w, s.weights y = some w →
      ∃ w2, (relaxEdge nodes weightFunc toId cur c s).1.weights y = some w2 ∧ w2 ≤ w) ∧
    (relaxEdge nodes weightFunc toId cur c s).1.queue.length +
        tracePotential nodes weightFunc fromId
          (relaxEdge nodes weightFunc toId cur c s).1.weights ≤
      s.queue.length + tracePotential nodes weightFunc fromId s.weights := by
  have hnoerr : (relaxEdge nodes weightFunc toId cur c s).2 = none := by
    apply relaxEdge_no_error
    rcases hnn cur.From cur.To c with h1 | ⟨h1, _⟩
    · exact Or.inl h1
    · exact Or.inr h1
  refine ⟨hnoerr, ?_⟩
  obtain ⟨vu, hvu⟩ := hcur
  have hread : s.weights.read cur.To = vu := IntMap.read_some _ _ _ hvu
  rcases relaxEdge_cases nodes weightFunc toId cur c s with
    ⟨hw, _, hq, _⟩ | ⟨herr, _, himp, hw, hq⟩
  · refine ⟨⟨?_, ?_⟩, ?_, ?_⟩
    · rw [hw]; exact h.traced
    · rw [hw, hq]; exact h.queued
    · intro y w hy
      rw [hw]
      exact ⟨w, hy, le_refl _⟩
    · rw [hw, hq]
  · rw [hread] at himp hw
    have hr0 : 0 ≤ (weightFunc nodes cur.From cur.To c).1 := by
      rcases hnn cur.From cur.To c with h1 | ⟨_, h1⟩
      · rw [herr] at h1; exact absurd h1 (by simp)
      · exact h1
    have hle : ∀ y w, s.weights y = some w →
        ∃ w2, (relaxEdge nodes weightFunc toId cur c s).1.weights y = some w2 ∧ w2 ≤ w := by
      intro y w hy
      rw [hw]
      by_cases hyc : y = c
      · subst hyc
        refine ⟨_, IntMap.set_same _ _ _, ?_⟩
        rcases himp with h1 | ⟨k, h1, h2⟩
        · rw [h1] at hy; exact absurd hy (by simp)
        · rw [h1] at hy
          simp only [Option.some.injEq] at hy
          subst hy
          exact le_of_lt h2
      · rw [IntMap.set_other _ _ _ _ hyc]
        exact ⟨w, hy, le_refl _⟩
    obtain ⟨Tu, hTu⟩ := h.traced cur.To vu hvu
    have hcn : c ∉ Tu.map (fun e => e.2.2) := by
      intro hmem
      rw [List.mem_map] at hmem
      obtain ⟨e1, he1, he1c⟩ := hmem
      obtain ⟨T1, T2, hsplit⟩ := List.append_of_mem he1
      obtain ⟨w, hw1, hw2⟩ := hTu.initial T1 e1 T2 hsplit
      rw [he1c] at hw1
      have hval : traceValue nodes weightFunc (T1 ++ [e1]) ≤ vu := by
        have h3 : Tu = (T1 ++ [e1]) ++ T2 := by rw [hsplit]; simp
        have h4 := hTu.value
        rw [h3] at h4
        rw [← h4]
        apply traceValue_le_append
        intro e he
        apply hTu.nonneg
        rw [hsplit]
        exact List.mem_append_right _ (List.mem_cons_of_mem _ he)
      have hvnw : vu ≤ f64add vu (weightFunc nodes cur.From cur.To c).1 := by
        apply le_f64add _ _ _ hr0
        rw [← hTu.value]
        exact traceValue_isF64 nodes weightFunc Tu
      rcases himp with h1 | ⟨k, h1, h2⟩
      · rw [h1] at hw1; exact absurd hw1 (by simp)
      · rw [h1] at hw1
        simp only [Option.some.injEq] at hw1
        subst hw1
        linarith
    have hval2 : traceValue nodes weightFunc (Tu ++ [(cur.From, cur.To, c)]) =
        f64add vu (weightFunc nodes cur.From cur.To c).1 := by
      rw [traceValue_snoc, hTu.value]
    have hnew : IsTrace nodes weightFunc fromId
        (relaxEdge nodes weightFunc toId cur c s).1.weights
        (Tu ++ [(cur.From, cur.To, c)]) c (f64add vu (weightFunc nodes cur.From cur.To c).1) := by
      refine ⟨?_, hval2, ?_, ?_, ?_, ?_⟩
      · unfold traceEnd
        rw [List.getLast?_concat]
      · rw [List.map_append, List.nodup_append]
        refine ⟨hTu.nodup, by simp, ?_⟩
        intro x hx hx2
        simp only [List.map_cons, List.map_nil, List.mem_singleton] at hx2
        rw [hx2] at hx
        exact hcn hx
      · intro e he
        rcases List.mem_append.mp he with h1 | h1
        · exact hTu.mem e h1
        · rw [List.mem_singleton] at h1
          rw [h1]
          exact mem_tripleList nodes fromId _ _ _ hcurFrom hcurTo (mem_allConns nodes _ _ hc)
      · intro e he
        rcases List.mem_append.mp he with h1 | h1
        · exact hTu.nonneg e h1
        · rw [List.mem_singleton] at h1
          rw [h1]
          exact hr0
      · intro T1 e1 T2 hsplit
        rcases List.eq_nil_or_concat T2 with h0 | ⟨T3, b, h0⟩
        · subst h0
          obtain ⟨g1, g2⟩ := List.append_inj' hsplit rfl
          simp only [List.cons.injEq, and_true] at g2
          subst g1; subst g2
          refine ⟨_, ?_, le_of_eq hval2.symm⟩
          rw [hw]
          exact IntMap.set_same _ _ _
        · rw [List.concat_eq_append] at h0
          subst h0
          have hsplit2 : Tu ++ [(cur.From, cur.To, c)] = (T1 ++ e1 :: T3) ++ [b] := by
            rw [hsplit]; simp
          obtain ⟨g1, _⟩ := List.append_inj' hsplit2 rfl
          obtain ⟨w, hw1, hw2⟩ := hTu.initial T1 e1 T3 g1
          obtain ⟨w2, hw3, hw4⟩ := hle _ _ hw1
          exact ⟨w2, hw3, le_trans hw4 hw2⟩
    have hqlen : (relaxEdge nodes weightFunc toId cur c s).1.queue.length ≤
        s.queue.length + 1 := by
      rcases hq with ⟨_, _, h1⟩ | ⟨_, _, h1⟩
      · rw [h1]; omega
      · rw [h1]; simp
    have hpot : tracePotential nodes weightFunc fromId
          (relaxEdge nodes weightFunc toId cur c s).1.weights <
        tracePotential nodes weightFunc fromId s.weights := by
      unfold tracePotential
      apply countP_lt_of_mem _ _ _ _ (Tu ++ [(cur.From, cur.To, c)])
      · apply mem_allTraces
        · exact List.Nodup.of_map _ hnew.nodup
        · exact hnew.mem
      · unfold traceBelow
        rw [List.getLast?_concat]
        dsimp only
        rcases himp with h1 | ⟨k, h1, h2⟩
        · rw [h1]
        · rw [h1]
          dsimp only
          rw [hval2]
          simpa using h2
      · unfold traceBelow
        rw [List.getLast?_concat]
        dsimp only
        rw [hw, IntMap.set_same]
        dsimp only
        rw [hval2]
        simp
      · intro T _ hT
        exact traceBelow_mono nodes weightFunc s.weights _ T hle hT
    refine ⟨⟨?_, ?_⟩, hle, by omega⟩
    · intro x v hx
      by_cases hxc : x = c
      · subst hxc
        rw [hw, IntMap.set_same] at hx
        simp only [Option.some.injEq] at hx
        subst hx
        exact ⟨_, hnew⟩
      · have hx2 := hx
        rw [hw, IntMap.set_other _ _ _ _ hxc] at hx2
        obtain ⟨T, hT⟩ := h.traced x v hx2
        exact ⟨T, isTrace_mono nodes weightFunc fromId s.weights _ T x v hle hT⟩
    · intro e he
      have hcase : e ∈ s.queue ∨ e = ⟨c, cur.To⟩ := by
        rcases hq with ⟨_, _, h1⟩ | ⟨_, _, h1⟩
        · rw [h1] at he; exact Or.inl he
        · rw [h1, List.mem_append, List.mem_singleton] at he; exact he
      rcases hcase with h1 | h1
      · obtain ⟨⟨v, hv⟩, g2, g3⟩ := h.queued e h1
        obtain ⟨w2, hw3, _⟩ := hle _ _ hv
        exact ⟨⟨w2, hw3⟩, g2, g3⟩
      · subst h1
        refine ⟨⟨_, by rw [hw]; exact IntMap.set_same _ _ _⟩,
          List.mem_cons_of_mem _ (mem_allConns nodes _ _ hc), List.mem_cons_of_mem _ hcurTo⟩

/-- Under non-negative weights the relaxation loop drains, and an invariant
`Q2` that the loop keeps alongside `TraceInv` holds when it has drained. -/
theorem relaxLoop_induct_nonneg (nodes : NodeSet δ) (weightFunc : WeightFunc δ)
    (fromId toId : Int) (hnn : NonNegOrVeto nodes weightFunc)
    (Q2 : RelaxState → Prop) (P2 : Connection → List Int → RelaxState → Prop)
    (hdeq : ∀ s cur queue, TraceInv nodes weightFunc fromId s → Q2 s → s.queue = cur :: queue →
      P2 cur [] { s with queue := queue })
    (hedge : ∀ cur done c rest s, nodes.conns cur.To = done ++ c :: rest →
      TraceInv nodes weightFunc fromId s → (∃ v, s.weights cur.To = some v) → P2 cur done s →
      P2 cur (done ++ [c]) (relaxEdge nodes weightFunc toId cur c s).1)
    (hdone : ∀ cur s, P2 cur (nodes.conns cur.To) s → Q2 s) :
    ∀ (fuel : Nat) (s : RelaxState), TraceInv nodes weightFunc fromId s → Q2 s →
      s.queue.length + tracePotential nodes weightFunc fromId s.weights ≤ fuel →
      (relaxLoop nodes weightFunc toId fuel s).2 = RelaxStatus.drained ∧
      TraceInv nodes weightFunc fromId (relaxLoop nodes weightFunc toId fuel s).1 ∧
      Q2 (relaxLoop nodes weightFunc toId fuel s).1 ∧
      (relaxLoop nodes weightFunc toId fuel s).1.queue = [] := by
  intro fuel s hT hQ2 hfuel
  obtain ⟨g1, ⟨g2, g3⟩, g4⟩ := relaxLoop_induct nodes weightFunc toId
    (fun s => TraceInv nodes weightFunc fromId s ∧ Q2 s)
    (fun cur done s => TraceInv nodes weightFunc fromId s ∧ (∃ v, s.weights cur.To = some v) ∧
      cur.To ∈ fromId :: allConns nodes ∧ cur.From ∈ -1 :: fromId :: allConns nodes ∧
      P2 cur done s)
    (fun s => s.queue.length + tracePotential nodes weightFunc fromId s.weights)
    (by
      intro s cur queue hQ hq
      obtain ⟨hT, hQ2⟩ := hQ
      obtain ⟨h1, h2, h3⟩ := hT.queued cur (by rw [hq]; exact List.mem_cons_self _ _)
      refine ⟨⟨⟨hT.traced, ?_⟩, h1, h2, h3, hdeq s cur queue hT hQ2 hq⟩, ?_⟩
      · intro e he
        exact hT.queued e (by rw [hq]; exact List.mem_cons_of_mem _ he)
      · dsimp only
        rw [hq, List.length_cons]
        omega)
    (by
      intro cur done c rest s hsplit hP
      obtain ⟨hT, hcur, hcurTo, hcurFrom, hP2⟩ := hP
      have hc : c ∈ nodes.conns cur.To := by rw [hsplit]; simp
      obtain ⟨k1, k2, k3, k4⟩ := traceInv_edge nodes weightFunc fromId toId hnn cur c s hT hcur
        hcurTo hcurFrom hc
      refine ⟨k1, ⟨k2, ?_, hcurTo, hcurFrom, hedge cur done c rest s hsplit hT hcur hP2⟩, k4⟩
      obtain ⟨v, hv⟩ := hcur
      obtain ⟨w2, hw2, _⟩ := k3 _ _ hv
      exact ⟨w2, hw2⟩)
    (by
      intro cur s hP
      exact ⟨hP.1, hdone cur s hP.2.2.2.2⟩)
    fuel s ⟨hT, hQ2⟩ hfuel
  exact ⟨g1, g2, g3, g4⟩

theorem relaxInit_traceInv (nodes : NodeSet δ) (weightFunc : WeightFunc δ) (fromId : Int) :
    TraceInv nodes weightFunc fromId (relaxInit fromId) := by
  refine ⟨?_, ?_⟩
  · intro x v hx
    have hxv : x = fromId ∧ v = 0 := by
      simp only [relaxInit, IntMap.set, IntMap.empty] at hx
      by_cases hxf : x = fromId
      · rw [if_pos hxf] at hx
        simp only [Option.some.injEq] at hx
        exact ⟨hxf, hx.symm⟩
      · rw [if_neg hxf] at hx
        exact absurd hx (by simp)
    obtain ⟨h1, h2⟩ := hxv
    subst h1; subst h2
    refine ⟨[], rfl, rfl, List.nodup_nil, ?_, ?_, ?_⟩
    · intro e he; simp at he
    · intro e he; simp at he
    · intro T1 e T2 hsplit; simp at hsplit
  · intro e he
    simp only [relaxInit, List.mem_singleton] at he
    subst he
    refine ⟨⟨0, IntMap.set_same _ _ _⟩, List.mem_cons_self _ _, List.mem_cons_self _ _⟩

theorem relaxInit_potential (nodes : NodeSet δ) (weightFunc : WeightFunc δ) (fromId : Int) :
    (relaxInit fromId).queue.length +
        tracePotential nodes weightFunc fromId (relaxInit fromId).weights ≤
      1 + (allTraces nodes fromId).length := by
  have : tracePotential nodes weightFunc fromId (relaxInit fromId).weights ≤
      (allTraces nodes fromId).length := List.countP_le_length _
  simp only [relaxInit, List.length_singleton] at this ⊢
  omega

/-- Under non-negative weights the relaxation loop drains within `1 +` the
number of sequences of calls iterations. -/
theorem relaxLoop_drains (nodes : NodeSet δ) (weightFunc : WeightFunc δ) (fromId toId : Int)
    (hnn : NonNegOrVeto nodes weightFunc) (fuel : Nat)
    (hfuel : 1 + (allTraces nodes fromId).length ≤ fuel) :
    (relaxLoop nodes weightFunc toId fuel (relaxInit fromId)).2 = RelaxStatus.drained := by
  exact (relaxLoop_induct_nonneg nodes weightFunc fromId toId hnn (fun _ => True)
    (fun _ _ _ => True) (fun _ _ _ _ _ _ => trivial) (fun _ _ _ _ _ _ _ _ _ => trivial)
    (fun _ _ _ => trivial) fuel (relaxInit fromId)
    (relaxInit_traceInv nodes weightFunc fromId) trivial
    (le_trans (relaxInit_potential nodes weightFunc fromId) hfuel)).1


/-! ## Source and target the same node -/

/-- C14: when `fromId` equals `toId`, `FastSolver` returns the path `[fromId]`
for every node set (whether `fromId` is registered or not) and every `check`,
as soon as it is given one iteration; and `WeightedSolver` returns `[fromId]`
for every node set and every weight function that returns only non-negative
costs or vetoes, once the relaxation has been given enough iterations to
drain.  The uniform weight function is such a weight function. -/
theorem solvers_same_endpoint (nodes : NodeSet δ) (fromId : Int) :
    (∀ (check : CheckFunc δ) (fuel : Nat), 1 ≤ fuel →
      nodes.FastSolver fuel fromId fromId check = some ([fromId], none)) ∧
    (∀ weightFunc : WeightFunc δ, NonNegOrVeto nodes weightFunc →
      ∃ N, ∀ fuel, N ≤ fuel →
        nodes.WeightedSolver fuel fromId fromId weightFunc = some ([fromId], none)) ∧
    NonNegOrVeto nodes (WeightFuncConnections : WeightFunc δ) := by
  refine ⟨?_, ?_, fun _ _ _ => Or.inr ⟨rfl, by simp [WeightFuncConnections]⟩⟩
  · intro check fuel hfuel
    obtain ⟨n, rfl⟩ : ∃ n, fuel = n + 1 := ⟨fuel - 1, by omega⟩
    simp [NodeSet.FastSolver, fastSearch, fastInit, fastWalk]
  · intro weightFunc hnn
    refine ⟨1 + (allTraces nodes fromId).length, ?_⟩
    intro fuel hfuel
    have hdr := relaxLoop_drains nodes weightFunc fromId fromId hnn fuel hfuel
    obtain ⟨n, rfl⟩ : ∃ n, fuel = n + 1 := ⟨fuel - 1, by omega⟩
    unfold NodeSet.WeightedSolver NodeSet.weightedRun
    cases hr : relaxLoop nodes weightFunc fromId (n + 1) (relaxInit fromId) with
    | mk s st =>
      rw [hr] at hdr
      dsimp only at hdr
      subst hdr
      simp [weightedWalk]

/-! ## A cost absorbed by the rounding -/

unseal Rat.add Rat.mul Rat.inv Rat.sub in
/-- C20: on the undirected line 1-2-3-4 (the connection list of 3 being
`[4, 2]`) with the strictly positive costs `2^53` on the edge 1-2 and 1 on the
other edges, the `float64` sums `2^53 + 1` round to `2^53`: the relaxation
towards 4 drains with the weight `2^53` for each of 2, 3 and 4, the step of the
walk back from 4 goes to 3, whose weight is not smaller, the step from 3 goes
back to 4, and `WeightedSolver(1, 4)` returns nothing, however many iterations
it is given. -/
theorem WeightedSolver_absorbed_cost_never_ends :
    SymmetricGraph lineGraph4 ∧ PositiveOrVeto lineGraph4 absorbWeight ∧
      (relaxLoop lineGraph4 absorbWeight 4 3 (relaxInit 1)).2 = RelaxStatus.drained ∧
      (relaxLoop lineGraph4 absorbWeight 4 3 (relaxInit 1)).1.weights 2 =
        some 9007199254740992 ∧
      (relaxLoop lineGraph4 absorbWeight 4 3 (relaxInit 1)).1.weights 3 =
        some 9007199254740992 ∧
      (relaxLoop lineGraph4 absorbWeight 4 3 (relaxInit 1)).1.weights 4 =
        some 9007199254740992 ∧
      firstWeighted (relaxLoop lineGraph4 absorbWeight 4 3 (relaxInit 1)).1.weights
        (sortByWeight (relaxLoop lineGraph4 absorbWeight 4 3 (relaxInit 1)).1.weights
          (lineGraph4.conns 4)) 4 = 3 ∧
      firstWeighted (relaxLoop lineGraph4 absorbWeight 4 3 (relaxInit 1)).1.weights
        (sortByWeight (relaxLoop lineGraph4 absorbWeight 4 3 (relaxInit 1)).1.weights
          (lineGraph4.conns 3)) 3 = 4 ∧
      ∀ fuel, lineGraph4.WeightedSolver fuel 1 4 absorbWeight = none := by
  refine ⟨symmetricGraph_of_keys _ (by decide), ?_, by decide, by decide, by decide, by decide,
    by decide, by decide, ?_⟩
  · intro p u c
    right
    unfold absorbWeight
    split
    · exact ⟨rfl, by norm_num⟩
    · exact ⟨rfl, by norm_num⟩
  · exact WeightedSolver_none_of_two_cycle lineGraph4 absorbWeight 1 4 3 3
      (by decide) (by decide) (by decide) (by decide) (by decide) (by decide) (by decide)
      (by decide) (by decide)

/-! ## The cost recorded for the target -/

theorem costReach_isF64 (nodes : NodeSet δ) (weightFunc : WeightFunc δ) (fromId : Int)
    (x : Int) (v : ℚ) (h : CostReach nodes weightFunc fromId x v) : f64round v = v := by
  cases h with
  | source => exact f64round_zero
  | step _ _ _ => exact f64round_f64add _ _

theorem costReach_nonneg (nodes : NodeSet δ) (weightFunc : WeightFunc δ) (fromId : Int)
    (hnn : NonNegOrVeto nodes weightFunc) (x : Int) (v : ℚ)
    (h : CostReach nodes weightFunc fromId x v) : 0 ≤ v := by
  induction h with
  | source => exact le_refl _
  | @step u c v hu _ hveto ih =>
    rcases hnn (-1) u c with h1 | ⟨_, h1⟩
    · rw [hveto] at h1; exact absurd h1 (by simp)
    · exact le_trans ih (le_f64add _ _ (costReach_isF64 nodes weightFunc fromId u v hu) h1)

theorem isRoute_snoc_iff (nodes : NodeSet δ) (q : List Int) (u c : Int)
    (hlast : q.getLast? = some u) :
    IsRoute nodes (q ++ [c]) ↔ IsRoute nodes q ∧ c ∈ nodes.conns u := by
  rw [isRoute_iff_chain, isRoute_iff_chain, List.chain'_append]
  constructor
  · rintro ⟨h1, _, h3⟩
    exact ⟨h1, h3 u (by simp [hlast]) c (by simp)⟩
  · rintro ⟨h1, h2⟩
    refine ⟨h1, by simp, ?_⟩
    intro a ha b hb
    rw [hlast] at ha
    simp only [Option.mem_def, Option.some.injEq] at ha
    simp only [List.head?_cons, Option.mem_def, Option.some.injEq] at hb
    subst ha; subst hb
    exact h2

theorem noVeto_snoc_iff (nodes : NodeSet δ) (weightFunc : WeightFunc δ)
    (hedge : EdgeOnly nodes weightFunc) (c : Int) :
    ∀ (q : List Int) (previous u : Int), q.getLast? = some u →
      (NoVeto nodes weightFunc previous (q ++ [c]) ↔
        NoVeto nodes weightFunc previous q ∧ (weightFunc nodes (-1) u c).2 = none) := by
  intro q
  induction q with
  | nil => intro previous u h; simp at h
  | cons a q ih =>
    intro previous u hlast
    cases q with
    | nil =>
      simp only [List.getLast?_singleton, Option.some.injEq] at hlast
      subst hlast
      simp only [List.singleton_append, NoVeto, and_true, true_and]
      rw [hedge previous (-1) a c]
    | cons b rest =>
      have hlast2 : (b :: rest).getLast? = some u := by
        rw [List.getLast?_cons_cons] at hlast
        exact hlast
      have := ih a u hlast2
      change ((weightFunc nodes previous a b).2 = none ∧
          NoVeto nodes weightFunc a ((b :: rest) ++ [c])) ↔
        ((weightFunc nodes previous a b).2 = none ∧ NoVeto nodes weightFunc a (b :: rest)) ∧
          (weightFunc nodes (-1) u c).2 = none
      rw [this, and_assoc]

theorem routeCost64_snoc (nodes : NodeSet δ) (weightFunc : WeightFunc δ)
    (hedge : EdgeOnly nodes weightFunc) (c : Int) :
    ∀ (q : List Int) (acc : ℚ) (previous u : Int), q.getLast? = some u →
      routeCost64 nodes weightFunc acc previous (q ++ [c]) =
        f64add (routeCost64 nodes weightFunc acc previous q) (weightFunc nodes (-1) u c).1 := by
  intro q
  induction q with
  | nil => intro acc previous u h; simp at h
  | cons a q ih =>
    intro acc previous u hlast
    cases q with
    | nil =>
      simp only [List.getLast?_singleton, Option.some.injEq] at hlast
      subst hlast
      simp only [List.singleton_append, routeCost64]
      rw [hedge previous (-1) a c]
    | cons b rest =>
      have hlast2 : (b :: rest).getLast? = some u := by
        rw [List.getLast?_cons_cons] at hlast
        exact hlast
      have := ih (f64add acc (weightFunc nodes previous a b).1) a u hlast2
      change routeCost64 nodes weightFunc (f64add acc (weightFunc nodes previous a b).1) a
          ((b :: rest) ++ [c]) =
        f64add (routeCost64 nodes weightFunc (f64add acc (weightFunc nodes previous a b).1) a
          (b :: rest)) (weightFunc nodes (-1) u c).1
      exact this

/-- The accumulated costs of the routes along non-vetoed edges. -/
theorem costReach_iff_route (nodes : NodeSet δ) (weightFunc : WeightFunc δ) (fromId : Int)
    (hedge : EdgeOnly nodes weightFunc) (x : Int) (v : ℚ) :
    CostReach nodes weightFunc fromId x v ↔
      ∃ p, AllowedRoute nodes weightFunc fromId x p ∧
        routeCost64 nodes weightFunc 0 (-1) p = v := by
  constructor
  · intro h
    induction h with
    | source => exact ⟨[fromId], ⟨rfl, rfl, trivial, trivial⟩, rfl⟩
    | @step u c v _ hconn hveto ih =>
      obtain ⟨p, ⟨h1, h2, h3, h4⟩, h5⟩ := ih
      have hne : p ≠ [] := by
        intro h0; subst h0; simp at h1
      refine ⟨p ++ [c], ⟨?_, List.getLast?_concat p, ?_, ?_⟩, ?_⟩
      · cases p with
        | nil => exact absurd rfl hne
        | cons a q1 => simpa using h1
      · exact (isRoute_snoc_iff nodes p u c h2).mpr ⟨h3, hconn⟩
      · exact (noVeto_snoc_iff nodes weightFunc hedge c p (-1) u h2).mpr ⟨h4, hveto⟩
      · rw [routeCost64_snoc nodes weightFunc hedge c p 0 (-1) u h2, h5]
  · rintro ⟨p, hp, hv⟩
    revert x v
    induction p using List.reverseRecOn with
    | nil => intro x v hp _; simp [AllowedRoute] at hp
    | append_singleton q c ih =>
      intro x v hp hv
      obtain ⟨h1, h2, h3, h4⟩ := hp
      rw [List.getLast?_concat] at h2
      simp only [Option.some.injEq] at h2
      subst h2
      cases hq : q.getLast? with
      | none =>
        rw [List.getLast?_eq_none_iff] at hq
        subst hq
        simp only [List.nil_append, List.head?_cons, Option.some.injEq] at h1
        subst h1
        simp only [List.nil_append, routeCost64] at hv
        subst hv
        exact CostReach.source
      | some u =>
        have hne : q ≠ [] := by
          intro h0; subst h0; simp at hq
        obtain ⟨g1, g2⟩ := (isRoute_snoc_iff nodes q u c hq).mp h3
        obtain ⟨g3, g4⟩ := (noVeto_snoc_iff nodes weightFunc hedge c q (-1) u hq).mp h4
        rw [routeCost64_snoc nodes weightFunc hedge c q 0 (-1) u hq] at hv
        have hhead : q.head? = some fromId := by
          cases q with
          | nil => exact absurd rfl hne
          | cons a q1 => simpa using h1
        have := ih u (routeCost64 nodes weightFunc 0 (-1) q) ⟨hhead, hq, g1, g3⟩ rfl
        rw [← hv]
        exact CostReach.step this g2 g4

theorem settled_mono (nodes : NodeSet δ) (weightFunc : WeightFunc δ) (s s2 : RelaxState)
    (v : ℚ) (x c : Int)
    (hle : ∀ y w, s.weights y = some w → ∃ w2, s2.weights y = some w2 ∧ w2 ≤ w)
    (htop : s2.top ≤ s.top) (h : Settled nodes weightFunc s v x c) :
    Settled nodes weightFunc s2 v x c := by
  rcases h with h1 | h1 | ⟨k, h1, h2⟩
  · exact Or.inl h1
  · exact Or.inr (Or.inl (lt_of_le_of_lt htop h1))
  · obtain ⟨w2, hw1, hw2⟩ := hle c k h1
    exact Or.inr (Or.inr ⟨w2, hw1, le_trans hw2 h2⟩)

theorem costInv_closed_step (nodes : NodeSet δ) (weightFunc : WeightFunc δ) (fromId toId : Int)
    (u : Int) (done : List Int) (c : Int) (s s2 : RelaxState) (vu : ℚ)
    (h : CostInv nodes weightFunc fromId toId (some (u, done)) s)
    (hvu : s.weights u = some vu)
    (hle : ∀ y w, s.weights y = some w → ∃ w2, s2.weights y = some w2 ∧ w2 ≤ w)
    (htop : s2.top ≤ s.top) (hq : ∀ e ∈ s.queue, e ∈ s2.queue)
    (hc : Settled nodes weightFunc s2 vu u c) :
    ∀ x v, s.weights x = some v → x ≠ toId →
      (∃ e ∈ s2.queue, e.To = x) ∨
        ∀ c2 ∈ settledList nodes (some (u, done ++ [c])) x,
          Settled nodes weightFunc s2 v x c2 := by
  intro x v hx hxt
  rcases h.closed x v hx hxt with ⟨e, he, hex⟩ | hs
  · exact Or.inl ⟨e, hq e he, hex⟩
  · right
    intro c2 hc2
    by_cases hxu : x = u
    · subst hxu
      simp only [settledList, if_true] at hc2 hs
      rw [hvu] at hx
      simp only [Option.some.injEq] at hx
      subst hx
      rcases List.mem_append.mp hc2 with h1 | h1
      · exact settled_mono nodes weightFunc s s2 _ _ _ hle htop (hs c2 h1)
      · rw [List.mem_singleton] at h1
        rw [h1]
        exact hc
    · simp only [settledList, if_neg hxu] at hc2 hs
      exact settled_mono nodes weightFunc s s2 _ _ _ hle htop (hs c2 hc2)

/-- One step of the loop over the connections keeps the invariant and settles
the connection. -/
theorem costInv_edge (nodes : NodeSet δ) (weightFunc : WeightFunc δ) (fromId toId : Int)
    (hedge : EdgeOnly nodes weightFunc) (hnn : NonNegOrVeto nodes weightFunc)
    (cur : Connection) (done : List Int) (c : Int) (s : RelaxState)
    (hc : c ∈ nodes.conns cur.To) (hcur : ∃ v, s.weights cur.To = some v)
    (h : CostInv nodes weightFunc fromId toId (some (cur.To, done)) s) :
    CostInv nodes weightFunc fromId toId (some (cur.To, done ++ [c]))
      (relaxEdge nodes weightFunc toId cur c s).1 := by
  obtain ⟨vu, hvu⟩ := hcur
  have hread : s.weights.read cur.To = vu := IntMap.read_some _ _ _ hvu
  have hwf : weightFunc nodes cur.From cur.To c = weightFunc nodes (-1) cur.To c :=
    hedge cur.From (-1) cur.To c
  have htopMax : s.top ≤ MaxFloat64 := by
    rcases h.top with ⟨h1, _⟩ | ⟨_, h1⟩
    · rw [h1]
    · exact h1
  rcases relaxEdge_cases nodes weightFunc toId cur c s with
    ⟨hw, ht, hq, hreason⟩ | ⟨herr, hnot, himp, hw, hq⟩
  · rw [hread, hwf] at hreason
    have hle : ∀ y w, s.weights y = some w →
        ∃ w2, (relaxEdge nodes weightFunc toId cur c s).1.weights y = some w2 ∧ w2 ≤ w := by
      intro y w hy
      rw [hw]
      exact ⟨w, hy, le_refl _⟩
    refine ⟨by rw [hw]; exact h.source, by rw [hw]; exact h.sound,
      by rw [hw, ht]; exact h.top, by rw [hq]; exact h.noTarget, ?_⟩
    intro x v hx hxt
    rw [hw] at hx
    apply costInv_closed_step nodes weightFunc fromId toId cur.To done c s _ vu h hvu hle
      (by rw [ht]) (by rw [hq]; exact fun e he => he) _ x v hx hxt
    rcases hreason with h1 | h1 | ⟨k, h1, h2⟩
    · exact Or.inl h1
    · exact Or.inr (Or.inl (by rw [ht]; exact h1))
    · exact Or.inr (Or.inr ⟨k, by rw [hw]; exact h1, le_of_not_lt h2⟩)
  · rw [hread, hwf] at hnot himp hw hq
    rw [hwf] at herr
    have hr0 : 0 ≤ (weightFunc nodes (-1) cur.To c).1 := by
      rcases hnn (-1) cur.To c with h1 | ⟨_, h1⟩
      · rw [herr] at h1; exact absurd h1 (by simp)
      · exact h1
    have hvu0 : 0 ≤ vu := costReach_nonneg nodes weightFunc fromId hnn _ _ (h.sound _ _ hvu)
    have hnw0 : 0 ≤ f64add vu (weightFunc nodes (-1) cur.To c).1 :=
      le_trans hvu0 (le_f64add _ _
        (costReach_isF64 nodes weightFunc fromId _ _ (h.sound _ _ hvu)) hr0)
    have hcf : c ≠ fromId := by
      intro heq
      rcases himp with h1 | ⟨k, h1, h2⟩
      · rw [heq, h.source] at h1; exact absurd h1 (by simp)
      · rw [heq, h.source] at h1
        simp only [Option.some.injEq] at h1
        subst h1
        linarith
    have hle : ∀ y w, s.weights y = some w →
        ∃ w2, (relaxEdge nodes weightFunc toId cur c s).1.weights y = some w2 ∧ w2 ≤ w := by
      intro y w hy
      rw [hw]
      by_cases hyc : y = c
      · subst hyc
        refine ⟨_, IntMap.set_same _ _ _, ?_⟩
        rcases himp with h1 | ⟨k, h1, h2⟩
        · rw [h1] at hy; exact absurd hy (by simp)
        · rw [h1] at hy
          simp only [Option.some.injEq] at hy
          subst hy
          exact le_of_lt h2
      · rw [IntMap.set_other _ _ _ _ hyc]
        exact ⟨w, hy, le_refl _⟩
    have htop : (relaxEdge nodes weightFunc toId cur c s).1.top ≤ s.top := by
      rcases hq with ⟨_, h1, _⟩ | ⟨_, h1, _⟩
      · rw [h1]; exact le_of_not_lt hnot
      · rw [h1]
    have hqsub : ∀ e ∈ s.queue, e ∈ (relaxEdge nodes weightFunc toId cur c s).1.queue := by
      intro e he
      rcases hq with ⟨_, _, h1⟩ | ⟨_, _, h1⟩
      · rw [h1]; exact he
      · rw [h1]; exact List.mem_append_left _ he
    refine ⟨?_, ?_, ?_, ?_, ?_⟩
    · rw [hw, IntMap.set_other _ _ _ _ (Ne.symm hcf)]
      exact h.source
    · intro x v hx
      rw [hw] at hx
      by_cases hxc : x = c
      · subst hxc
        rw [IntMap.set_same] at hx
        simp only [Option.some.injEq] at hx
        subst hx
        exact CostReach.step (h.sound _ _ hvu) hc herr
      · rw [IntMap.set_other _ _ _ _ hxc] at hx
        exact h.sound x v hx
    · rcases hq with ⟨hct, h1, _⟩ | ⟨hct, h1, _⟩
      · right
        rw [h1, hw, ← hct]
        exact ⟨IntMap.set_same _ _ _, le_trans (le_of_not_lt hnot) htopMax⟩
      · rw [h1, hw, IntMap.set_other _ _ _ _ (Ne.symm hct)]
        exact h.top
    · intro e he
      rcases hq with ⟨_, _, h1⟩ | ⟨hct, _, h1⟩
      · rw [h1] at he; exact h.noTarget e he
      · rw [h1, List.mem_append, List.mem_singleton] at he
        rcases he with he | he
        · exact h.noTarget e he
        · rw [he]; exact hct
    · intro x v hx hxt
      by_cases hxc : x = c
      · left
        rcases hq with ⟨hct, _, _⟩ | ⟨_, _, h1⟩
        · rw [hxc] at hxt; exact absurd hct hxt
        · rw [h1]
          exact ⟨⟨c, cur.To⟩, by simp, hxc.symm⟩
      · rw [hw, IntMap.set_other _ _ _ _ hxc] at hx
        apply costInv_closed_step nodes weightFunc fromId toId cur.To done c s _ vu h hvu hle
          htop hqsub _ x v hx hxt
        exact Or.inr (Or.inr ⟨_, by rw [hw]; exact IntMap.set_same _ _ _, le_refl _⟩)

theorem relaxInit_costInv (nodes : NodeSet δ) (weightFunc : WeightFunc δ) (fromId toId : Int)
    (hne : toId ≠ fromId) :
    CostInv nodes weightFunc fromId toId none (relaxInit fromId) := by
  have hkey : ∀ x v, (relaxInit fromId).weights x = some v → x = fromId ∧ v = 0 := by
    intro x v hx
    simp only [relaxInit, IntMap.set, IntMap.empty] at hx
    by_cases hxf : x = fromId
    · rw [if_pos hxf] at hx
      simp only [Option.some.injEq] at hx
      exact ⟨hxf, hx.symm⟩
    · rw [if_neg hxf] at hx
      exact absurd hx (by simp)
  refine ⟨IntMap.set_same _ _ _, ?_, ?_, ?_, ?_⟩
  · intro x v hx
    obtain ⟨h1, h2⟩ := hkey x v hx
    rw [h1, h2]
    exact CostReach.source
  · left
    refine ⟨rfl, ?_⟩
    cases hv : (relaxInit fromId).weights toId with
    | none => rfl
    | some v => exact absurd (hkey toId v hv).1 hne
  · intro e he
    simp only [relaxInit, List.mem_singleton] at he
    rw [he]
    exact Ne.symm hne
  · intro x v hx _
    left
    exact ⟨⟨fromId, -1⟩, by simp [relaxInit], (hkey x v hx).1.symm⟩

/-- For a weight function that depends only on the edge and returns
non-negative costs or vetoes, the relaxation drains with the invariant. -/
theorem relaxLoop_costInv (nodes : NodeSet δ) (weightFunc : WeightFunc δ) (fromId toId : Int)
    (hne : toId ≠ fromId) (hedge : EdgeOnly nodes weightFunc)
    (hnn : NonNegOrVeto nodes weightFunc) (fuel : Nat)
    (hfuel : 1 + (allTraces nodes fromId).length ≤ fuel) :
    ∃ s, relaxLoop nodes weightFunc toId fuel (relaxInit fromId) = (s, RelaxStatus.drained) ∧
      CostInv nodes weightFunc fromId toId none s ∧ s.queue = [] := by
  obtain ⟨g1, _, g3, g4⟩ := relaxLoop_induct_nonneg nodes weightFunc fromId toId hnn
    (fun s => CostInv nodes weightFunc fromId toId none s)
    (fun cur done s => CostInv nodes weightFunc fromId toId (some (cur.To, done)) s)
    (by
      intro s cur queue _ h hq
      refine ⟨h.source, h.sound, h.top, ?_, ?_⟩
      · intro e he
        exact h.noTarget e (by rw [hq]; exact List.mem_cons_of_mem _ he)
      · intro x v hx hxt
        by_cases hxu : x = cur.To
        · right
          intro c2 hc2
          simp [settledList, hxu] at hc2
        · rcases h.closed x v hx hxt with ⟨e, he, hex⟩ | hs
          · left
            rw [hq, List.mem_cons] at he
            rcases he with he | he
            · rw [he] at hex; exact absurd hex.symm hxu
            · exact ⟨e, he, hex⟩
          · right
            intro c2 hc2
            simp only [settledList, if_neg hxu] at hc2
            exact hs c2 hc2)
    (fun cur done c rest s hsplit _ hcur h =>
      costInv_edge nodes weightFunc fromId toId hedge hnn cur done c s
        (by rw [hsplit]; simp) hcur h)
    (by
      intro cur s h
      refine ⟨h.source, h.sound, h.top, h.noTarget, ?_⟩
      intro x v hx hxt
      rcases h.closed x v hx hxt with h1 | hs
      · exact Or.inl h1
      · right
        intro c2 hc2
        apply hs c2
        by_cases hxu : x = cur.To
        · simp only [settledList, if_pos hxu]
          rw [hxu] at hc2
          exact hc2
        · simp only [settledList, if_neg hxu]
          exact hc2)
    fuel (relaxInit fromId)
    (relaxInit_traceInv nodes weightFunc fromId)
    (relaxInit_costInv nodes weightFunc fromId toId hne)
    (le_trans (relaxInit_potential nodes weightFunc fromId) hfuel)
  cases hr : relaxLoop nodes weightFunc toId fuel (relaxInit fromId) with
  | mk s st =>
    rw [hr] at g1 g3 g4
    dsimp only at g1 g3 g4
    subst g1
    exact ⟨s, rfl, g3, g4⟩

/-- When the relaxation has drained, a route along non-vetoed edges whose
accumulated cost is not above `top` ends at a node with a weight of at most
that cost, unless the target has such a weight. -/
theorem costInv_complete (nodes : NodeSet δ) (weightFunc : WeightFunc δ) (fromId toId : Int)
    (hnn : NonNegOrVeto nodes weightFunc) (s : RelaxState)
    (h : CostInv nodes weightFunc fromId toId none s) (hq : s.queue = [])
    (x : Int) (v : ℚ) (hr : CostReach nodes weightFunc fromId x v) :
    v ≤ s.top →
      (∃ k, s.weights x = some k ∧ k ≤ v) ∨ (∃ k, s.weights toId = some k ∧ k ≤ v) := by
  induction hr with
  | source => intro _; exact Or.inl ⟨0, h.source, le_refl _⟩
  | @step u c v hu hconn hveto ih =>
    intro hle
    have hr0 : 0 ≤ (weightFunc nodes (-1) u c).1 := by
      rcases hnn (-1) u c with h1 | ⟨_, h1⟩
      · rw [hveto] at h1; exact absurd h1 (by simp)
      · exact h1
    have hv : v ≤ f64add v (weightFunc nodes (-1) u c).1 :=
      le_f64add _ _ (costReach_isF64 nodes weightFunc fromId u v hu) hr0
    rcases ih (le_trans hv hle) with ⟨k, hk1, hk2⟩ | ⟨k, hk1, hk2⟩
    · have hmono := f64add_mono_left k v (weightFunc nodes (-1) u c).1 hk2
      by_cases hut : u = toId
      · right
        rw [hut] at hk1
        exact ⟨k, hk1, le_trans hk2 hv⟩
      · rcases h.closed u k hk1 hut with ⟨e, he, _⟩ | hs
        · rw [hq] at he
          simp at he
        · rcases hs c hconn with h1 | h1 | ⟨k2, h1, h2⟩
          · exact absurd hveto h1
          · exact absurd (lt_of_lt_of_le h1 (le_trans hmono hle)) (lt_irrefl _)
          · exact Or.inl ⟨k2, h1, le_trans h2 hmono⟩
    · exact Or.inr ⟨k, hk1, le_trans hk2 hv⟩

theorem relaxation_minimum_of_drained (nodes : NodeSet δ) (weightFunc : WeightFunc δ)
    (fromId toId : Int) (hedge : EdgeOnly nodes weightFunc)
    (hnn : NonNegOrVeto nodes weightFunc) (s : RelaxState)
    (h : CostInv nodes weightFunc fromId toId none s) (hq : s.queue = []) :
    ((∃ v, s.weights toId = some v) ↔
      ∃ p, AllowedRoute nodes weightFunc fromId toId p ∧
        routeCost64 nodes weightFunc 0 (-1) p ≤ MaxFloat64) ∧
    ∀ v, s.weights toId = some v →
      (∃ p, AllowedRoute nodes weightFunc fromId toId p ∧
        routeCost64 nodes weightFunc 0 (-1) p = v) ∧
      ∀ p, AllowedRoute nodes weightFunc fromId toId p →
        v ≤ routeCost64 nodes weightFunc 0 (-1) p := by
  have hlow : ∀ C, CostReach nodes weightFunc fromId toId C → C ≤ MaxFloat64 →
      ∃ k, s.weights toId = some k ∧ k ≤ C := by
    intro C hC hmax
    rcases h.top with ⟨h1, h2⟩ | ⟨h1, _⟩
    · rcases costInv_complete nodes weightFunc fromId toId hnn s h hq toId C hC
        (by rw [h1]; exact hmax) with h3 | h3
      · exact h3
      · exact h3
    · by_cases hCt : C ≤ s.top
      · rcases costInv_complete nodes weightFunc fromId toId hnn s h hq toId C hC hCt
          with h3 | h3
        · exact h3
        · exact h3
      · exact ⟨s.top, h1, le_of_lt (lt_of_not_le hCt)⟩
  constructor
  · constructor
    · rintro ⟨v, hv⟩
      obtain ⟨p, hp, hpv⟩ := (costReach_iff_route nodes weightFunc fromId hedge toId v).mp
        (h.sound toId v hv)
      refine ⟨p, hp, ?_⟩
      rcases h.top with ⟨_, h2⟩ | ⟨h1, h2⟩
      · rw [h2] at hv; exact absurd hv (by simp)
      · rw [h1] at hv
        simp only [Option.some.injEq] at hv
        rw [hpv, ← hv]
        exact h2
    · rintro ⟨p, hp, hmax⟩
      obtain ⟨k, hk, _⟩ := hlow _
        ((costReach_iff_route nodes weightFunc fromId hedge toId _).mpr ⟨p, hp, rfl⟩) hmax
      exact ⟨k, hk⟩
  · intro v hv
    refine ⟨(costReach_iff_route nodes weightFunc fromId hedge toId v).mp (h.sound toId v hv), ?_⟩
    intro p hp
    have hvmax : v ≤ MaxFloat64 := by
      rcases h.top with ⟨_, h2⟩ | ⟨h1, h2⟩
      · rw [h2] at hv; exact absurd hv (by simp)
      · rw [h1] at hv
        simp only [Option.some.injEq] at hv
        rw [← hv]
        exact h2
    by_cases hmax : routeCost64 nodes weightFunc 0 (-1) p ≤ MaxFloat64
    · obtain ⟨k, hk1, hk2⟩ := hlow _
        ((costReach_iff_route nodes weightFunc fromId hedge toId _).mpr ⟨p, hp, rfl⟩) hmax
      rw [hv] at hk1
      simp only [Option.some.injEq] at hk1
      rw [hk1]
      exact hk2
    · exact le_trans hvmax (le_of_lt (lt_of_not_le hmax))

unseal Rat.add Rat.mul Rat.inv Rat.sub in
/-- C18, as stated, fails: on the undirected line 1-2-3 with the cost
`MaxFloat64` on every edge (a weight function that depends only on the edge and
returns non-negative costs), node 3 is reachable from node 1 along the
non-vetoed route `[1, 2, 3]`, yet the relaxation towards 3 drains without a
weight for 3: the sum `MaxFloat64 + MaxFloat64` is infinite in `float64` and the
second edge is pruned against `top`. -/
theorem relaxation_misses_costly_route :
    EdgeOnly lineGraph hugeWeight ∧ NonNegOrVeto lineGraph hugeWeight ∧
      AllowedRoute lineGraph hugeWeight 1 3 [1, 2, 3] ∧
      ∀ fuel, 2 ≤ fuel →
        (relaxLoop lineGraph hugeWeight 3 fuel (relaxInit 1)).2 = RelaxStatus.drained ∧
          (relaxLoop lineGraph hugeWeight 3 fuel (relaxInit 1)).1.weights 3 = none := by
  refine ⟨fun _ _ _ _ => rfl, ?_, ?_, ?_⟩
  · intro p u c
    right
    refine ⟨rfl, ?_⟩
    simp only [hugeWeight, MaxFloat64]
    norm_num
  · refine ⟨by decide, by decide, by simp only [IsRoute, and_true]; decide, ?_⟩
    simp [NoVeto, hugeWeight]
  · intro fuel hfuel
    have h2 : (relaxLoop lineGraph hugeWeight 3 2 (relaxInit 1)).2 = RelaxStatus.drained := by
      decide
    have h3 : (relaxLoop lineGraph hugeWeight 3 2 (relaxInit 1)).1.weights 3 = none := by
      decide
    rw [relaxLoop_mono_le lineGraph hugeWeight 3 2 fuel hfuel (relaxInit 1) _ rfl
      (by rw [h2]; simp)]
    exact ⟨h2, h3⟩

/-- C18, amended: for a weight function that depends only on the edge and
returns non-negative costs or vetoes, and `toId` different from `fromId`, the
relaxation loop drains, and then a weight is recorded for `toId` exactly when
some route from `fromId` to `toId` along non-vetoed edges has a cost of at most
`MaxFloat64`, the cost of a route being the `float64` sum of its edge costs
accumulated from `fromId` on; the recorded weight is the cost of such a route
and is at most the cost of every route from `fromId` to `toId` along non-vetoed
edges. -/
theorem relaxation_records_minimum (nodes : NodeSet δ) (weightFunc : WeightFunc δ)
    (fromId toId : Int) (hne : toId ≠ fromId) (hedge : EdgeOnly nodes weightFunc)
    (hnn : NonNegOrVeto nodes weightFunc) :
    ∃ N, ∀ fuel, N ≤ fuel →
      ∃ s, relaxLoop nodes weightFunc toId fuel (relaxInit fromId) =
          (s, RelaxStatus.drained) ∧
        ((∃ v, s.weights toId = some v) ↔
          ∃ p, AllowedRoute nodes weightFunc fromId toId p ∧
            routeCost64 nodes weightFunc 0 (-1) p ≤ MaxFloat64) ∧
        ∀ v, s.weights toId = some v →
          (∃ p, AllowedRoute nodes weightFunc fromId toId p ∧
            routeCost64 nodes weightFunc 0 (-1) p = v) ∧
          ∀ p, AllowedRoute nodes weightFunc fromId toId p →
            v ≤ routeCost64 nodes weightFunc 0 (-1) p := by
  refine ⟨1 + (allTraces nodes fromId).length, ?_⟩
  intro fuel hfuel
  obtain ⟨s, hs, hinv, hq⟩ := relaxLoop_costInv nodes weightFunc fromId toId hne hedge hnn
    fuel hfuel
  obtain ⟨g1, g2⟩ := relaxation_minimum_of_drained nodes weightFunc fromId toId hedge hnn s
    hinv hq
  exact ⟨s, hs, g1, g2⟩

/-- Witness for C18: the chain 1-2-3-4 with the direct edge 1-4 under the
uniform weight function, from 1 to 3. -/
theorem relaxation_records_minimum_witness :
    ∃ N, ∀ fuel, N ≤ fuel →
      ∃ s, relaxLoop (chainGraph [2, 4] [1, 3] [2, 4] [3, 1]) WeightFuncConnections 3 fuel
            (relaxInit 1) = (s, RelaxStatus.drained) ∧
        ((∃ v, s.weights 3 = some v) ↔
          ∃ p, AllowedRoute (chainGraph [2, 4] [1, 3] [2, 4] [3, 1]) WeightFuncConnections
              1 3 p ∧
            routeCost64 (chainGraph [2, 4] [1, 3] [2, 4] [3, 1]) WeightFuncConnections 0 (-1) p ≤
              MaxFloat64) ∧
        ∀ v, s.weights 3 = some v →
          (∃ p, AllowedRoute (chainGraph [2, 4] [1, 3] [2, 4] [3, 1]) WeightFuncConnections
              1 3 p ∧
            routeCost64 (chainGraph [2, 4] [1, 3] [2, 4] [3, 1]) WeightFuncConnections 0 (-1) p =
              v) ∧
          ∀ p, AllowedRoute (chainGraph [2, 4] [1, 3] [2, 4] [3, 1]) WeightFuncConnections
              1 3 p →
            v ≤ routeCost64 (chainGraph [2, 4] [1, 3] [2, 4] [3, 1]) WeightFuncConnections
              0 (-1) p :=
  relaxation_records_minimum (chainGraph [2, 4] [1, 3] [2, 4] [3, 1]) WeightFuncConnections
    1 3 (by decide) (fun _ _ _ _ => rfl)
    (fun _ _ _ => Or.inr ⟨rfl, by simp [WeightFuncConnections]⟩)


end Pathfinder
